import Mathlib

/-!
Verification development for the `solver` repository: a shallow embedding of the
CDCL SAT engine (`src/include/solver/cdcl_sat.hpp`, templated version), the
trivial reference solver (`src/src/solver_library/trivial_sat.cpp`) and the
DIMACS clause-line parser (`src/src/solver_library/cdcl_sat.cpp`,
`dimacs_parser::parse`), together with theorems settling the specification
claims about them.

Modelling conventions:
 - `std::vector` / `std::deque` become `List` with explicit index access
   (`List.getD`, `List.set`); the C++ code indexes under in-range assertions,
   which become hypotheses of the theorems.
 - the `clause_handle` sentinel `implication::DECISION` (`(uint32_t)-1`) is
   modelled as `Option Nat` with `none` for `DECISION`;
 - `std::map` becomes a strictly-sorted association list (iteration order of
   `std::map` is ascending by key, which the code relies on);
 - unbounded loops take explicit fuel and return `Option`/`Except`, with
   `none`/error for fuel exhaustion; calls whose C++ counterpart throws or has
   undefined behaviour (e.g. `std::map` iterator dereference past the end,
   `std::vector::at` out of range) return dedicated error values.
-/

namespace SolverSpec

/-- The state of `solve_status` from `sat_types.hpp`. -/
inductive solve_status : Type where
  | SAT : solve_status
  | UNSAT : solve_status
  | UNKNOWN : solve_status
deriving DecidableEq, Repr

/-- The `binary_domain` class from `binary_domain.hpp`: two one-bit members
`m_zero` and `m_one` telling whether the domain contains `false` / `true`. -/
structure binary_domain : Type where
  m_zero : Bool
  m_one : Bool
deriving DecidableEq, Repr

/-- Default-constructed `binary_domain`: both bits set (the universal domain). -/
def binary_domain.universal : binary_domain := ⟨true, true⟩

instance : Inhabited binary_domain := ⟨binary_domain.universal⟩

/-- The `explicit binary_domain(bool)` constructor: the singleton domain. -/
def binary_domain.ofBool (value : Bool) : binary_domain := ⟨!value, value⟩

/-- The `binary_domain::contains` member. -/
def binary_domain.containsB (d : binary_domain) (value : Bool) : Bool :=
  if value then d.m_one else d.m_zero

/-- The `binary_domain::is_singleton` member. -/
def binary_domain.is_singleton (d : binary_domain) : Bool := d.m_one != d.m_zero

/-- The `binary_domain::is_universal` member. -/
def binary_domain.is_universal (d : binary_domain) : Bool := d.m_one && d.m_zero

/-- The friend function `min(binary_domain)`: `m_zero == 0`.  `get_value` from
`binary_domain.hpp` returns exactly this value. -/
def binary_domain.minVal (d : binary_domain) : Bool := !d.m_zero

/-- The `cdcl_sat<Strategy>::implication` record: who caused an implication,
its 1-based trail depth and its decision level.  `implication_cause` is
`none` for the `DECISION` sentinel, `some h` for clause handle `h`. -/
structure implication : Type where
  implication_cause : Option Nat
  implication_depth : Nat
  level : Nat
deriving DecidableEq, Repr

/-- Default-constructed `implication`: `DECISION`, depth 0, level 0. -/
def implication.neutral : implication := ⟨none, 0, 0⟩

instance : Inhabited implication := ⟨implication.neutral⟩

/-- The `cdcl_sat<Strategy>::clause` class: signed literals plus the two
watched-literal indices (`m_watched_literals`). -/
structure clause : Type where
  m_literals : List Int
  watched0 : Nat
  watched1 : Nat
deriving DecidableEq, Repr

instance : Inhabited clause := ⟨⟨[], 0, 0⟩⟩

/-- The `clause::get_variable` member: absolute value of the signed literal. -/
def clause.get_variable (c : clause) (literal_num : Nat) : Nat :=
  (c.m_literals.getD literal_num 0).natAbs

/-- The `clause::is_positive_literal` member: sign of the literal. -/
def clause.is_positive_literal (c : clause) (literal_num : Nat) : Bool :=
  0 < c.m_literals.getD literal_num 0

/-- The `clause::size` member. -/
def clause.size (c : clause) : Nat := c.m_literals.length

/-- The `clause::add_literal` member: appends `var` with the given sign. -/
def clause.add_literal (c : clause) (var_num : Nat) (is_positive : Bool) : clause :=
  { c with m_literals :=
      c.m_literals ++ [if is_positive then (var_num : Int) else -(var_num : Int)] }

/-- The solver state of `cdcl_sat<Strategy>` with `domain_type = binary_domain`.
`m_watches[0]` and `m_watches[1]` are the two per-polarity watch arrays. -/
structure cdcl_sat : Type where
  m_max_backtracks : Nat
  m_inside_solve : Bool
  m_domains : List binary_domain
  m_implications : List implication
  m_watches_false : List (List Nat)
  m_watches_true : List (List Nat)
  m_dirty_variables : List Nat
  m_clauses : List clause
  m_implied_vars : List Nat
  m_chosen_vars : List Nat
deriving DecidableEq, Repr

namespace cdcl_sat

/-- Read `m_domains[var]` (in-range in the source, under assertions). -/
def get_current_domain (s : cdcl_sat) (var : Nat) : binary_domain :=
  s.m_domains.getD var binary_domain.universal

/-- Read `m_implications[var]`. -/
def get_implication (s : cdcl_sat) (var : Nat) : implication :=
  s.m_implications.getD var implication.neutral

/-- Read `m_clauses[h]`. -/
def get_clause (s : cdcl_sat) (h : Nat) : clause :=
  s.m_clauses.getD h default

/-- Replace `m_clauses[h]`. -/
def set_clause (s : cdcl_sat) (h : Nat) (c : clause) : cdcl_sat :=
  { s with m_clauses := s.m_clauses.set h c }

/-- The `get_level` member: number of live decisions. -/
def get_level (s : cdcl_sat) : Nat := s.m_chosen_vars.length

/-- The watch list `m_watches[watched_value][var]`. -/
def get_watch_list (s : cdcl_sat) (watched_value : Bool) (var : Nat) : List Nat :=
  if watched_value then s.m_watches_true.getD var [] else s.m_watches_false.getD var []

/-- Replace the watch list `m_watches[watched_value][var]`. -/
def set_watch_list (s : cdcl_sat) (watched_value : Bool) (var : Nat) (l : List Nat) :
    cdcl_sat :=
  if watched_value then { s with m_watches_true := s.m_watches_true.set var l }
  else { s with m_watches_false := s.m_watches_false.set var l }

/-- The `watch_value_removal` member: push `this_clause` onto
`m_watches[watched_value][watched_var]`. -/
def watch_value_removal (s : cdcl_sat) (this_clause : Nat) (watched_var : Nat)
    (watched_value : Bool) : cdcl_sat :=
  set_watch_list s watched_value watched_var
    (get_watch_list s watched_value watched_var ++ [this_clause])

/-- The `set_domain` member: update the domain and, when it actually changes
while inside `solve`, record the dirty variable, the trail entry and the
implication (cause, depth = new trail length, level = current level). -/
def set_domain (s : cdcl_sat) (var : Nat) (domain : binary_domain)
    (by_clause : Option Nat) : cdcl_sat :=
  if s.get_current_domain var = domain then s
  else
    let s1 : cdcl_sat := { s with m_domains := s.m_domains.set var domain }
    if s1.m_inside_solve then
      { s1 with
        m_dirty_variables := s1.m_dirty_variables ++ [var]
        m_implied_vars := s1.m_implied_vars ++ [var]
        m_implications := s1.m_implications.set var
          ⟨by_clause, s.m_implied_vars.length + 1, s.m_chosen_vars.length⟩ }
    else s1

/-- The `clause::literal_state` member: `SAT` when the literal's variable has
the singleton domain matching the literal's polarity, `UNSAT` when it has the
opposite singleton domain, `UNKNOWN` otherwise (`get_value` is `min`). -/
def literal_state (s : cdcl_sat) (c : clause) (literal_num : Nat) : solve_status :=
  let var := c.get_variable literal_num
  let is_positive := c.is_positive_literal literal_num
  let domain := s.get_current_domain var
  if domain.is_singleton ∧ domain.minVal = is_positive then .SAT
  else if domain.is_singleton ∧ domain.minVal = !is_positive then .UNSAT
  else .UNKNOWN

/-- The `clause::linear_find_free_literal` member: first index in
`[first, second)` whose literal's polarity is still contained in its
variable's domain, or `second` when none is. -/
def linear_find_free_literal (s : cdcl_sat) (c : clause) (first second : Nat) : Nat :=
  if _h : first < second then
    if (s.get_current_domain (c.get_variable first)).containsB
         (c.is_positive_literal first) then first
    else linear_find_free_literal s c (first + 1) second
  else second
termination_by second - first

/-- The `clause::unit_propagate` member, lifted to the solver state: the
clause object itself is read-only here (`const` in the source). -/
def unit_propagate (s : cdcl_sat) (this_clause : Nat) (c : clause)
    (literal_num : Nat) : solve_status × cdcl_sat :=
  let var := c.get_variable literal_num
  let is_positive := c.is_positive_literal literal_num
  let domain := s.get_current_domain var
  if ¬ domain.containsB is_positive then (.UNSAT, s)
  else if domain.is_singleton ∧ domain.containsB is_positive then (.SAT, s)
  else (.SAT, s.set_domain var (binary_domain.ofBool is_positive) (some this_clause))

/-- Loop body of `clause::remove_duplicate_variables`: scan the literals,
skipping already-encountered literals and failing (tautology) on an
encountered complementary literal.  `acc` holds the kept literals reversed. -/
def remove_duplicate_variables_go (seen : List Int) (acc : List Int) :
    List Int → Option (List Int)
  | [] => some acc.reverse
  | l :: rest =>
    if l ∈ seen then remove_duplicate_variables_go seen acc rest
    else if -l ∈ seen then none
    else remove_duplicate_variables_go (l :: seen) (l :: acc) rest

/-- The `clause::remove_duplicate_variables` member: `none` when the clause is
a tautology (contains a literal and its complement); otherwise the literal
list with duplicate literals removed, first occurrences kept in order.  On
`none` the source leaves `m_literals` unchanged. -/
def remove_duplicate_variables (c : clause) : Option clause :=
  (remove_duplicate_variables_go [] [] c.m_literals).map
    (fun lits => { c with m_literals := lits })

/-- The `clause::initial_propagate` member, lifted to the solver state: the
clause `m_clauses[this_clause]` is normalised, its watches are selected by the
two linear scans and either the clause reports `UNSAT` (no free literal),
unit-propagates its only free literal, or registers both watches. -/
def clause_initial_propagate (s : cdcl_sat) (this_clause : Nat) :
    solve_status × cdcl_sat :=
  let c := s.get_clause this_clause
  match remove_duplicate_variables c with
  | none => (.SAT, s)
  | some c1 =>
    let n := c1.size
    let cA : clause := { c1 with watched0 := 0, watched1 := n - 1 }
    let w0 := linear_find_free_literal s cA 0 n
    let cB : clause := { cA with watched0 := w0 }
    if w0 = n then (.UNSAT, s.set_clause this_clause cB)
    else
      let w1 := linear_find_free_literal s cB (w0 + 1) n
      let cC : clause := { cB with watched1 := w1 }
      let s2 := s.set_clause this_clause cC
      if w1 = n then unit_propagate s2 this_clause cC w0
      else
        let s3 := s2.watch_value_removal this_clause (cC.get_variable w0)
          (cC.is_positive_literal w0)
        let s4 := s3.watch_value_removal this_clause (cC.get_variable w1)
          (cC.is_positive_literal w1)
        (.UNKNOWN, s4)

/-- Inner scan of `clause::find_different_watch`: first index in `[i, stop)`
that is not `skip` and whose literal state is not `UNSAT`; `stop` if none. -/
def find_not_unsat (s : cdcl_sat) (c : clause) (skip : Nat) (i stop : Nat) : Nat :=
  if _h : i < stop then
    if i ≠ skip ∧ literal_state s c i ≠ .UNSAT then i
    else find_not_unsat s c skip (i + 1) stop
  else stop
termination_by stop - i

/-- The `clause::find_different_watch` member: scan cyclically from just after
the watched literal for a non-`UNSAT` literal other than the other watch;
returns `size` when there is none. -/
def find_different_watch (s : cdcl_sat) (c : clause) (watch_index : Nat) : Nat :=
  let watched_literal := if watch_index = 0 then c.watched0 else c.watched1
  let other_watched_literal := if watch_index = 0 then c.watched1 else c.watched0
  let r1 := find_not_unsat s c other_watched_literal (watched_literal + 1) c.size
  if r1 ≠ c.size then r1
  else
    let r2 := find_not_unsat s c other_watched_literal 0 watched_literal
    if r2 ≠ watched_literal then r2 else c.size

/-- The `clause::propagate` member, lifted to the solver state: pick the watch
pointing at the triggering variable, try to move it to another non-`UNSAT`
literal (registering the new watch and returning `UNKNOWN`), otherwise
unit-propagate the other watch. -/
def clause_propagate (s : cdcl_sat) (this_clause : Nat) (triggering_var : Nat) :
    solve_status × cdcl_sat :=
  let c := s.get_clause this_clause
  let watch_index : Nat := if c.get_variable c.watched0 = triggering_var then 0 else 1
  let next_watched_literal := find_different_watch s c watch_index
  if next_watched_literal ≠ c.size then
    let s1 := s.watch_value_removal this_clause
      (c.get_variable next_watched_literal) (c.is_positive_literal next_watched_literal)
    let cU : clause :=
      if watch_index = 0 then { c with watched0 := next_watched_literal }
      else { c with watched1 := next_watched_literal }
    let cV : clause :=
      if cU.watched1 < cU.watched0 then
        { cU with watched0 := cU.watched1, watched1 := cU.watched0 }
      else cU
    (.UNKNOWN, s1.set_clause this_clause cV)
  else
    unit_propagate s this_clause c (if watch_index = 0 then c.watched1 else c.watched0)

theorem m_clauses_set_domain (s : cdcl_sat) (var : Nat) (d : binary_domain)
    (b : Option Nat) : (s.set_domain var d b).m_clauses = s.m_clauses := by
  unfold cdcl_sat.set_domain
  split
  · rfl
  · dsimp only
    split <;> rfl

theorem m_clauses_watch_value_removal (s : cdcl_sat) (tc v : Nat) (b : Bool) :
    (s.watch_value_removal tc v b).m_clauses = s.m_clauses := by
  unfold cdcl_sat.watch_value_removal cdcl_sat.set_watch_list
  split <;> rfl

theorem m_clauses_unit_propagate (s : cdcl_sat) (tc : Nat) (c : clause) (l : Nat) :
    (unit_propagate s tc c l).2.m_clauses = s.m_clauses := by
  unfold unit_propagate
  dsimp only
  split
  · rfl
  · split
    · rfl
    · exact m_clauses_set_domain ..

theorem m_clauses_length_set_clause (s : cdcl_sat) (h : Nat) (c : clause) :
    (s.set_clause h c).m_clauses.length = s.m_clauses.length := by
  simp [cdcl_sat.set_clause]

theorem m_clauses_length_clause_initial_propagate (s : cdcl_sat) (h : Nat) :
    (clause_initial_propagate s h).2.m_clauses.length = s.m_clauses.length := by
  unfold clause_initial_propagate
  dsimp only
  split
  · rfl
  · split
    · exact m_clauses_length_set_clause ..
    · split
      · rw [m_clauses_unit_propagate, m_clauses_length_set_clause]
      · rw [m_clauses_watch_value_removal, m_clauses_watch_value_removal,
          m_clauses_length_set_clause]

/-- The per-clause loop inside `cdcl_sat::initial_propagate`: run
`initial_propagate` for every clause from index `h_idx` on, stopping with
`false` at the first `UNSAT` clause. -/
def initial_propagate_clauses (s : cdcl_sat) (h_idx : Nat) : Bool × cdcl_sat :=
  if hh : h_idx < s.m_clauses.length then
    let r := clause_initial_propagate s h_idx
    if r.1 = .UNSAT then (false, r.2)
    else initial_propagate_clauses r.2 (h_idx + 1)
  else (true, s)
termination_by s.m_clauses.length - h_idx
decreasing_by
  rw [m_clauses_length_clause_initial_propagate]
  omega

/-- One pass over the watch list `m_watches[positive_erased][var]` inside
`cdcl_sat::propagate`, starting at position `i`: each clause is asked to
propagate; `UNKNOWN` means its watch moved, so the list entry is removed by
swap-with-last-and-pop without advancing; `UNSAT` aborts with the conflicting
clause; `SAT` advances.  `none` on fuel exhaustion. -/
def propagate_watch_iter (fuel : Nat) (s : cdcl_sat) (var : Nat)
    (positive_erased : Bool) (i : Nat) : Option (Option Nat × cdcl_sat) :=
  match fuel with
  | 0 => none
  | fuel + 1 =>
    let lst := s.get_watch_list positive_erased var
    if i < lst.length then
      let dirty_clause := lst.getD i 0
      match clause_propagate s dirty_clause var with
      | (.UNKNOWN, s1) =>
        let lst1 := s1.get_watch_list positive_erased var
        let lst2 := (lst1.set i (lst1.getLastD 0)).dropLast
        propagate_watch_iter fuel (s1.set_watch_list positive_erased var lst2)
          var positive_erased i
      | (.UNSAT, s1) => some (some dirty_clause, s1)
      | (.SAT, s1) => propagate_watch_iter fuel s1 var positive_erased (i + 1)
    else some (none, s)

/-- The fix-point loop of `cdcl_sat::propagate`: drain the dirty queue,
visiting the watch list of the erased polarity of each popped variable.
Returns the conflicting clause handle when a clause reports `UNSAT`;
`none` (outer) on fuel exhaustion. -/
def propagate_loop (fuel : Nat) (s : cdcl_sat) : Option (Option Nat × cdcl_sat) :=
  match fuel with
  | 0 => none
  | fuel + 1 =>
    match s.m_dirty_variables with
    | [] => some (none, s)
    | var :: rest =>
      let s0 : cdcl_sat := { s with m_dirty_variables := rest }
      let positive_erased := !(s0.get_current_domain var).containsB true
      match propagate_watch_iter fuel s0 var positive_erased 0 with
      | none => none
      | some (some conflict, s1) => some (some conflict, s1)
      | some (none, s1) => propagate_loop fuel s1

/-- First index in `[i, stop)` of `doms` holding a non-singleton domain. -/
def find_non_singleton (doms : List binary_domain) (i stop : Nat) : Option Nat :=
  if _h : i < stop then
    if ¬ (doms.getD i binary_domain.universal).is_singleton then some i
    else find_non_singleton doms (i + 1) stop
  else none
termination_by stop - i

/-- The `cdcl_sat::find_free_var` member: scan `[search_start, size)` and then
wrap to `[1, search_start)` for a variable whose domain is not a singleton. -/
def find_free_var (s : cdcl_sat) (search_start : Nat) : Option Nat :=
  match find_non_singleton s.m_domains search_start s.m_domains.length with
  | some var => some var
  | none =>
    if 1 < search_start then find_non_singleton s.m_domains 1 search_start
    else none

/-- The `cdcl_sat::make_choice` member: find a free variable (starting from
the previous decision), push it as a decision and assign it `false`;
`none` when every variable is a singleton. -/
def make_choice (s : cdcl_sat) : Option cdcl_sat :=
  let chosen :=
    if s.m_chosen_vars.isEmpty then find_free_var s 1
    else find_free_var s (s.m_chosen_vars.getLastD 0)
  match chosen with
  | none => none
  | some var =>
    let s1 : cdcl_sat := { s with m_chosen_vars := s.m_chosen_vars ++ [var] }
    some (s1.set_domain var (binary_domain.ofBool false) none)

/-- The trail-popping loop of `cdcl_sat::backtrack`: pop trail entries from
the tail while their recorded level exceeds `backtrack_level`, resetting the
popped variable's domain to universal and its implication to the neutral
record. -/
def backtrack_pop (s : cdcl_sat) (backtrack_level : Nat) : cdcl_sat :=
  match hh : s.m_implied_vars.getLast? with
  | none => s
  | some reset_var =>
    if (s.get_implication reset_var).level ≤ backtrack_level then s
    else
      backtrack_pop
        { s with
          m_implied_vars := s.m_implied_vars.dropLast
          m_domains := s.m_domains.set reset_var binary_domain.universal
          m_implications := s.m_implications.set reset_var implication.neutral }
        backtrack_level
termination_by s.m_implied_vars.length
decreasing_by
  have hne : s.m_implied_vars ≠ [] := by
    intro hempty
    rw [hempty] at hh
    simp at hh
  simp only [List.length_dropLast]
  have : 0 < s.m_implied_vars.length := List.length_pos.mpr hne
  omega

/-- The `std::vector::resize` semantics on a vector of variable handles:
truncate, or pad with value-initialised (`0`) entries. -/
def vector_resize (l : List Nat) (n : Nat) : List Nat :=
  if n ≤ l.length then l.take n else l ++ List.replicate (n - l.length) 0

/-- The `cdcl_sat::backtrack` member: pop the trail down to
`backtrack_level`, truncate the decision stack to that length and clear the
dirty queue. -/
def backtrack (s : cdcl_sat) (backtrack_level : Nat) : cdcl_sat :=
  let s1 := backtrack_pop s backtrack_level
  { s1 with
    m_chosen_vars := vector_resize s1.m_chosen_vars backtrack_level
    m_dirty_variables := [] }

/-- The `cdcl_sat::validate_all_singletons` check: every variable from index 1
on has a singleton domain (the source throws `std::runtime_error` otherwise). -/
def all_singletons (s : cdcl_sat) : Bool :=
  (s.m_domains.drop 1).all binary_domain.is_singleton

/-- The `cdcl_sat::initial_propagate` member: reset the dirty queue, the
implication store, the trail and the watch arrays, run every clause's initial
propagation, then propagate to fix-point.  Returns `false` when a clause is
trivially `UNSAT` or propagation conflicts; `none` on fuel exhaustion. -/
def solver_initial_propagate (fuel : Nat) (s : cdcl_sat) : Option (Bool × cdcl_sat) :=
  let s1 : cdcl_sat :=
    { s with
      m_dirty_variables := []
      m_implications := List.replicate s.m_domains.length implication.neutral
      m_implied_vars := []
      m_watches_false := List.replicate s.m_domains.length []
      m_watches_true := List.replicate s.m_domains.length [] }
  match initial_propagate_clauses s1 0 with
  | (false, s2) => some (false, s2)
  | (true, s2) =>
    match propagate_loop fuel s2 with
    | none => none
    | some (some _, s3) => some (false, s3)
    | some (none, s3) => some (true, s3)

end cdcl_sat

/-! Sorted association lists, modelling `std::map` (iteration ascending by
key, insertion only when the key is absent — `emplace` / `try_emplace`). -/

/-- Insert `(k, v)` into a strictly-sorted association list when the key is
absent; keep the list unchanged when the key is present (`std::map::emplace`
and `try_emplace` semantics). -/
def am_insert {α : Type} (k : Nat) (v : α) : List (Nat × α) → List (Nat × α)
  | [] => [(k, v)]
  | (k1, v1) :: rest =>
    if k < k1 then (k, v) :: (k1, v1) :: rest
    else if k = k1 then (k1, v1) :: rest
    else (k1, v1) :: am_insert k v rest

/-- Remove the entry with key `k` (`std::map::erase(key)`). -/
def am_erase {α : Type} (k : Nat) : List (Nat × α) → List (Nat × α)
  | [] => []
  | (k1, v1) :: rest => if k = k1 then rest else (k1, v1) :: am_erase k rest

/-- Key-membership test (`std::map::contains` / failed `try_emplace`). -/
def am_contains {α : Type} (k : Nat) (m : List (Nat × α)) : Bool :=
  m.any (fun p => p.1 = k)

namespace cdcl_sat

/-- The `cdcl_sat<Strategy>::conflict_analysis_algo` state: the current
resolvent as a var-to-polarity map plus the depth-to-var index. -/
structure conflict_analysis_algo : Type where
  conflict_literals : List (Nat × Bool)
  implication_depth_to_var : List (Nat × Nat)
deriving DecidableEq, Repr

/-- Errors of the conflict-analysis embedding.  `decision_pivot` and
`missing_cause_clause` model the `std::map`/`std::vector::at` lookup failure
when the pivot's cause is the `DECISION` sentinel; `empty_resolvent_pivot`
and `empty_level_lookup` model dereferencing `rbegin()`/`next(rbegin())` of
an empty or too-small map (undefined behaviour in the source). -/
inductive analyze_error : Type where
  | out_of_fuel : analyze_error
  | empty_resolvent_pivot : analyze_error
  | decision_pivot : analyze_error
  | missing_cause_clause : analyze_error
  | empty_level_lookup : analyze_error
deriving DecidableEq, Repr

/-- The loop of the `conflict_analysis_algo` constructor: insert every
literal of the conflicting clause whose variable has a non-zero implication
depth into the resolvent and the depth index. -/
def analysis_init_go (s : cdcl_sat) :
    conflict_analysis_algo → List Int → conflict_analysis_algo
  | a, [] => a
  | a, lit :: rest =>
    let var := lit.natAbs
    let depth := (s.get_implication var).implication_depth
    if depth = 0 then analysis_init_go s a rest
    else
      analysis_init_go s
        ⟨am_insert var (0 < lit) a.conflict_literals,
         am_insert depth var a.implication_depth_to_var⟩ rest

/-- The `conflict_analysis_algo` constructor, given the conflicting clause. -/
def analysis_init (s : cdcl_sat) (conflicting_clause : Nat) : conflict_analysis_algo :=
  analysis_init_go s ⟨[], []⟩ (s.get_clause conflicting_clause).m_literals

/-- The literal loop of `conflict_analysis_algo::resolve` over the cause
clause: skip depth-0 variables, erase the pivot from both maps, and insert
unseen variables into both. -/
def resolve_go (s : cdcl_sat) (pivot_var : Nat) :
    conflict_analysis_algo → List Int → conflict_analysis_algo
  | a, [] => a
  | a, lit :: rest =>
    let is_positive := 0 < lit
    let var := lit.natAbs
    let depth := (s.get_implication var).implication_depth
    if depth = 0 then resolve_go s pivot_var a rest
    else if var = pivot_var then
      resolve_go s pivot_var
        ⟨am_erase var a.conflict_literals, am_erase depth a.implication_depth_to_var⟩
        rest
    else if am_contains var a.conflict_literals then resolve_go s pivot_var a rest
    else
      resolve_go s pivot_var
        ⟨am_insert var is_positive a.conflict_literals,
         am_insert depth var a.implication_depth_to_var⟩ rest

/-- The `conflict_analysis_algo::resolve` member: look up the pivot's cause —
failing when it is the `DECISION` sentinel or an out-of-range clause handle —
and fold the cause clause's literals into the resolvent. -/
def resolve (s : cdcl_sat) (a : conflict_analysis_algo) (pivot_var : Nat) :
    Except analyze_error conflict_analysis_algo :=
  match (s.get_implication pivot_var).implication_cause with
  | none => .error .decision_pivot
  | some cause =>
    match s.m_clauses[cause]? with
    | none => .error .missing_cause_clause
    | some prev_clause => .ok (resolve_go s pivot_var a prev_clause.m_literals)

/-- The `conflict_analysis_algo::get_level` member: decision level of the
`distance`-th-latest entry of the depth index (`none` when the map is too
small — dereferencing past `rend()` in the source). -/
def algo_get_level (s : cdcl_sat) (a : conflict_analysis_algo) (distance : Nat) :
    Option Nat :=
  (a.implication_depth_to_var.reverse[distance]?).map
    (fun p => (s.get_implication p.2).level)

/-- The `conflict_analysis_algo::is_unit` member: at most one entry, or the
two latest entries have different decision levels. -/
def is_unit (s : cdcl_sat) (a : conflict_analysis_algo) : Bool :=
  if a.implication_depth_to_var.length ≤ 1 then true
  else decide (algo_get_level s a 0 ≠ algo_get_level s a 1)

/-- The `conflict_analysis_algo::create_clause` member: append a clause whose
literals are the resolvent entries in ascending variable order (`std::map`
iteration order). -/
def create_clause (s : cdcl_sat) (a : conflict_analysis_algo) : Nat × cdcl_sat :=
  (s.m_clauses.length,
   { s with
     m_clauses := s.m_clauses ++
       [⟨a.conflict_literals.map
           (fun p => if p.2 then (p.1 : Int) else -(p.1 : Int)), 0, 0⟩] })

/-- The resolution loop of `cdcl_sat::analyze_conflict`: repeatedly resolve
on the latest implied variable until the resolvent is empty, has one literal
or is unit. -/
def analyze_loop (s : cdcl_sat) :
    Nat → conflict_analysis_algo → Except analyze_error conflict_analysis_algo
  | 0, _ => .error .out_of_fuel
  | fuel + 1, a =>
    match a.implication_depth_to_var.getLast? with
    | none => .error .empty_resolvent_pivot
    | some p =>
      match resolve s a p.2 with
      | .error e => .error e
      | .ok a1 =>
        if a1.conflict_literals.isEmpty ∨ a1.conflict_literals.length = 1 ∨
            is_unit s a1 then .ok a1
        else analyze_loop s fuel a1

/-- The `cdcl_sat::analyze_conflict` member: run the resolution loop, then
return backjump level 0 for a one-literal resolvent, the second-latest level
for a unit resolvent (reading the second-latest entry of the depth index),
and `none` otherwise. -/
def analyze_conflict (fuel : Nat) (s : cdcl_sat) (conflicting_clause : Nat) :
    Except analyze_error (Option (Nat × Nat) × cdcl_sat) :=
  match analyze_loop s fuel (analysis_init s conflicting_clause) with
  | .error e => .error e
  | .ok a =>
    if a.conflict_literals.length = 1 then
      let r := create_clause s a
      .ok (some (0, r.1), r.2)
    else if is_unit s a then
      match a.implication_depth_to_var.reverse[1]? with
      | none => .error .empty_level_lookup
      | some p =>
        let r := create_clause s a
        .ok (some ((s.get_implication p.2).level, r.1), r.2)
    else .ok (none, s)

/-- The main loop of `cdcl_sat::solve`: propagate; on conflict either fail at
level 0, analyze and backjump (checking the backtrack budget and running the
learned clause's initial propagation); otherwise decide a new variable or
report `SAT` after the singleton validation.  `none` on fuel exhaustion, on a
conflict-analysis error and on a failed singleton validation (the source
throws there). -/
def solve_loop (s : cdcl_sat) (backtracks : Nat) :
    Nat → Option (solve_status × cdcl_sat)
  | 0 => none
  | fuel + 1 =>
    match propagate_loop fuel s with
    | none => none
    | some (some conflicting_clause, s1) =>
      if s1.get_level = 0 then some (.UNSAT, s1)
      else
        match analyze_conflict fuel s1 conflicting_clause with
        | .error _ => none
        | .ok (none, s2) => some (.UNSAT, s2)
        | .ok (some lc, s2) =>
          if backtracks = s2.m_max_backtracks then some (.UNKNOWN, s2)
          else
            let s3 := backtrack s2 lc.1
            let conflict_clause := s3.m_clauses.length - 1
            let r := clause_initial_propagate s3 conflict_clause
            solve_loop r.2 (backtracks + 1) fuel
    | some (none, s1) =>
      match make_choice s1 with
      | none => if all_singletons s1 then some (.SAT, s1) else none
      | some s2 => solve_loop s2 backtracks fuel

/-- The `cdcl_sat::solve` member: set `m_inside_solve` (restored on return by
the `state_saver`), run the initial propagation and then the main loop. -/
def solve (fuel : Nat) (s : cdcl_sat) : Option (solve_status × cdcl_sat) :=
  let saved := s.m_inside_solve
  match solver_initial_propagate fuel { s with m_inside_solve := true } with
  | none => none
  | some (false, s1) => some (.UNSAT, { s1 with m_inside_solve := saved })
  | some (true, s1) =>
    match solve_loop s1 0 fuel with
    | none => none
    | some (st, s2) => some (st, { s2 with m_inside_solve := saved })

/-- Fresh solver as built by the `cdcl_sat` constructor: domain index 0 is a
universal sentinel, one neutral implication record, everything else empty. -/
def init (max_backtracks : Nat) : cdcl_sat :=
  { m_max_backtracks := max_backtracks
    m_inside_solve := false
    m_domains := [binary_domain.universal]
    m_implications := [implication.neutral]
    m_watches_false := []
    m_watches_true := []
    m_dirty_variables := []
    m_clauses := []
    m_implied_vars := []
    m_chosen_vars := [] }

/-- The `cdcl_sat::add_var` member: append a domain, returning its handle. -/
def add_var (s : cdcl_sat) (domain : binary_domain) : cdcl_sat × Nat :=
  ({ s with m_domains := s.m_domains ++ [domain] }, s.m_domains.length)

/-- Append a clause given by its signed literal list (the `add_clause` /
`add_literal` builder). -/
def add_clause_lits (s : cdcl_sat) (lits : List Int) : cdcl_sat :=
  { s with m_clauses := s.m_clauses ++ [⟨lits, 0, 0⟩] }

end cdcl_sat

/-! The trivial reference solver (`trivial_sat`, first document of
`src/src/solver_library/trivial_sat.cpp`). -/

/-- The `trivial_sat` solver state: clauses keep only their literal lists. -/
structure trivial_sat : Type where
  m_max_attempts : Nat
  m_domains : List binary_domain
  m_clauses : List (List Int)
deriving DecidableEq, Repr

/-- The per-clause `trivial_sat::has_conflict`: every literal's polarity is
excluded by its variable's current domain. -/
def trivial_has_conflict_clause (domains : List binary_domain) (lits : List Int) :
    Bool :=
  lits.all (fun l => !(domains.getD l.natAbs binary_domain.universal).containsB (0 < l))

/-- The global `trivial_sat::has_conflict`: some clause conflicts. -/
def trivial_has_conflict (domains : List binary_domain) (clauses : List (List Int)) :
    Bool :=
  clauses.any (trivial_has_conflict_clause domains)

/-- First index at or after `i` whose domain is universal (the skip loop of
`trivial_sat::solve_recursive`). -/
def find_universal_from (doms : List binary_domain) (i : Nat) : Option Nat :=
  if _h : i < doms.length then
    if (doms.getD i binary_domain.universal).is_universal then some i
    else find_universal_from doms (i + 1)
  else none
termination_by doms.length - i

theorem find_universal_from_bounds (doms : List binary_domain) (i : Nat) :
    ∀ j, find_universal_from doms i = some j → i ≤ j ∧ j < doms.length := by
  unfold find_universal_from
  split
  · split
    · intro j hj
      simp only [Option.some.injEq] at hj
      omega
    · intro j hj
      have := find_universal_from_bounds doms (i + 1) j hj
      omega
  · intro j hj
    simp at hj
termination_by doms.length - i

/-- The `trivial_sat::solve_recursive` member: check for a conflict (counting
an attempt and comparing with the budget), otherwise branch on the first
universal variable at or after `depth`, trying `false` then `true`; `SAT`
when no universal variable remains.  Domain mutations are local to each
branch (`state_saver` restores them on non-`SAT` exits). -/
def solve_recursive (max_attempts : Nat) (clauses : List (List Int))
    (domains : List binary_domain) (depth num_attempts : Nat) : solve_status × Nat :=
  if trivial_has_conflict domains clauses then
    ((if max_attempts ≤ num_attempts then .UNKNOWN else .UNSAT), num_attempts + 1)
  else
    match hf : find_universal_from domains depth with
    | none => (.SAT, num_attempts)
    | some i =>
      match solve_recursive max_attempts clauses
          (domains.set i (binary_domain.ofBool false)) (i + 1) num_attempts with
      | (.SAT, n1) => (.SAT, n1)
      | (.UNKNOWN, n1) => (.UNKNOWN, n1)
      | (.UNSAT, n1) =>
        match solve_recursive max_attempts clauses
            (domains.set i (binary_domain.ofBool true)) (i + 1) n1 with
        | (.SAT, n2) => (.SAT, n2)
        | (.UNKNOWN, n2) => (.UNKNOWN, n2)
        | (.UNSAT, n2) => (.UNSAT, n2)
termination_by domains.length - depth
decreasing_by
  all_goals
    have hb := find_universal_from_bounds domains depth i hf
    simp only [List.length_set]
    omega

/-- The `trivial_sat::validate_clauses` check: every literal's variable is in
range and no clause conflicts under the initial domains (the source throws
otherwise). -/
def validate_clauses (t : trivial_sat) : Bool :=
  t.m_clauses.all (fun lits =>
    lits.all (fun l => decide (l.natAbs < t.m_domains.length)) &&
    !trivial_has_conflict_clause t.m_domains lits)

/-- The `trivial_sat::solve` member: validate, then run the recursion from
variable 1 with zero attempts; `none` models the validation throw. -/
def trivial_solve (t : trivial_sat) : Option solve_status :=
  if validate_clauses t then
    some (solve_recursive t.m_max_attempts t.m_clauses t.m_domains 1 0).1
  else none

/-! The DIMACS clause-line parsing of `dimacs_parser::parse`
(`src/src/solver_library/cdcl_sat.cpp`, second document).  A clause line is
modelled as the list of the mathematical values of its numeric tokens;
`operator>>` into `int` succeeds exactly when the value fits the signed
32-bit range (on overflow it sets `failbit`). -/

/-- Error outcome of the parser, by the `std::runtime_error` message texts. -/
inductive dimacs_error : Type where
  | invalid_header : dimacs_error
  | junk_after_header : dimacs_error
  | more_than_one_zero : dimacs_error
  | missing_zero : dimacs_error
deriving DecidableEq, Repr

/-- Smallest `int` value. -/
def int_min : Int := -(2 ^ 31)

/-- Largest `int` value. -/
def int_max : Int := 2 ^ 31 - 1

/-- Whether `istream >> int` succeeds for a numeric token of this value. -/
def stream_read_ok (t : Int) : Bool := decide (int_min ≤ t ∧ t ≤ int_max)

/-- The token loop of `dimacs_parser::parse` for one clause line: a failed
extraction ends the clause if a terminating 0 was seen and raises "Missing 0
at the end of the line" otherwise; a successful extraction after the 0 raises
"More than one 0 per-line"; a 0 marks the terminator; other values are
collected as literals. -/
def parse_clause_line_go (literals : List Int) (found_zero : Bool) :
    List Int → Except dimacs_error (List Int)
  | [] => if found_zero then .ok literals else .error .missing_zero
  | t :: rest =>
    if ¬ stream_read_ok t then
      (if found_zero then .ok literals else .error .missing_zero)
    else if found_zero then .error .more_than_one_zero
    else if t = 0 then parse_clause_line_go literals true rest
    else parse_clause_line_go (literals ++ [t]) false rest

/-- Parse one clause line from its numeric tokens. -/
def parse_clause_line (tokens : List Int) : Except dimacs_error (List Int) :=
  parse_clause_line_go [] false tokens

/-- The number handling of `dimacs_parser::parse_header`: reading the
variable and clause counts fails (failed extraction, including 32-bit
overflow, or a negative count) with "Invalid DIMACS header". -/
def parse_header_counts (n_variables n_clauses : Int) : Except dimacs_error (Nat × Nat) :=
  if ¬ stream_read_ok n_variables ∨ ¬ stream_read_ok n_clauses ∨
      n_variables < 0 ∨ n_clauses < 0 then .error .invalid_header
  else .ok (n_variables.toNat, n_clauses.toNat)

/-! Concrete states used by the witnesses below. -/

namespace cdcl_sat

/-- A small in-solve state: variable 1 universal, variable 2 assigned true,
one two-literal clause, empty trail. -/
def wstate : cdcl_sat :=
  { m_max_backtracks := 5
    m_inside_solve := true
    m_domains := [binary_domain.universal, binary_domain.universal,
      binary_domain.ofBool true]
    m_implications := [implication.neutral, implication.neutral, implication.neutral]
    m_watches_false := [[], [], []]
    m_watches_true := [[], [], []]
    m_dirty_variables := []
    m_clauses := [⟨[1, 2], 0, 1⟩]
    m_implied_vars := []
    m_chosen_vars := [] }

end cdcl_sat

namespace cdcl_sat

/-- Claim C10: calling `set_domain(var, d, cause)` with `d` equal to the
current domain is a complete no-op on the state; a call that changes the
domain while inside `solve` sets the domain, appends `var` once to the dirty
queue and the trail, and overwrites `var`'s implication record with the given
cause, the new trail length as depth and the current level. -/
theorem C10_set_domain_frame (s : cdcl_sat) (var : Nat) (d : binary_domain)
    (cause : Option Nat) :
    (s.get_current_domain var = d → s.set_domain var d cause = s) ∧
    (s.get_current_domain var ≠ d → s.m_inside_solve = true →
      s.set_domain var d cause =
        { s with
          m_domains := s.m_domains.set var d
          m_dirty_variables := s.m_dirty_variables ++ [var]
          m_implied_vars := s.m_implied_vars ++ [var]
          m_implications := s.m_implications.set var
            ⟨cause, s.m_implied_vars.length + 1, s.m_chosen_vars.length⟩ }) := by
  constructor
  · intro h
    simp [cdcl_sat.set_domain, h]
  · intro h hin
    simp [cdcl_sat.set_domain, h, hin]

/-- Witness for C10: at a concrete state, re-setting variable 2 to its
current singleton domain changes nothing, while assigning variable 1 appends
it to the dirty queue and trail and records the implication. -/
theorem C10_set_domain_frame_witness :
    wstate.set_domain 2 (binary_domain.ofBool true) none = wstate ∧
    wstate.set_domain 1 (binary_domain.ofBool false) (some 0) =
      { wstate with
        m_domains := wstate.m_domains.set 1 (binary_domain.ofBool false)
        m_dirty_variables := wstate.m_dirty_variables ++ [1]
        m_implied_vars := wstate.m_implied_vars ++ [1]
        m_implications := wstate.m_implications.set 1
          ⟨some 0, wstate.m_implied_vars.length + 1, wstate.m_chosen_vars.length⟩ } :=
  ⟨(C10_set_domain_frame wstate 2 (binary_domain.ofBool true) none).1 (by decide),
   (C10_set_domain_frame wstate 1 (binary_domain.ofBool false) (some 0)).2
     (by decide) rfl⟩

/-- Claim C7: `clause::unit_propagate` on a pivot literal `(v, p)` returns
`UNSAT` without changing anything when `Domain(v)` excludes `p`; returns
`SAT` without changing anything when `Domain(v)` is already the singleton
`{p}`; otherwise it sets `Domain(v)` to the singleton `{p}`, records the
propagating clause as the implication cause, and returns `SAT`. -/
theorem C7_unit_propagate_cases (s : cdcl_sat) (this_clause : Nat) (c : clause)
    (lit : Nat) (hin : s.m_inside_solve = true) :
    ((s.get_current_domain (c.get_variable lit)).containsB
        (c.is_positive_literal lit) = false →
      unit_propagate s this_clause c lit = (.UNSAT, s)) ∧
    (s.get_current_domain (c.get_variable lit) =
        binary_domain.ofBool (c.is_positive_literal lit) →
      unit_propagate s this_clause c lit = (.SAT, s)) ∧
    ((s.get_current_domain (c.get_variable lit)).containsB
        (c.is_positive_literal lit) = true →
      s.get_current_domain (c.get_variable lit) ≠
        binary_domain.ofBool (c.is_positive_literal lit) →
      unit_propagate s this_clause c lit = (.SAT,
        { s with
          m_domains := s.m_domains.set (c.get_variable lit)
            (binary_domain.ofBool (c.is_positive_literal lit))
          m_dirty_variables := s.m_dirty_variables ++ [c.get_variable lit]
          m_implied_vars := s.m_implied_vars ++ [c.get_variable lit]
          m_implications := s.m_implications.set (c.get_variable lit)
            ⟨some this_clause, s.m_implied_vars.length + 1,
             s.m_chosen_vars.length⟩ })) := by
  refine ⟨fun h1 => ?_, fun h2 => ?_, fun h3 h4 => ?_⟩
  · simp [unit_propagate, h1]
  · have h1 : (s.get_current_domain (c.get_variable lit)).containsB
        (c.is_positive_literal lit) = true := by
      rw [h2]; cases c.is_positive_literal lit <;> rfl
    have hs : (s.get_current_domain (c.get_variable lit)).is_singleton = true := by
      rw [h2]; cases c.is_positive_literal lit <;> rfl
    simp [unit_propagate, h1, hs]
  · have hs : (s.get_current_domain (c.get_variable lit)).is_singleton = false := by
      rcases hdm : s.get_current_domain (c.get_variable lit) with ⟨z, o⟩
      rw [hdm] at h3 h4
      rcases hp : c.is_positive_literal lit with _ | _ <;> rw [hp] at h3 h4 <;>
        cases z <;> cases o <;>
        simp_all [binary_domain.containsB, binary_domain.is_singleton,
          binary_domain.ofBool]
    simp only [unit_propagate, h3, hs]
    simp [cdcl_sat.set_domain, h4, hin]

/-- Witness for C7: concrete state exercising the third (assigning) case of
the theorem on clause 0's first literal (variable 1, positive). -/
theorem C7_unit_propagate_cases_witness :
    unit_propagate wstate 0 ⟨[1, 2], 0, 1⟩ 0 = (.SAT,
      { wstate with
        m_domains := wstate.m_domains.set 1 (binary_domain.ofBool true)
        m_dirty_variables := wstate.m_dirty_variables ++ [1]
        m_implied_vars := wstate.m_implied_vars ++ [1]
        m_implications := wstate.m_implications.set 1
          ⟨some 0, wstate.m_implied_vars.length + 1,
           wstate.m_chosen_vars.length⟩ }) :=
  ((C7_unit_propagate_cases wstate 0 ⟨[1, 2], 0, 1⟩ 0 rfl).2.2 (by decide) (by decide))

end cdcl_sat

namespace cdcl_sat

theorem getD_set_ne {α : Type} (l : List α) (i j : Nat) (a d : α) (h : i ≠ j) :
    (l.set i a).getD j d = l.getD j d := by
  simp [List.getD_eq_getElem?_getD, List.getElem?_set_ne h]

theorem getD_set_self {α : Type} (l : List α) (i : Nat) (a d : α)
    (h : i < l.length) :
    (l.set i a).getD i d = a := by
  simp [List.getD_eq_getElem?_getD, List.getElem?_set_self, h]

theorem backtrack_pop_eq_nil (s : cdcl_sat) (L : Nat)
    (hh : s.m_implied_vars.getLast? = none) : backtrack_pop s L = s := by
  unfold backtrack_pop
  split
  · rfl
  · next reset_var hsome =>
      rw [hh] at hsome
      cases hsome

theorem backtrack_pop_eq_keep (s : cdcl_sat) (L reset_var : Nat)
    (hh : s.m_implied_vars.getLast? = some reset_var)
    (hle : (s.get_implication reset_var).level ≤ L) : backtrack_pop s L = s := by
  unfold backtrack_pop
  split
  · rfl
  · next rv hsome =>
      rw [hh] at hsome
      cases hsome
      rw [if_pos hle]

theorem backtrack_pop_eq_step (s : cdcl_sat) (L reset_var : Nat)
    (hh : s.m_implied_vars.getLast? = some reset_var)
    (hgt : ¬ (s.get_implication reset_var).level ≤ L) :
    backtrack_pop s L =
      backtrack_pop
        { s with
          m_implied_vars := s.m_implied_vars.dropLast
          m_domains := s.m_domains.set reset_var binary_domain.universal
          m_implications := s.m_implications.set reset_var implication.neutral } L := by
  conv_lhs => unfold backtrack_pop
  split
  · next hnone =>
      rw [hh] at hnone
      cases hnone
  · next rv hsome =>
      rw [hh] at hsome
      cases hsome
      rw [if_neg hgt]

/-- Behaviour of the trail-popping loop of `backtrack`: on a level-monotone,
duplicate-free trail of in-range variables it keeps exactly the entries whose
recorded level is at most the target, resets the domains and implication
records of the popped entries, leaves every other variable untouched and does
not change the remaining fields. -/
theorem backtrack_pop_spec (s : cdcl_sat) (L : Nat)
    (hmono : s.m_implied_vars.Pairwise
      (fun a b => (s.get_implication a).level ≤ (s.get_implication b).level))
    (hnodup : s.m_implied_vars.Nodup)
    (hbounds : ∀ v ∈ s.m_implied_vars,
      v < s.m_domains.length ∧ v < s.m_implications.length) :
    (backtrack_pop s L).m_implied_vars =
      s.m_implied_vars.filter (fun v => decide ((s.get_implication v).level ≤ L)) ∧
    (∀ v, ¬ (v ∈ s.m_implied_vars ∧ L < (s.get_implication v).level) →
      (backtrack_pop s L).get_current_domain v = s.get_current_domain v ∧
      (backtrack_pop s L).get_implication v = s.get_implication v) ∧
    (∀ v ∈ s.m_implied_vars, L < (s.get_implication v).level →
      (backtrack_pop s L).get_current_domain v = binary_domain.universal ∧
      (backtrack_pop s L).get_implication v = implication.neutral) ∧
    (backtrack_pop s L).m_chosen_vars = s.m_chosen_vars ∧
    (backtrack_pop s L).m_dirty_variables = s.m_dirty_variables ∧
    (backtrack_pop s L).m_clauses = s.m_clauses ∧
    (backtrack_pop s L).m_watches_false = s.m_watches_false ∧
    (backtrack_pop s L).m_watches_true = s.m_watches_true := by
  induction s, L using backtrack_pop.induct with
  | case1 s L hh =>
    rw [backtrack_pop_eq_nil s L hh]
    have hnil : s.m_implied_vars = [] := by
      cases hl : s.m_implied_vars with
      | nil => rfl
      | cons a l => rw [hl] at hh; simp at hh
    refine ⟨?_, fun v _ => ⟨rfl, rfl⟩, ?_, rfl, rfl, rfl, rfl, rfl⟩
    · rw [hnil]; rfl
    · intro v hv
      rw [hnil] at hv
      cases hv
  | case2 s L reset_var hh hle =>
    rw [backtrack_pop_eq_keep s L reset_var hh hle]
    have hsplit : s.m_implied_vars.dropLast ++ [reset_var] = s.m_implied_vars :=
      List.dropLast_append_getLast? reset_var hh
    have hall : ∀ v ∈ s.m_implied_vars, (s.get_implication v).level ≤ L := by
      intro v hv
      rw [← hsplit] at hv hmono
      rcases List.mem_append.mp hv with hys | hlast
      · have := (List.pairwise_append.mp hmono).2.2 v hys reset_var (by simp)
        omega
      · simp at hlast
        subst hlast
        exact hle
    refine ⟨?_, fun v _ => ⟨rfl, rfl⟩, ?_, rfl, rfl, rfl, rfl, rfl⟩
    · exact (List.filter_eq_self.mpr (fun v hv => by simp [hall v hv])).symm
    · intro v hv hgt
      exact absurd (hall v hv) (by omega)
  | case3 s L reset_var hh hgt ih =>
    rw [backtrack_pop_eq_step s L reset_var hh hgt]
    have hsplit : s.m_implied_vars.dropLast ++ [reset_var] = s.m_implied_vars :=
      List.dropLast_append_getLast? reset_var hh
    have hrv_mem : reset_var ∈ s.m_implied_vars := by
      rw [← hsplit]; simp
    have hrv_bounds := hbounds reset_var hrv_mem
    have hrv_not_dl : reset_var ∉ s.m_implied_vars.dropLast := by
      rw [← hsplit] at hnodup
      have := List.disjoint_of_nodup_append hnodup
      intro hm
      exact this hm (by simp)
    set s1 : cdcl_sat :=
      { s with
        m_implied_vars := s.m_implied_vars.dropLast
        m_domains := s.m_domains.set reset_var binary_domain.universal
        m_implications := s.m_implications.set reset_var implication.neutral }
      with hs1
    have hdl_mem : ∀ v ∈ s.m_implied_vars.dropLast, v ∈ s.m_implied_vars := by
      intro v hv
      rw [← hsplit]
      exact List.mem_append.mpr (Or.inl hv)
    have hdl_ne : ∀ v ∈ s.m_implied_vars.dropLast, v ≠ reset_var := by
      intro v hv heq
      exact hrv_not_dl (heq ▸ hv)
    have himp_eq : ∀ v, v ≠ reset_var → s1.get_implication v = s.get_implication v := by
      intro v hne
      show (s.m_implications.set reset_var implication.neutral).getD v _ = _
      exact getD_set_ne _ _ _ _ _ (fun h => hne h.symm)
    have hdom_eq : ∀ v, v ≠ reset_var →
        s1.get_current_domain v = s.get_current_domain v := by
      intro v hne
      show (s.m_domains.set reset_var binary_domain.universal).getD v _ = _
      exact getD_set_ne _ _ _ _ _ (fun h => hne h.symm)
    have hmono1 : s1.m_implied_vars.Pairwise
        (fun a b => (s1.get_implication a).level ≤ (s1.get_implication b).level) := by
      have hpys : s.m_implied_vars.dropLast.Pairwise
          (fun a b => (s.get_implication a).level ≤ (s.get_implication b).level) := by
        rw [← hsplit] at hmono
        exact (List.pairwise_append.mp hmono).1
      exact List.Pairwise.imp_of_mem
        (fun ha hb r => by
          rw [himp_eq _ (hdl_ne _ ha), himp_eq _ (hdl_ne _ hb)]
          exact r) hpys
    have hnodup1 : s1.m_implied_vars.Nodup := by
      rw [← hsplit] at hnodup
      exact (List.nodup_append.mp hnodup).1
    have hbounds1 : ∀ v ∈ s1.m_implied_vars,
        v < s1.m_domains.length ∧ v < s1.m_implications.length := by
      intro v hv
      have := hbounds v (hdl_mem v hv)
      simpa using this
    obtain ⟨ih1, ih2, ih3, ih4, ih5, ih6, ih7, ih8⟩ := ih hmono1 hnodup1 hbounds1
    refine ⟨?_, ?_, ?_, ih4, ih5, ih6, ih7, ih8⟩
    · rw [ih1]
      rw [← hsplit]
      rw [List.filter_append]
      have hlastgone :
          List.filter (fun v => decide ((s.get_implication v).level ≤ L))
            [reset_var] = [] := by
        simp [hgt]
      rw [hlastgone, List.append_nil]
      exact List.filter_congr (fun v hv => by
        rw [himp_eq _ (hdl_ne _ hv)])
    · intro v hv
      have hvne : v ≠ reset_var ∨ v = reset_var := by tauto
      rcases hvne with hvne | rfl
      · have hnot1 : ¬ (v ∈ s1.m_implied_vars ∧ L < (s1.get_implication v).level) := by
          rintro ⟨hmem1, hlt1⟩
          rw [himp_eq _ hvne] at hlt1
          exact hv ⟨hdl_mem v hmem1, hlt1⟩
        obtain ⟨hd, hi⟩ := ih2 v hnot1
        exact ⟨hd.trans (hdom_eq v hvne), hi.trans (himp_eq v hvne)⟩
      · exact absurd ⟨hrv_mem, by omega⟩ hv
    · intro v hv hlt
      rcases eq_or_ne v reset_var with rfl | hvne
      · have hnot1 : ¬ (v ∈ s1.m_implied_vars ∧ L < (s1.get_implication v).level) := by
          rintro ⟨hmem1, _⟩
          exact hrv_not_dl hmem1
        obtain ⟨hd, hi⟩ := ih2 v hnot1
        constructor
        · rw [hd]
          show (s.m_domains.set v binary_domain.universal).getD v _ = _
          exact getD_set_self _ _ _ _ hrv_bounds.1
        · rw [hi]
          show (s.m_implications.set v implication.neutral).getD v _ = _
          exact getD_set_self _ _ _ _ hrv_bounds.2
      · have hvdl : v ∈ s.m_implied_vars.dropLast := by
          rw [← hsplit] at hv
          rcases List.mem_append.mp hv with h | h
          · exact h
          · simp at h; exact absurd h hvne
        have := ih3 v hvdl (by rw [himp_eq _ hvne]; exact hlt)
        exact this

/-- Claim C6: after `backtrack` to target level `L` (on a level-monotone,
duplicate-free trail of in-range variables, with `L` at most the current
level), the decision level equals `L` and the decision stack is truncated to
length `L`; the trail keeps exactly its entries of level at most `L`, which
are left unchanged; every remaining trail entry has level at most `L`; each
popped variable's domain is reset to universal and its implication record
cleared to the neutral value; and the dirty queue is empty. -/
theorem C6_backtrack_postconditions (s : cdcl_sat) (L : Nat)
    (hmono : s.m_implied_vars.Pairwise
      (fun a b => (s.get_implication a).level ≤ (s.get_implication b).level))
    (hnodup : s.m_implied_vars.Nodup)
    (hbounds : ∀ v ∈ s.m_implied_vars,
      v < s.m_domains.length ∧ v < s.m_implications.length)
    (hlev : L ≤ s.m_chosen_vars.length) :
    (backtrack s L).get_level = L ∧
    (backtrack s L).m_chosen_vars = s.m_chosen_vars.take L ∧
    (backtrack s L).m_implied_vars =
      s.m_implied_vars.filter (fun v => decide ((s.get_implication v).level ≤ L)) ∧
    (∀ v ∈ s.m_implied_vars, (s.get_implication v).level ≤ L →
      (backtrack s L).get_current_domain v = s.get_current_domain v ∧
      (backtrack s L).get_implication v = s.get_implication v) ∧
    (∀ v ∈ (backtrack s L).m_implied_vars,
      ((backtrack s L).get_implication v).level ≤ L) ∧
    (∀ v ∈ s.m_implied_vars, L < (s.get_implication v).level →
      (backtrack s L).get_current_domain v = binary_domain.universal ∧
      (backtrack s L).get_implication v = implication.neutral) ∧
    (backtrack s L).m_dirty_variables = [] := by
  obtain ⟨h1, h2, h3, h4, _h5, _h6, _h7, _h8⟩ :=
    backtrack_pop_spec s L hmono hnodup hbounds
  have hchosen : (backtrack s L).m_chosen_vars =
      vector_resize (backtrack_pop s L).m_chosen_vars L := rfl
  have htake : (backtrack s L).m_chosen_vars = s.m_chosen_vars.take L := by
    rw [hchosen, h4, vector_resize, if_pos hlev]
  have himpl : (backtrack s L).m_implied_vars = (backtrack_pop s L).m_implied_vars := rfl
  have hdget : ∀ v, (backtrack s L).get_current_domain v =
      (backtrack_pop s L).get_current_domain v := fun _ => rfl
  have higet : ∀ v, (backtrack s L).get_implication v =
      (backtrack_pop s L).get_implication v := fun _ => rfl
  refine ⟨?_, htake, himpl.trans h1, ?_, ?_, ?_, rfl⟩
  · show (backtrack s L).m_chosen_vars.length = L
    rw [htake, List.length_take]
    omega
  · intro v hv hle
    have := h2 v (by rintro ⟨_, hlt⟩; omega)
    exact ⟨(hdget v).trans this.1, (higet v).trans this.2⟩
  · intro v hv
    rw [himpl, h1] at hv
    obtain ⟨hmem, hdec⟩ := List.mem_filter.mp hv
    have hle : (s.get_implication v).level ≤ L := by simpa using hdec
    have := h2 v (by rintro ⟨_, hlt⟩; omega)
    rw [higet v, this.2]
    exact hle
  · intro v hv hlt
    have := h3 v hv hlt
    exact ⟨(hdget v).trans this.1, (higet v).trans this.2⟩

/-- An in-solve state with a three-entry trail: variable 1 implied at level 0,
variable 2 decided at level 1, variable 3 implied at level 1. -/
def wstate6 : cdcl_sat :=
  { m_max_backtracks := 5
    m_inside_solve := true
    m_domains := [binary_domain.universal, binary_domain.ofBool false,
      binary_domain.ofBool false, binary_domain.ofBool true]
    m_implications := [implication.neutral, ⟨some 0, 1, 0⟩, ⟨none, 2, 1⟩,
      ⟨some 0, 3, 1⟩]
    m_watches_false := [[], [], [], []]
    m_watches_true := [[], [], [], []]
    m_dirty_variables := [3]
    m_clauses := [⟨[1, 2], 0, 1⟩]
    m_implied_vars := [1, 2, 3]
    m_chosen_vars := [2] }

/-- Witness for C6: backjumping to level 0 on the concrete state pops the two
level-1 trail entries and keeps the level-0 one. -/
theorem C6_backtrack_postconditions_witness :
    (wstate6.m_implied_vars.Pairwise
      (fun a b => (wstate6.get_implication a).level ≤ (wstate6.get_implication b).level) ∧
     wstate6.m_implied_vars.Nodup ∧
     (∀ v ∈ wstate6.m_implied_vars,
       v < wstate6.m_domains.length ∧ v < wstate6.m_implications.length) ∧
     0 ≤ wstate6.m_chosen_vars.length) ∧
    ((wstate6.backtrack 0).get_level = 0 ∧
     (wstate6.backtrack 0).m_chosen_vars = wstate6.m_chosen_vars.take 0 ∧
     (wstate6.backtrack 0).m_implied_vars =
       wstate6.m_implied_vars.filter
         (fun v => decide ((wstate6.get_implication v).level ≤ 0)) ∧
     (∀ v ∈ wstate6.m_implied_vars, (wstate6.get_implication v).level ≤ 0 →
       (wstate6.backtrack 0).get_current_domain v = wstate6.get_current_domain v ∧
       (wstate6.backtrack 0).get_implication v = wstate6.get_implication v) ∧
     (∀ v ∈ (wstate6.backtrack 0).m_implied_vars,
       ((wstate6.backtrack 0).get_implication v).level ≤ 0) ∧
     (∀ v ∈ wstate6.m_implied_vars, 0 < (wstate6.get_implication v).level →
       (wstate6.backtrack 0).get_current_domain v = binary_domain.universal ∧
       (wstate6.backtrack 0).get_implication v = implication.neutral) ∧
     (wstate6.backtrack 0).m_dirty_variables = []) :=
  ⟨⟨by decide, by decide, by decide, by decide⟩,
   C6_backtrack_postconditions wstate6 0 (by decide) (by decide) (by decide)
     (by decide)⟩

end cdcl_sat

namespace cdcl_sat

theorem containsB_ofBool_neg (b : Bool) :
    (binary_domain.ofBool (!b)).containsB b = false := by
  cases b <;> rfl

theorem containsB_universal (b : Bool) :
    binary_domain.universal.containsB b = true := by
  cases b <;> rfl

theorem remove_duplicate_variables_go_nodup (lits : List Int) :
    ∀ (seen acc : List Int),
    (∀ x ∈ lits, ∀ y ∈ seen, x.natAbs ≠ y.natAbs) →
    (lits.map Int.natAbs).Nodup →
    remove_duplicate_variables_go seen acc lits = some (acc.reverse ++ lits) := by
  induction lits with
  | nil =>
    intro seen acc _ _
    simp [remove_duplicate_variables_go]
  | cons l rest ih =>
    intro seen acc hdisj hnodup
    have hlns : l ∉ seen := fun h => hdisj l (by simp) l h rfl
    have hlnns : -l ∉ seen := by
      intro h
      exact hdisj l (by simp) (-l) h (by simp)
    rw [remove_duplicate_variables_go, if_neg hlns, if_neg hlnns]
    have hpair : (∀ x ∈ rest, ¬ x.natAbs = l.natAbs) ∧
        (rest.map Int.natAbs).Nodup := by
      simpa using hnodup
    rw [ih (l :: seen) (l :: acc) ?hd hpair.2]
    · simp
    case hd =>
      intro x hx y hy
      rcases List.mem_cons.mp hy with rfl | hy1
      · intro heq
        exact hpair.1 x hx heq
      · exact hdisj x (by simp [hx]) y hy1

/-- A clause whose variables are pairwise distinct passes
`remove_duplicate_variables` unchanged. -/
theorem remove_duplicate_variables_of_nodup_vars (c : clause)
    (h : (c.m_literals.map Int.natAbs).Nodup) :
    remove_duplicate_variables c = some c := by
  unfold remove_duplicate_variables
  rw [remove_duplicate_variables_go_nodup c.m_literals [] [] (by simp) h]
  simp

theorem linear_find_free_literal_found (s : cdcl_sat) (c : clause)
    (second u : Nat) :
    ∀ first, first ≤ u → u < second →
    (∀ i, first ≤ i → i < u →
      (s.get_current_domain (c.get_variable i)).containsB
        (c.is_positive_literal i) = false) →
    (s.get_current_domain (c.get_variable u)).containsB
      (c.is_positive_literal u) = true →
    linear_find_free_literal s c first second = u := by
  suffices hgen : ∀ k first, u - first = k → first ≤ u → u < second →
      (∀ i, first ≤ i → i < u →
        (s.get_current_domain (c.get_variable i)).containsB
          (c.is_positive_literal i) = false) →
      (s.get_current_domain (c.get_variable u)).containsB
        (c.is_positive_literal u) = true →
      linear_find_free_literal s c first second = u by
    intro first hfu hus hfalse htrue
    exact hgen (u - first) first rfl hfu hus hfalse htrue
  intro k
  induction k with
  | zero =>
    intro first hk hfu hus _ htrue
    have heq : first = u := by omega
    subst heq
    unfold linear_find_free_literal
    rw [dif_pos hus, if_pos htrue]
  | succ k ih =>
    intro first hk hfu hus hfalse htrue
    have hlt : first < u := by omega
    unfold linear_find_free_literal
    rw [dif_pos (by omega)]
    rw [if_neg (by simp [hfalse first le_rfl hlt])]
    exact ih (first + 1) (by omega) (by omega) hus
      (fun i h1 h2 => hfalse i (by omega) h2) htrue

theorem linear_find_free_literal_not_found (s : cdcl_sat) (c : clause)
    (second : Nat) :
    ∀ first,
    (∀ i, first ≤ i → i < second →
      (s.get_current_domain (c.get_variable i)).containsB
        (c.is_positive_literal i) = false) →
    linear_find_free_literal s c first second = second := by
  suffices hgen : ∀ k first, second - first = k →
      (∀ i, first ≤ i → i < second →
        (s.get_current_domain (c.get_variable i)).containsB
          (c.is_positive_literal i) = false) →
      linear_find_free_literal s c first second = second by
    intro first hfalse
    exact hgen (second - first) first rfl hfalse
  intro k
  induction k with
  | zero =>
    intro first hk _
    unfold linear_find_free_literal
    rw [dif_neg (by omega)]
  | succ k ih =>
    intro first hk hfalse
    unfold linear_find_free_literal
    rw [dif_pos (by omega)]
    rw [if_neg (by simp [hfalse first le_rfl (by omega)])]
    exact ih (first + 1) (by omega) (fun i h1 h2 => hfalse i (by omega) h2)

/-- Claim C2: running `initial_propagate` on a (learned) clause in a state
where exactly one of its literals is free — its variable's domain universal —
and every other literal is falsified (the state `backtrack` establishes for
the learned clause at the backjump level), with pairwise-distinct variables,
returns `SAT` and forces exactly one new implication: the free literal's
variable is assigned its polarity, is appended once to the dirty queue and
the trail, and its implication record names this clause as cause at the
current (backjump) level; no watches are registered. -/
theorem C2_learned_clause_initial_propagate (s : cdcl_sat) (lc u : Nat)
    (hin : s.m_inside_solve = true)
    (hnodup : ((s.get_clause lc).m_literals.map Int.natAbs).Nodup)
    (hu : u < (s.get_clause lc).m_literals.length)
    (huniv : s.get_current_domain ((s.get_clause lc).get_variable u) =
      binary_domain.universal)
    (hfalse : ∀ i < (s.get_clause lc).m_literals.length, i ≠ u →
      s.get_current_domain ((s.get_clause lc).get_variable i) =
        binary_domain.ofBool (!(s.get_clause lc).is_positive_literal i)) :
    clause_initial_propagate s lc = (.SAT,
      { s with
        m_clauses := s.m_clauses.set lc
          ⟨(s.get_clause lc).m_literals, u, (s.get_clause lc).m_literals.length⟩
        m_domains := s.m_domains.set ((s.get_clause lc).get_variable u)
          (binary_domain.ofBool ((s.get_clause lc).is_positive_literal u))
        m_dirty_variables := s.m_dirty_variables ++ [(s.get_clause lc).get_variable u]
        m_implied_vars := s.m_implied_vars ++ [(s.get_clause lc).get_variable u]
        m_implications := s.m_implications.set ((s.get_clause lc).get_variable u)
          ⟨some lc, s.m_implied_vars.length + 1, s.m_chosen_vars.length⟩ }) := by
  have hc := remove_duplicate_variables_of_nodup_vars (s.get_clause lc) hnodup
  have hsz : (s.get_clause lc).size = (s.get_clause lc).m_literals.length := rfl
  unfold clause_initial_propagate
  dsimp only
  rw [hc]
  dsimp only
  have hw0 : linear_find_free_literal s
      ⟨(s.get_clause lc).m_literals, 0, (s.get_clause lc).size - 1⟩
      0 (s.get_clause lc).size = u := by
    apply linear_find_free_literal_found s _ _ u 0 (Nat.zero_le u) (by omega)
    · intro i _ hiu
      rw [show (⟨(s.get_clause lc).m_literals, 0, (s.get_clause lc).size - 1⟩ :
          clause).get_variable i = (s.get_clause lc).get_variable i from rfl]
      rw [show (⟨(s.get_clause lc).m_literals, 0, (s.get_clause lc).size - 1⟩ :
          clause).is_positive_literal i = (s.get_clause lc).is_positive_literal i
          from rfl]
      rw [hfalse i (by omega) (by omega)]
      exact containsB_ofBool_neg _
    · rw [show (⟨(s.get_clause lc).m_literals, 0, (s.get_clause lc).size - 1⟩ :
          clause).get_variable u = (s.get_clause lc).get_variable u from rfl]
      rw [show (⟨(s.get_clause lc).m_literals, 0, (s.get_clause lc).size - 1⟩ :
          clause).is_positive_literal u = (s.get_clause lc).is_positive_literal u
          from rfl]
      rw [huniv]
      exact containsB_universal _
  rw [hw0]
  rw [if_neg (show ¬ u = (s.get_clause lc).size by omega)]
  have hw1 : linear_find_free_literal s
      ⟨(s.get_clause lc).m_literals, u, (s.get_clause lc).size - 1⟩
      (u + 1) (s.get_clause lc).size = (s.get_clause lc).size := by
    apply linear_find_free_literal_not_found
    intro i h1 h2
    rw [show (⟨(s.get_clause lc).m_literals, u, (s.get_clause lc).size - 1⟩ :
        clause).get_variable i = (s.get_clause lc).get_variable i from rfl]
    rw [show (⟨(s.get_clause lc).m_literals, u, (s.get_clause lc).size - 1⟩ :
        clause).is_positive_literal i = (s.get_clause lc).is_positive_literal i
        from rfl]
    rw [hfalse i (by omega) (by omega)]
    exact containsB_ofBool_neg _
  rw [hw1]
  rw [if_pos rfl]
  unfold unit_propagate
  dsimp only
  rw [show (s.set_clause lc
      ⟨(s.get_clause lc).m_literals, u, (s.get_clause lc).size⟩).get_current_domain
      ((⟨(s.get_clause lc).m_literals, u, (s.get_clause lc).size⟩ :
        clause).get_variable u) =
      s.get_current_domain ((s.get_clause lc).get_variable u) from rfl]
  rw [show (⟨(s.get_clause lc).m_literals, u, (s.get_clause lc).size⟩ :
      clause).is_positive_literal u = (s.get_clause lc).is_positive_literal u
      from rfl]
  rw [huniv]
  rw [if_neg (by simp [containsB_universal])]
  rw [if_neg (by simp [binary_domain.is_singleton, binary_domain.universal])]
  unfold cdcl_sat.set_domain
  rw [show (s.set_clause lc
      ⟨(s.get_clause lc).m_literals, u, (s.get_clause lc).size⟩).get_current_domain
      ((⟨(s.get_clause lc).m_literals, u, (s.get_clause lc).size⟩ :
        clause).get_variable u) =
      s.get_current_domain ((s.get_clause lc).get_variable u) from rfl]
  rw [huniv]
  rw [if_neg (by cases (s.get_clause lc).is_positive_literal u <;> decide)]
  dsimp only
  rw [if_pos (show (s.set_clause lc
      ⟨(s.get_clause lc).m_literals, u, (s.get_clause lc).size⟩).m_inside_solve =
      true from hin)]
  rfl

/-- A post-backjump state: variable 2 assigned true at level 1, variable 3
free, and the learned clause (handle 2) `¬2 ∨ 3` unit on variable 3. -/
def wstate2 : cdcl_sat :=
  { m_max_backtracks := 5
    m_inside_solve := true
    m_domains := [binary_domain.universal, binary_domain.universal,
      binary_domain.ofBool true, binary_domain.universal]
    m_implications := [implication.neutral, implication.neutral, ⟨none, 1, 1⟩,
      implication.neutral]
    m_watches_false := [[], [], [], []]
    m_watches_true := [[], [], [], []]
    m_dirty_variables := []
    m_clauses := [⟨[1, 2], 0, 1⟩, ⟨[2, 3], 0, 1⟩, ⟨[-2, 3], 0, 0⟩]
    m_implied_vars := [2]
    m_chosen_vars := [2] }

/-- Witness for C2: initial propagation of the concrete unit learned clause
`¬2 ∨ 3` assigns variable 3 true with the learned clause as cause. -/
theorem C2_learned_clause_initial_propagate_witness :
    (((wstate2.get_clause 2).m_literals.map Int.natAbs).Nodup ∧
     1 < (wstate2.get_clause 2).m_literals.length ∧
     wstate2.get_current_domain ((wstate2.get_clause 2).get_variable 1) =
       binary_domain.universal ∧
     (∀ i < (wstate2.get_clause 2).m_literals.length, i ≠ 1 →
       wstate2.get_current_domain ((wstate2.get_clause 2).get_variable i) =
         binary_domain.ofBool (!(wstate2.get_clause 2).is_positive_literal i))) ∧
    clause_initial_propagate wstate2 2 = (.SAT,
      { wstate2 with
        m_clauses := wstate2.m_clauses.set 2
          ⟨(wstate2.get_clause 2).m_literals, 1,
            (wstate2.get_clause 2).m_literals.length⟩
        m_domains := wstate2.m_domains.set ((wstate2.get_clause 2).get_variable 1)
          (binary_domain.ofBool ((wstate2.get_clause 2).is_positive_literal 1))
        m_dirty_variables := wstate2.m_dirty_variables ++
          [(wstate2.get_clause 2).get_variable 1]
        m_implied_vars := wstate2.m_implied_vars ++
          [(wstate2.get_clause 2).get_variable 1]
        m_implications := wstate2.m_implications.set
          ((wstate2.get_clause 2).get_variable 1)
          ⟨some 2, wstate2.m_implied_vars.length + 1,
           wstate2.m_chosen_vars.length⟩ }) :=
  ⟨⟨by decide, by decide, by decide, by decide⟩,
   C2_learned_clause_initial_propagate wstate2 2 1 rfl (by decide) (by decide)
     (by decide) (by decide)⟩

/-- A level-1 state whose conflict analysis empties the resolvent: the
conflicting clause (handle 1) is the unit clause `1`, and variable 1 was
implied by the unit clause `¬1` (handle 0). -/
def wstate3 : cdcl_sat :=
  { m_max_backtracks := 5
    m_inside_solve := true
    m_domains := [binary_domain.universal, binary_domain.ofBool false]
    m_implications := [implication.neutral, ⟨some 0, 1, 1⟩]
    m_watches_false := [[], []]
    m_watches_true := [[], []]
    m_dirty_variables := []
    m_clauses := [⟨[-1], 0, 0⟩, ⟨[1], 0, 0⟩]
    m_implied_vars := [1]
    m_chosen_vars := [1] }

/-- Claim C3, counterexample: at a concrete state the resolution loop ends
with the empty resolvent, yet `analyze_conflict` does not return "no result"
(`nullopt`): the empty resolvent passes the `is_unit` test (its depth map has
at most one entry), so the code instead reads the second-latest entry of the
empty depth map — undefined behaviour, modelled as an error. -/
theorem C3_counterexample :
    analyze_loop wstate3 10 (analysis_init wstate3 1) = .ok ⟨[], []⟩ ∧
    analyze_conflict 10 wstate3 1 = .error .empty_level_lookup := by
  constructor
  · rfl
  · rfl

/-- Claim C3, amended: given the resolution loop's final resolvent (with its
two maps in sync), `analyze_conflict` returns backjump level 0 and a learned
clause holding the single resolvent literal when the resolvent has exactly
one literal, and, when the resolvent has at least two literals and is unit,
a learned clause with all resolvent literals and backjump level equal to the
decision level of the second-latest implied variable in the resolvent; but
for an empty final resolvent it does not return "no result" — the empty
resolvent satisfies the unit test and the code reads the second-latest entry
of the empty depth map (undefined behaviour; the `nullopt` path, and with it
the UNSAT report of `solve` from conflict analysis, is unreachable). -/
theorem C3_analyze_conflict_outcomes (fuel : Nat) (s : cdcl_sat) (ch : Nat)
    (a : conflict_analysis_algo)
    (hloop : analyze_loop s fuel (analysis_init s ch) = .ok a)
    (hsync : a.conflict_literals.length = a.implication_depth_to_var.length) :
    (a.conflict_literals.length = 1 →
      analyze_conflict fuel s ch = .ok (some (0, s.m_clauses.length),
        { s with m_clauses := s.m_clauses ++
            [⟨a.conflict_literals.map
                (fun p => if p.2 then (p.1 : Int) else -(p.1 : Int)), 0, 0⟩] })) ∧
    (a.conflict_literals = [] →
      analyze_conflict fuel s ch = .error .empty_level_lookup) ∧
    (2 ≤ a.conflict_literals.length → is_unit s a = true →
      analyze_conflict fuel s ch =
        .ok (some ((s.get_implication
            ((a.implication_depth_to_var.reverse.getD 1 (0, 0)).2)).level,
          s.m_clauses.length),
        { s with m_clauses := s.m_clauses ++
            [⟨a.conflict_literals.map
                (fun p => if p.2 then (p.1 : Int) else -(p.1 : Int)), 0, 0⟩] })) := by
  unfold analyze_conflict
  rw [hloop]
  dsimp only
  refine ⟨fun h1 => ?_, fun h2 => ?_, fun h3 hunit => ?_⟩
  · rw [if_pos h1]
    rfl
  · have hlen : a.conflict_literals.length = 0 := by simp [h2]
    have hdep : a.implication_depth_to_var = [] :=
      List.length_eq_zero.mp (hsync ▸ hlen)
    rw [if_neg (by omega)]
    have hunit : is_unit s a = true := by
      unfold is_unit
      rw [if_pos (by rw [hdep]; simp)]
    rw [if_pos hunit]
    rw [hdep]
    rfl
  · rw [if_neg (by omega), if_pos hunit]
    have h1lt : 1 < a.implication_depth_to_var.reverse.length := by
      simp only [List.length_reverse]
      omega
    rw [List.getElem?_eq_getElem h1lt]
    have hgd : a.implication_depth_to_var.reverse.getD 1 (0, 0) =
        a.implication_depth_to_var.reverse[1] := by
      rw [List.getD_eq_getElem?_getD, List.getElem?_eq_getElem h1lt]
      rfl
    rw [hgd]
    rfl

/-- A level-1 state with the classic two-clause conflict: deciding variable 1
false makes clause 0 (`1 ∨ 2`) imply variable 2 true, and clause 1
(`1 ∨ ¬2`) conflict; analysis resolves to the one-literal resolvent `1`. -/
def wstate3b : cdcl_sat :=
  { m_max_backtracks := 5
    m_inside_solve := true
    m_domains := [binary_domain.universal, binary_domain.ofBool false,
      binary_domain.ofBool true]
    m_implications := [implication.neutral, ⟨none, 1, 1⟩, ⟨some 0, 2, 1⟩]
    m_watches_false := [[], [], []]
    m_watches_true := [[], [], []]
    m_dirty_variables := []
    m_clauses := [⟨[1, 2], 0, 1⟩, ⟨[1, -2], 0, 1⟩]
    m_implied_vars := [1, 2]
    m_chosen_vars := [1] }

/-- Witness for the amended C3: at the concrete conflict state the loop ends
with the one-literal resolvent `1`, and `analyze_conflict` returns backjump
level 0 with the learned unit clause `1`. -/
theorem C3_analyze_conflict_outcomes_witness :
    (analyze_loop wstate3b 10 (analysis_init wstate3b 1) =
      .ok ⟨[(1, true)], [(1, 1)]⟩ ∧
     ([((1 : Nat), true)] : List (Nat × Bool)).length = ([((1 : Nat), (1 : Nat))] : List (Nat × Nat)).length ∧
     ([((1 : Nat), true)] : List (Nat × Bool)).length = 1) ∧
    analyze_conflict 10 wstate3b 1 = .ok (some (0, wstate3b.m_clauses.length),
      { wstate3b with m_clauses := wstate3b.m_clauses ++
          [⟨([((1 : Nat), true)] : List (Nat × Bool)).map
              (fun p => if p.2 then (p.1 : Int) else -(p.1 : Int)), 0, 0⟩] }) :=
  ⟨⟨rfl, by decide, by decide⟩,
   (C3_analyze_conflict_outcomes 10 wstate3b 1 ⟨[(1, true)], [(1, 1)]⟩
     rfl (by decide)).1 (by decide)⟩

end cdcl_sat

/-! Facts about the sorted association lists modelling `std::map`. -/

/-- Strictly increasing keys: the `std::map` representation invariant. -/
def keys_sorted {α : Type} (l : List (Nat × α)) : Prop :=
  l.Pairwise (fun p q => p.1 < q.1)

theorem mem_am_insert {α : Type} (k : Nat) (v : α) (l : List (Nat × α))
    (p : Nat × α) (h : p ∈ am_insert k v l) : p = (k, v) ∨ p ∈ l := by
  induction l with
  | nil => simpa [am_insert] using h
  | cons q rest ih =>
    unfold am_insert at h
    split at h
    · rcases List.mem_cons.mp h with h1 | h1
      · exact Or.inl h1
      · exact Or.inr h1
    · split at h
      · exact Or.inr h
      · rcases List.mem_cons.mp h with h1 | h1
        · exact Or.inr (by simp [h1])
        · rcases ih h1 with h2 | h2
          · exact Or.inl h2
          · exact Or.inr (by simp [h2])

theorem mem_am_insert_mono {α : Type} (k : Nat) (v : α) (l : List (Nat × α))
    (p : Nat × α) (h : p ∈ l) : p ∈ am_insert k v l := by
  induction l with
  | nil => cases h
  | cons q rest ih =>
    unfold am_insert
    split
    · exact List.mem_cons_of_mem _ h
    · split
      · exact h
      · rcases List.mem_cons.mp h with h1 | h1
        · exact List.mem_cons.mpr (Or.inl h1)
        · exact List.mem_cons_of_mem _ (ih h1)

theorem mem_am_insert_self {α : Type} (k : Nat) (v : α) (l : List (Nat × α))
    (h : am_contains k l = false) : (k, v) ∈ am_insert k v l := by
  induction l with
  | nil => simp [am_insert]
  | cons q rest ih =>
    have hk : ¬ (q.1 = k) ∧ am_contains k rest = false := by
      constructor
      · intro he
        simp [am_contains, he] at h
      · simp only [am_contains, List.any_cons, Bool.or_eq_false_iff] at h
        exact h.2
    unfold am_insert
    split
    · simp
    · split
      · next heq => exact absurd heq.symm (by simpa using hk.1)
      · exact List.mem_cons_of_mem _ (ih hk.2)

theorem am_contains_iff {α : Type} (k : Nat) (l : List (Nat × α)) :
    am_contains k l = true ↔ ∃ v, (k, v) ∈ l := by
  unfold am_contains
  rw [List.any_eq_true]
  constructor
  · rintro ⟨p, hp, he⟩
    refine ⟨p.2, ?_⟩
    have hk : p.1 = k := by simpa using he
    rw [← hk]
    exact hp
  · rintro ⟨v, hv⟩
    exact ⟨(k, v), hv, by simp⟩

theorem am_insert_sorted {α : Type} (k : Nat) (v : α) (l : List (Nat × α))
    (h : keys_sorted l) : keys_sorted (am_insert k v l) := by
  induction l with
  | nil => simp [am_insert, keys_sorted]
  | cons q rest ih =>
    obtain ⟨hq, hrest⟩ := List.pairwise_cons.mp h
    unfold am_insert
    split
    · next hlt =>
      refine List.pairwise_cons.mpr ⟨?_, h⟩
      intro p hp
      rcases List.mem_cons.mp hp with rfl | hp1
      · exact hlt
      · exact hlt.trans (hq p hp1)
    · split
      · exact h
      · next hnlt hne =>
        refine List.pairwise_cons.mpr ⟨?_, ih hrest⟩
        intro p hp
        rcases mem_am_insert k v rest p hp with rfl | hp1
        · omega
        · exact hq p hp1

theorem am_erase_subset {α : Type} (k : Nat) (l : List (Nat × α))
    (p : Nat × α) (h : p ∈ am_erase k l) : p ∈ l := by
  induction l with
  | nil => simpa [am_erase] using h
  | cons q rest ih =>
    unfold am_erase at h
    split at h
    · exact List.mem_cons_of_mem _ h
    · rcases List.mem_cons.mp h with h1 | h1
      · exact List.mem_cons.mpr (Or.inl h1)
      · exact List.mem_cons_of_mem _ (ih h1)

theorem am_erase_sorted {α : Type} (k : Nat) (l : List (Nat × α))
    (h : keys_sorted l) : keys_sorted (am_erase k l) := by
  induction l with
  | nil => simpa [am_erase] using h
  | cons q rest ih =>
    obtain ⟨hq, hrest⟩ := List.pairwise_cons.mp h
    unfold am_erase
    split
    · exact hrest
    · exact List.pairwise_cons.mpr
        ⟨fun p hp => hq p (am_erase_subset k rest p hp), ih hrest⟩

theorem mem_am_erase_of_ne {α : Type} (k : Nat) (l : List (Nat × α))
    (p : Nat × α) (hp : p ∈ l) (hne : p.1 ≠ k) : p ∈ am_erase k l := by
  induction l with
  | nil => cases hp
  | cons q rest ih =>
    unfold am_erase
    split
    · next heq =>
      rcases List.mem_cons.mp hp with rfl | h1
      · exact absurd heq.symm hne
      · exact h1
    · rcases List.mem_cons.mp hp with rfl | h1
      · simp
      · exact List.mem_cons_of_mem _ (ih h1)

theorem key_ne_of_mem_am_erase {α : Type} (k : Nat) (l : List (Nat × α))
    (hs : keys_sorted l) (p : Nat × α) (h : p ∈ am_erase k l) : p.1 ≠ k := by
  induction l with
  | nil => simp [am_erase] at h
  | cons q rest ih =>
    obtain ⟨hq, hrest⟩ := List.pairwise_cons.mp hs
    unfold am_erase at h
    split at h
    · next heq =>
      have := hq p h
      omega
    · next hne =>
      rcases List.mem_cons.mp h with rfl | h1
      · exact fun he => hne he.symm
      · exact ih hrest h1

namespace cdcl_sat

/-- Well-formedness of the implication store, as the trail construction
maintains it: among variables with non-zero implication depth, levels are
monotone in depth, depths are injective, a decision has the least depth of
its level, and recorded cause clauses are in range. -/
def imp_wf (s : cdcl_sat) : Prop :=
  (∀ u < s.m_implications.length, ∀ v < s.m_implications.length,
    (s.get_implication u).implication_depth ≠ 0 →
    (s.get_implication v).implication_depth ≠ 0 →
    (s.get_implication u).implication_depth ≤
      (s.get_implication v).implication_depth →
    (s.get_implication u).level ≤ (s.get_implication v).level) ∧
  (∀ u < s.m_implications.length, ∀ v < s.m_implications.length,
    (s.get_implication u).implication_depth ≠ 0 →
    (s.get_implication u).implication_depth =
      (s.get_implication v).implication_depth →
    u = v) ∧
  (∀ v < s.m_implications.length, ∀ u < s.m_implications.length,
    (s.get_implication v).implication_depth ≠ 0 →
    (s.get_implication v).implication_cause = none →
    (s.get_implication u).implication_depth ≠ 0 →
    (s.get_implication u).level = (s.get_implication v).level →
    (s.get_implication v).implication_depth ≤
      (s.get_implication u).implication_depth) ∧
  (∀ v < s.m_implications.length,
    (s.get_implication v).implication_cause.all
      (fun ch => decide (ch < s.m_clauses.length)) = true)

/-- Well-formedness of the analyzer state: both maps have strictly sorted
keys, each depth-index entry records a variable under its own non-zero
implication depth, and the two maps hold the same variables. -/
def algo_wf (s : cdcl_sat) (a : conflict_analysis_algo) : Prop :=
  keys_sorted a.implication_depth_to_var ∧
  keys_sorted a.conflict_literals ∧
  (∀ p ∈ a.implication_depth_to_var,
    p.1 = (s.get_implication p.2).implication_depth ∧ p.1 ≠ 0) ∧
  (∀ p ∈ a.implication_depth_to_var,
    am_contains p.2 a.conflict_literals = true) ∧
  (∀ q ∈ a.conflict_literals, ∃ p ∈ a.implication_depth_to_var, p.2 = q.1)

/-- A variable with non-zero implication depth indexes the implication store. -/
theorem depth_ne_zero_lt (s : cdcl_sat) (v : Nat)
    (h : (s.get_implication v).implication_depth ≠ 0) :
    v < s.m_implications.length := by
  by_contra hge
  have hneu : s.get_implication v = implication.neutral := by
    unfold cdcl_sat.get_implication
    exact List.getD_eq_default _ _ (by omega)
  rw [hneu] at h
  exact h rfl

/-- The literal fold of `resolve` preserves analyzer well-formedness, given
depth injectivity of the implication store. -/
theorem resolve_go_preserves_wf (s : cdcl_sat) (pivot : Nat)
    (hinj : ∀ u v, (s.get_implication u).implication_depth ≠ 0 →
      (s.get_implication u).implication_depth =
        (s.get_implication v).implication_depth →
      u = v)
    (lits : List Int) :
    ∀ a, algo_wf s a → algo_wf s (resolve_go s pivot a lits) := by
  induction lits with
  | nil => exact fun a ha => ha
  | cons lit rest ih =>
    intro a ha
    obtain ⟨hs1, hs2, hent, hfwd, hbwd⟩ := ha
    unfold resolve_go
    dsimp only
    split
    · exact ih a ⟨hs1, hs2, hent, hfwd, hbwd⟩
    · next hdep0 =>
      split
      · next hpiv =>
        apply ih
        refine ⟨am_erase_sorted _ _ hs1, am_erase_sorted _ _ hs2, ?_, ?_, ?_⟩
        · intro p hp
          exact hent p (am_erase_subset _ _ p hp)
        · intro p hp
          have hpd := am_erase_subset _ _ p hp
          have hpk := key_ne_of_mem_am_erase _ _ hs1 p hp
          have hpvar : p.2 ≠ lit.natAbs := by
            intro he
            exact hpk (by rw [(hent p hpd).1, he])
          obtain ⟨w, hw⟩ := (am_contains_iff _ _).mp (hfwd p hpd)
          exact (am_contains_iff _ _).mpr
            ⟨w, mem_am_erase_of_ne _ _ (p.2, w) hw (by simpa using hpvar)⟩
        · intro q hq
          have hql := am_erase_subset _ _ q hq
          have hqk := key_ne_of_mem_am_erase _ _ hs2 q hq
          obtain ⟨p, hp, hpv⟩ := hbwd q hql
          refine ⟨p, mem_am_erase_of_ne _ _ p hp ?_, hpv⟩
          intro he
          have hpd := (hent p hp).1
          have hpnz := (hent p hp).2
          have : p.2 = lit.natAbs := by
            apply hinj
            · rw [← hpd]; exact hpnz
            · rw [← hpd, he]
          exact hqk (by rw [← hpv, this])
      · split
        · exact ih a ⟨hs1, hs2, hent, hfwd, hbwd⟩
        · next hnc =>
          apply ih
          have hncb : am_contains lit.natAbs a.conflict_literals = false := by
            revert hnc
            cases am_contains lit.natAbs a.conflict_literals <;> simp
          have hnd : am_contains (s.get_implication lit.natAbs).implication_depth
              a.implication_depth_to_var = false := by
            by_contra hcon
            have htrue : am_contains (s.get_implication lit.natAbs).implication_depth
                a.implication_depth_to_var = true := by
              revert hcon
              cases am_contains (s.get_implication lit.natAbs).implication_depth
                a.implication_depth_to_var <;> simp
            obtain ⟨w, hw⟩ := (am_contains_iff _ _).mp htrue
            have hent_w := hent _ hw
            have hweq : w = lit.natAbs := by
              apply hinj
              · rw [← hent_w.1]; exact hent_w.2
              · rw [← hent_w.1]
            have := hfwd _ hw
            rw [hweq] at this
            rw [this] at hncb
            cases hncb
          refine ⟨am_insert_sorted _ _ _ hs1, am_insert_sorted _ _ _ hs2, ?_, ?_, ?_⟩
          · intro p hp
            rcases mem_am_insert _ _ _ p hp with rfl | hp1
            · exact ⟨rfl, hdep0⟩
            · exact hent p hp1
          · intro p hp
            rcases mem_am_insert _ _ _ p hp with rfl | hp1
            · exact (am_contains_iff _ _).mpr
                ⟨0 < lit, mem_am_insert_self _ _ _ hncb⟩
            · obtain ⟨w, hw⟩ := (am_contains_iff _ _).mp (hfwd p hp1)
              exact (am_contains_iff _ _).mpr ⟨w, mem_am_insert_mono _ _ _ _ hw⟩
          · intro q hq
            rcases mem_am_insert _ _ _ q hq with rfl | hq1
            · exact ⟨((s.get_implication lit.natAbs).implication_depth, lit.natAbs),
                mem_am_insert_self _ _ _ hnd, rfl⟩
            · obtain ⟨p, hp, hpv⟩ := hbwd q hq1
              exact ⟨p, mem_am_insert_mono _ _ _ _ hp, hpv⟩

/-- When the resolvent is not unit, its latest implied variable cannot be a
decision: a second variable of the same (maximal) level is present with a
smaller depth, while a decision has the least depth of its level. -/
theorem latest_not_decision_of_not_unit (s : cdcl_sat) (a : conflict_analysis_algo)
    (hdec : ∀ v < s.m_implications.length, ∀ u < s.m_implications.length,
      (s.get_implication v).implication_depth ≠ 0 →
      (s.get_implication v).implication_cause = none →
      (s.get_implication u).implication_depth ≠ 0 →
      (s.get_implication u).level = (s.get_implication v).level →
      (s.get_implication v).implication_depth ≤
        (s.get_implication u).implication_depth)
    (ha : algo_wf s a) (hnotunit : is_unit s a = false)
    (p : Nat × Nat) (hlast : a.implication_depth_to_var.getLast? = some p) :
    (s.get_implication p.2).implication_cause ≠ none := by
  obtain ⟨hs1, _, hent, _, _⟩ := ha
  have hlen2 : 2 ≤ a.implication_depth_to_var.length ∧
      algo_get_level s a 0 = algo_get_level s a 1 := by
    unfold is_unit at hnotunit
    split at hnotunit
    · cases hnotunit
    · next hgt =>
      refine ⟨by omega, ?_⟩
      exact not_not.mp (of_decide_eq_false hnotunit)
  obtain ⟨hlen, hlvl⟩ := hlen2
  have hr0 : (0 : Nat) < a.implication_depth_to_var.reverse.length := by
    simp only [List.length_reverse]; omega
  have hr1 : (1 : Nat) < a.implication_depth_to_var.reverse.length := by
    simp only [List.length_reverse]; omega
  have hg0 : algo_get_level s a 0 =
      some ((s.get_implication (a.implication_depth_to_var.reverse[0]).2).level) := by
    unfold algo_get_level
    rw [List.getElem?_eq_getElem hr0]
    rfl
  have hg1 : algo_get_level s a 1 =
      some ((s.get_implication (a.implication_depth_to_var.reverse[1]).2).level) := by
    unfold algo_get_level
    rw [List.getElem?_eq_getElem hr1]
    rfl
  rw [hg0, hg1] at hlvl
  have hlvl2 := Option.some.inj hlvl
  have hd1 : a.implication_depth_to_var.reverse[0] =
      a.implication_depth_to_var[a.implication_depth_to_var.length - 1] := by
    rw [List.getElem_reverse]
    simp
  have hd2 : a.implication_depth_to_var.reverse[1] =
      a.implication_depth_to_var[a.implication_depth_to_var.length - 1 - 1] := by
    rw [List.getElem_reverse]
  have hpd1 : p = a.implication_depth_to_var[a.implication_depth_to_var.length - 1] := by
    rw [List.getLast?_eq_getElem?, List.getElem?_eq_getElem (by omega)] at hlast
    exact (Option.some.inj hlast).symm
  set q1 := a.implication_depth_to_var[a.implication_depth_to_var.length - 1]
    with hq1def
  set q2 := a.implication_depth_to_var[a.implication_depth_to_var.length - 1 - 1]
    with hq2def
  have hq1mem : q1 ∈ a.implication_depth_to_var := List.getElem_mem _
  have hq2mem : q2 ∈ a.implication_depth_to_var := List.getElem_mem _
  have hq1ent := hent q1 hq1mem
  have hq2ent := hent q2 hq2mem
  have hklt : q2.1 < q1.1 := by
    have := List.pairwise_iff_getElem.mp hs1
      (a.implication_depth_to_var.length - 1 - 1)
      (a.implication_depth_to_var.length - 1) (by omega) (by omega) (by omega)
    exact this
  have hlq : (s.get_implication q1.2).level = (s.get_implication q2.2).level := by
    rw [hd1, hd2] at hlvl2
    exact hlvl2
  rw [hpd1]
  intro hcon
  have hq1nz : (s.get_implication q1.2).implication_depth ≠ 0 := by
    rw [← hq1ent.1]; exact hq1ent.2
  have hq2nz : (s.get_implication q2.2).implication_depth ≠ 0 := by
    rw [← hq2ent.1]; exact hq2ent.2
  have := hdec q1.2 (depth_ne_zero_lt s q1.2 hq1nz)
    q2.2 (depth_ne_zero_lt s q2.2 hq2nz) hq1nz hcon hq2nz hlq.symm
  rw [← hq1ent.1, ← hq2ent.1] at this
  omega

/-- Claim C4: during every run of conflict analysis, each resolution step's
pivot (the latest implied variable in the resolvent) has a clause as its
implication cause, never the DECISION marker, and the lookup of its cause
clause never fails: under the implication-store invariants, for a well-formed
nonempty resolvent whose initial latest variable is clause-implied, the
resolution loop either returns a final resolvent or merely runs out of fuel —
it never reaches the DECISION / failed-lookup error (the stop condition is
reached first). -/
theorem C4_analyze_loop_no_decision_pivot (s : cdcl_sat) (hwf : imp_wf s) :
    ∀ (fuel : Nat) (a : conflict_analysis_algo), algo_wf s a →
    a.implication_depth_to_var ≠ [] →
    (a.implication_depth_to_var.getLast?).all
      (fun p => decide ((s.get_implication p.2).implication_cause ≠ none)) = true →
    (∃ a1, analyze_loop s fuel a = .ok a1) ∨
      analyze_loop s fuel a = .error .out_of_fuel := by
  obtain ⟨hmono, hinjB, hdec, hrange⟩ := hwf
  have hinj : ∀ u v, (s.get_implication u).implication_depth ≠ 0 →
      (s.get_implication u).implication_depth =
        (s.get_implication v).implication_depth → u = v := by
    intro u v hu he
    have hv : (s.get_implication v).implication_depth ≠ 0 := by rw [← he]; exact hu
    exact hinjB u (depth_ne_zero_lt s u hu) v (depth_ne_zero_lt s v hv) hu he
  intro fuel
  induction fuel with
  | zero =>
    intro a _ _ _
    right
    rfl
  | succ fuel ih =>
    intro a ha hne hfirst
    obtain ⟨p, hp⟩ : ∃ p, a.implication_depth_to_var.getLast? = some p := by
      cases hgl : a.implication_depth_to_var.getLast? with
      | none => exact absurd (List.getLast?_eq_none_iff.mp hgl) hne
      | some p => exact ⟨p, rfl⟩
    have hcause : (s.get_implication p.2).implication_cause ≠ none := by
      rw [hp] at hfirst
      simpa using hfirst
    unfold analyze_loop
    rw [hp]
    dsimp only
    cases hc : (s.get_implication p.2).implication_cause with
    | none => exact absurd hc hcause
    | some ch =>
      have hpmem : p ∈ a.implication_depth_to_var := by
        obtain ⟨ys, hys⟩ := List.getLast?_eq_some_iff.mp hp
        rw [hys]
        simp
      have hdep := ha.2.2.1 p hpmem
      have hlt : ch < s.m_clauses.length := by
        have := hrange p.2 (depth_ne_zero_lt s p.2 (by rw [← hdep.1]; exact hdep.2))
        rw [hc] at this
        simpa using this
      have hres : resolve s a p.2 =
          .ok (resolve_go s p.2 a (s.m_clauses[ch]).m_literals) := by
        unfold resolve
        rw [hc]
        dsimp only
        rw [List.getElem?_eq_getElem hlt]
      rw [hres]
      dsimp only
      have ha1wf : algo_wf s (resolve_go s p.2 a (s.m_clauses[ch]).m_literals) :=
        resolve_go_preserves_wf s p.2 hinj _ a ha
      by_cases hstop :
          ((resolve_go s p.2 a (s.m_clauses[ch]).m_literals).conflict_literals.isEmpty = true ∨
           (resolve_go s p.2 a (s.m_clauses[ch]).m_literals).conflict_literals.length = 1 ∨
           is_unit s (resolve_go s p.2 a (s.m_clauses[ch]).m_literals) = true)
      · left
        exact ⟨_, by rw [if_pos hstop]⟩
      · rw [if_neg hstop]
        push_neg at hstop
        obtain ⟨hne1, hlen1, hunit1⟩ := hstop
        have hunit1f : is_unit s (resolve_go s p.2 a (s.m_clauses[ch]).m_literals) = false := by
          revert hunit1
          cases is_unit s (resolve_go s p.2 a (s.m_clauses[ch]).m_literals) <;> simp
        have hclne : (resolve_go s p.2 a (s.m_clauses[ch]).m_literals).conflict_literals ≠ [] := by
          intro h
          rw [h] at hne1
          exact hne1 rfl
        have hdvne : (resolve_go s p.2 a (s.m_clauses[ch]).m_literals).implication_depth_to_var ≠ [] := by
          obtain ⟨q, hq⟩ := List.exists_mem_of_ne_nil _ hclne
          obtain ⟨p1, hp1, _⟩ := ha1wf.2.2.2.2 q hq
          intro h
          rw [h] at hp1
          cases hp1
        apply ih _ ha1wf hdvne
        cases hgl1 : (resolve_go s p.2 a (s.m_clauses[ch]).m_literals).implication_depth_to_var.getLast? with
        | none => rfl
        | some p1 =>
          have := latest_not_decision_of_not_unit s _ hdec ha1wf hunit1f p1 hgl1
          simpa using this

set_option synthInstance.maxSize 1024 in
set_option synthInstance.maxHeartbeats 1000000 in
/-- Witness for C4: at the concrete conflict state of `wstate3b`, with the
resolvent of its conflicting clause `1 ∨ ¬2`, the resolution loop completes
without ever failing a pivot's cause lookup. -/
theorem C4_analyze_loop_no_decision_pivot_witness :
    (imp_wf wstate3b ∧
     algo_wf wstate3b ⟨[(1, true), (2, false)], [(1, 1), (2, 2)]⟩ ∧
     (⟨[(1, true), (2, false)], [(1, 1), (2, 2)]⟩ :
       conflict_analysis_algo).implication_depth_to_var ≠ [] ∧
     ((⟨[(1, true), (2, false)], [(1, 1), (2, 2)]⟩ :
         conflict_analysis_algo).implication_depth_to_var.getLast?).all
       (fun p => decide
         ((wstate3b.get_implication p.2).implication_cause ≠ none)) = true) ∧
    ((∃ a1, analyze_loop wstate3b 10
        ⟨[(1, true), (2, false)], [(1, 1), (2, 2)]⟩ = .ok a1) ∨
      analyze_loop wstate3b 10 ⟨[(1, true), (2, false)], [(1, 1), (2, 2)]⟩ =
        .error .out_of_fuel) :=
  ⟨⟨by unfold imp_wf; decide, by unfold algo_wf keys_sorted; decide,
    by decide, by decide⟩,
   C4_analyze_loop_no_decision_pivot wstate3b (by unfold imp_wf; decide) 10
     ⟨[(1, true), (2, false)], [(1, 1), (2, 2)]⟩
     (by unfold algo_wf keys_sorted; decide) (by decide) (by decide)⟩

end cdcl_sat

namespace cdcl_sat

/-- Number of watch-index entries clause `h` has under polarity `b` and
variable `v`. -/
def watch_count (s : cdcl_sat) (b : Bool) (v : Nat) (h : Nat) : Nat :=
  (s.get_watch_list b v).count h

/-- Both watch arrays have one slot per variable (as `initial_propagate`
resizes them). -/
def watch_arrays_sized (s : cdcl_sat) : Prop :=
  s.m_watches_false.length = s.m_domains.length ∧
  s.m_watches_true.length = s.m_domains.length

/-- Every watch-index entry is a valid clause handle. -/
def watch_handles_valid (s : cdcl_sat) : Prop :=
  ∀ b : Bool, ∀ v < s.m_domains.length,
    ∀ x ∈ s.get_watch_list b v, x < s.m_clauses.length

/-- Clause `h` has no watch-index entries. -/
def clause_zero_watches (s : cdcl_sat) (h : Nat) : Prop :=
  ∀ b : Bool, ∀ v < s.m_domains.length, watch_count s b v h = 0

/-- Clause `h` has exactly two watch-index entries, one for each of its two
watched literals, registered under that literal's own polarity and variable;
its variables are distinct and in range and its watches ordered. -/
def clause_two_watches (s : cdcl_sat) (h : Nat) : Prop :=
  ((s.get_clause h).m_literals.map Int.natAbs).Nodup ∧
  (s.get_clause h).watched0 < (s.get_clause h).watched1 ∧
  (s.get_clause h).watched1 < (s.get_clause h).m_literals.length ∧
  (∀ i < (s.get_clause h).m_literals.length,
    (s.get_clause h).get_variable i < s.m_domains.length) ∧
  (∀ b : Bool, ∀ v < s.m_domains.length, watch_count s b v h =
    (if b = (s.get_clause h).is_positive_literal (s.get_clause h).watched0 ∧
        v = (s.get_clause h).get_variable (s.get_clause h).watched0 then 1 else 0) +
    (if b = (s.get_clause h).is_positive_literal (s.get_clause h).watched1 ∧
        v = (s.get_clause h).get_variable (s.get_clause h).watched1 then 1 else 0))

/-- The watched-literal index invariant: sized arrays, valid handles, and
every live clause either absent from the index or present exactly twice,
once per watched literal under the literal's own polarity and variable. -/
def watch_inv (s : cdcl_sat) : Prop :=
  watch_arrays_sized s ∧ watch_handles_valid s ∧
  ∀ h < s.m_clauses.length, clause_zero_watches s h ∨ clause_two_watches s h

theorem count_set_add (l : List Nat) (i : Nat) (a x : Nat) :
    ∀ _hi : i < l.length,
    (l.set i a).count x + (if l.getD i 0 = x then 1 else 0) =
      l.count x + (if a = x then 1 else 0) := by
  induction l generalizing i with
  | nil => intro hi; simp at hi
  | cons y rest ih =>
    intro hi
    cases i with
    | zero =>
      simp only [List.set, List.getD_cons_zero, List.count_cons]
      split_ifs <;> simp_all <;> omega
    | succ i =>
      simp only [List.set, List.getD_cons_succ, List.count_cons]
      have := ih i (by simpa using hi)
      split_ifs at this ⊢ <;> simp_all <;> omega

theorem getLastD_eq_getD (l : List Nat) (d : Nat) (h : l ≠ []) :
    l.getLastD d = l.getD (l.length - 1) d := by
  rw [List.getLastD_eq_getLast?, List.getLast?_eq_getElem?,
    List.getD_eq_getElem?_getD]

theorem dropLast_count_add (l : List Nat) (x : Nat) (h : l ≠ []) :
    l.dropLast.count x + (if l.getLastD 0 = x then 1 else 0) = l.count x := by
  conv_rhs => rw [← List.dropLast_append_getLast h]
  rw [List.count_append]
  have : l.getLastD 0 = l.getLast h := by
    rw [List.getLastD_eq_getLast?, List.getLast?_eq_getLast l h]
    rfl
  rw [this]
  simp [List.count_singleton]

theorem swap_pop_count (l : List Nat) (i : Nat) (x : Nat) (hi : i < l.length) :
    ((l.set i (l.getLastD 0)).dropLast).count x +
      (if l.getD i 0 = x then 1 else 0) = l.count x := by
  have hne : l ≠ [] := by
    intro h
    rw [h] at hi
    simp at hi
  have hne2 : l.set i (l.getLastD 0) ≠ [] := by
    intro h
    have h0 : (l.set i (l.getLastD 0)).length = 0 := by rw [h]; rfl
    rw [List.length_set] at h0
    omega
  have hlen0 : 0 < l.length := List.length_pos.mpr hne
  have hlast2 : (l.set i (l.getLastD 0)).getLastD 0 = l.getLastD 0 := by
    rw [getLastD_eq_getD _ _ hne2, List.length_set]
    rcases Nat.lt_or_ge i (l.length - 1) with hcase | hcase
    · rw [getD_set_ne _ _ _ _ _ (by omega), ← getLastD_eq_getD _ _ hne]
    · have : i = l.length - 1 := by omega
      subst this
      rw [getD_set_self _ _ _ _ (by omega)]
  have h1 := dropLast_count_add (l.set i (l.getLastD 0)) x hne2
  rw [hlast2] at h1
  have h2 := count_set_add l i (l.getLastD 0) x hi
  split_ifs at h1 h2 ⊢ <;> omega

theorem getD_mem (l : List Nat) (i : Nat) (hi : i < l.length) :
    l.getD i 0 ∈ l := by
  rw [List.getD_eq_getElem?_getD, List.getElem?_eq_getElem hi]
  exact List.getElem_mem _

theorem count_pos_of_getD (l : List Nat) (i : Nat) (hi : i < l.length) :
    1 ≤ l.count (l.getD i 0) :=
  List.count_pos_iff.mpr (getD_mem l i hi)

/-! Frame lemmas for the state operations touching the watch index. -/

theorem get_watch_list_set_same (s : cdcl_sat) (b : Bool) (v : Nat)
    (l : List Nat)
    (hv : v < (if b then s.m_watches_true else s.m_watches_false).length) :
    (s.set_watch_list b v l).get_watch_list b v = l := by
  cases b
  · exact getD_set_self _ _ _ _ (by simpa using hv)
  · exact getD_set_self _ _ _ _ (by simpa using hv)

theorem get_watch_list_set_other (s : cdcl_sat) (b : Bool) (v : Nat)
    (l : List Nat) (b' : Bool) (v' : Nat) (hne : b' ≠ b ∨ v' ≠ v) :
    (s.set_watch_list b v l).get_watch_list b' v' = s.get_watch_list b' v' := by
  rcases hne with hne | hne
  · cases b <;> cases b' <;>
      first
      | rfl
      | exact absurd rfl hne
  · cases b <;> cases b' <;>
      first
      | rfl
      | exact getD_set_ne _ _ _ _ _ (fun h => hne h.symm)

theorem set_watch_list_frame (s : cdcl_sat) (b : Bool) (v : Nat) (l : List Nat) :
    (s.set_watch_list b v l).m_clauses = s.m_clauses ∧
    (s.set_watch_list b v l).m_domains = s.m_domains ∧
    (s.set_watch_list b v l).m_dirty_variables = s.m_dirty_variables := by
  cases b <;> exact ⟨rfl, rfl, rfl⟩

theorem set_watch_list_lengths (s : cdcl_sat) (b : Bool) (v : Nat)
    (l : List Nat) :
    (s.set_watch_list b v l).m_watches_false.length = s.m_watches_false.length ∧
    (s.set_watch_list b v l).m_watches_true.length = s.m_watches_true.length := by
  cases b <;> simp [cdcl_sat.set_watch_list]

theorem set_domain_watch_frame (s : cdcl_sat) (var : Nat) (d : binary_domain)
    (c : Option Nat) :
    (s.set_domain var d c).m_watches_false = s.m_watches_false ∧
    (s.set_domain var d c).m_watches_true = s.m_watches_true ∧
    (s.set_domain var d c).m_clauses = s.m_clauses ∧
    (s.set_domain var d c).m_domains.length = s.m_domains.length := by
  unfold cdcl_sat.set_domain
  split
  · exact ⟨rfl, rfl, rfl, rfl⟩
  · dsimp only
    split <;> exact ⟨rfl, rfl, rfl, by simp⟩

theorem set_clause_watch_frame (s : cdcl_sat) (h : Nat) (c : clause) :
    (s.set_clause h c).m_watches_false = s.m_watches_false ∧
    (s.set_clause h c).m_watches_true = s.m_watches_true ∧
    (s.set_clause h c).m_domains = s.m_domains ∧
    (s.set_clause h c).m_clauses.length = s.m_clauses.length :=
  ⟨rfl, rfl, rfl, by simp [cdcl_sat.set_clause]⟩

theorem get_watch_list_set_clause (s : cdcl_sat) (h : Nat) (c : clause)
    (b : Bool) (v : Nat) :
    (s.set_clause h c).get_watch_list b v = s.get_watch_list b v := by
  cases b <;> rfl

theorem get_watch_list_set_domain (s : cdcl_sat) (var : Nat)
    (d : binary_domain) (cz : Option Nat) (b : Bool) (v : Nat) :
    (s.set_domain var d cz).get_watch_list b v = s.get_watch_list b v := by
  obtain ⟨h1, h2, _, _⟩ := set_domain_watch_frame s var d cz
  cases b <;> simp [cdcl_sat.get_watch_list, h1, h2]

theorem get_clause_set_clause_ne (s : cdcl_sat) (h : Nat) (c : clause)
    (h' : Nat) (hne : h' ≠ h) :
    (s.set_clause h c).get_clause h' = s.get_clause h' := by
  unfold cdcl_sat.get_clause cdcl_sat.set_clause
  exact getD_set_ne _ _ _ _ _ (fun he => hne he.symm)

theorem get_clause_set_clause_self (s : cdcl_sat) (h : Nat) (c : clause)
    (hh : h < s.m_clauses.length) :
    (s.set_clause h c).get_clause h = c := by
  unfold cdcl_sat.get_clause cdcl_sat.set_clause
  exact getD_set_self _ _ _ _ hh

theorem get_clause_set_domain (s : cdcl_sat) (var : Nat) (d : binary_domain)
    (cz : Option Nat) (h : Nat) :
    (s.set_domain var d cz).get_clause h = s.get_clause h := by
  unfold cdcl_sat.get_clause
  rw [m_clauses_set_domain]

theorem get_clause_set_watch_list (s : cdcl_sat) (b : Bool) (v : Nat)
    (l : List Nat) (h : Nat) :
    (s.set_watch_list b v l).get_clause h = s.get_clause h := by
  cases b <;> rfl

theorem remove_duplicate_variables_go_vars_nodup (lits : List Int) :
    ∀ (seen acc res : List Int),
    (acc.map Int.natAbs).Nodup →
    (∀ n ∈ acc.map Int.natAbs, ∃ y ∈ seen, y.natAbs = n) →
    remove_duplicate_variables_go seen acc lits = some res →
    (res.map Int.natAbs).Nodup := by
  induction lits with
  | nil =>
    intro seen acc res hnd hsub heq
    simp only [remove_duplicate_variables_go, Option.some.injEq] at heq
    subst heq
    simpa using hnd
  | cons l rest ih =>
    intro seen acc res hnd hsub heq
    rw [remove_duplicate_variables_go] at heq
    split at heq
    · exact ih seen acc res hnd hsub heq
    · split at heq
      · cases heq
      · next hln hlnn =>
        refine ih (l :: seen) (l :: acc) res ?_ ?_ heq
        · refine List.nodup_cons.mpr ⟨?_, hnd⟩
          intro hmem
          obtain ⟨y, hy, hyn⟩ := hsub _ hmem
          rcases Int.natAbs_eq_natAbs_iff.mp hyn with rfl | rfl
          · exact hln hy
          · exact hlnn (by simpa using hy)
        · intro n hn
          rcases (by simpa using hn : n = l.natAbs ∨ ∃ a ∈ acc, a.natAbs = n) with
            rfl | ⟨a, ha, han⟩
          · exact ⟨l, by simp, rfl⟩
          · obtain ⟨y, hy, hyn⟩ := hsub n (List.mem_map.mpr ⟨a, ha, han⟩)
            exact ⟨y, by simp [hy], hyn⟩

/-- A clause surviving `remove_duplicate_variables` has pairwise-distinct
variables. -/
theorem remove_duplicate_variables_vars_nodup (c c1 : clause)
    (h : remove_duplicate_variables c = some c1) :
    (c1.m_literals.map Int.natAbs).Nodup := by
  unfold remove_duplicate_variables at h
  cases hg : remove_duplicate_variables_go [] [] c.m_literals with
  | none => rw [hg] at h; cases h
  | some res =>
    rw [hg] at h
    simp only [Option.map_some', Option.some.injEq] at h
    have hres := remove_duplicate_variables_go_vars_nodup c.m_literals [] [] res
      (by simp) (by simp) hg
    rw [← h]
    exact hres

theorem find_not_unsat_bounds (s : cdcl_sat) (c : clause) (skip stop : Nat) :
    ∀ i, find_not_unsat s c skip i stop = stop ∨
      (i ≤ find_not_unsat s c skip i stop ∧
       find_not_unsat s c skip i stop < stop ∧
       find_not_unsat s c skip i stop ≠ skip) := by
  suffices hgen : ∀ k i, stop - i = k →
      (find_not_unsat s c skip i stop = stop ∨
        (i ≤ find_not_unsat s c skip i stop ∧
         find_not_unsat s c skip i stop < stop ∧
         find_not_unsat s c skip i stop ≠ skip)) by
    intro i
    exact hgen (stop - i) i rfl
  intro k
  induction k with
  | zero =>
    intro i hk
    unfold find_not_unsat
    rw [dif_neg (by omega)]
    exact Or.inl rfl
  | succ k ih =>
    intro i hk
    unfold find_not_unsat
    rw [dif_pos (by omega)]
    split
    · next hcond => exact Or.inr ⟨le_rfl, by omega, hcond.1⟩
    · rcases ih (i + 1) (by omega) with h | h
      · exact Or.inl h
      · exact Or.inr ⟨by omega, h.2.1, h.2.2⟩

theorem fdw_core_bounds (s : cdcl_sat) (c : clause) (W O : Nat)
    (hW : W < c.size) :
    (if find_not_unsat s c O (W + 1) c.size ≠ c.size then
        find_not_unsat s c O (W + 1) c.size
      else if find_not_unsat s c O 0 W ≠ W then find_not_unsat s c O 0 W
      else c.size) = c.size ∨
    ((if find_not_unsat s c O (W + 1) c.size ≠ c.size then
        find_not_unsat s c O (W + 1) c.size
      else if find_not_unsat s c O 0 W ≠ W then find_not_unsat s c O 0 W
      else c.size) < c.size ∧
     (if find_not_unsat s c O (W + 1) c.size ≠ c.size then
        find_not_unsat s c O (W + 1) c.size
      else if find_not_unsat s c O 0 W ≠ W then find_not_unsat s c O 0 W
      else c.size) ≠ W ∧
     (if find_not_unsat s c O (W + 1) c.size ≠ c.size then
        find_not_unsat s c O (W + 1) c.size
      else if find_not_unsat s c O 0 W ≠ W then find_not_unsat s c O 0 W
      else c.size) ≠ O) := by
  split
  · next hr1 =>
    rcases find_not_unsat_bounds s c O c.size (W + 1) with h | h
    · exact absurd h hr1
    · exact Or.inr ⟨h.2.1, by omega, h.2.2⟩
  · split
    · next hr2 =>
      rcases find_not_unsat_bounds s c O W 0 with h | h
      · exact absurd h hr2
      · exact Or.inr ⟨by omega, by omega, h.2.2⟩
    · exact Or.inl rfl

theorem find_different_watch_eq (s : cdcl_sat) (c : clause) (wi : Nat) :
    find_different_watch s c wi =
      (if find_not_unsat s c (if wi = 0 then c.watched1 else c.watched0)
          ((if wi = 0 then c.watched0 else c.watched1) + 1) c.size ≠ c.size then
        find_not_unsat s c (if wi = 0 then c.watched1 else c.watched0)
          ((if wi = 0 then c.watched0 else c.watched1) + 1) c.size
      else if find_not_unsat s c (if wi = 0 then c.watched1 else c.watched0) 0
          (if wi = 0 then c.watched0 else c.watched1) ≠
          (if wi = 0 then c.watched0 else c.watched1) then
        find_not_unsat s c (if wi = 0 then c.watched1 else c.watched0) 0
          (if wi = 0 then c.watched0 else c.watched1)
      else c.size) := rfl

theorem find_different_watch_bounds (s : cdcl_sat) (c : clause) (wi : Nat)
    (hw : (if wi = 0 then c.watched0 else c.watched1) < c.size) :
    find_different_watch s c wi = c.size ∨
    (find_different_watch s c wi < c.size ∧
     find_different_watch s c wi ≠ (if wi = 0 then c.watched0 else c.watched1) ∧
     find_different_watch s c wi ≠ (if wi = 0 then c.watched1 else c.watched0)) := by
  rw [find_different_watch_eq]
  exact fdw_core_bounds s c (if wi = 0 then c.watched0 else c.watched1)
    (if wi = 0 then c.watched1 else c.watched0) hw

theorem get_watch_list_congr (s s' : cdcl_sat)
    (h0 : s'.m_watches_false = s.m_watches_false)
    (h1 : s'.m_watches_true = s.m_watches_true) (b : Bool) (v : Nat) :
    s'.get_watch_list b v = s.get_watch_list b v := by
  cases b <;> simp [cdcl_sat.get_watch_list, h0, h1]

/-- The watch invariant only depends on the watch arrays, the clause store
and the number of domains. -/
theorem watch_inv_congr (s s' : cdcl_sat)
    (h0 : s'.m_watches_false = s.m_watches_false)
    (h1 : s'.m_watches_true = s.m_watches_true)
    (hC : s'.m_clauses = s.m_clauses)
    (hD : s'.m_domains.length = s.m_domains.length)
    (h : watch_inv s) : watch_inv s' := by
  obtain ⟨⟨ha1, ha2⟩, hv, hcl⟩ := h
  have hg : ∀ b v, s'.get_watch_list b v = s.get_watch_list b v :=
    get_watch_list_congr s s' h0 h1
  have hwc : ∀ b v h2, watch_count s' b v h2 = watch_count s b v h2 := by
    intro b v h2
    unfold watch_count
    rw [hg]
  have hgc : ∀ h2, s'.get_clause h2 = s.get_clause h2 := by
    intro h2
    unfold cdcl_sat.get_clause
    rw [hC]
  refine ⟨⟨?_, ?_⟩, ?_, ?_⟩
  · rw [h0, hD]
    exact ha1
  · rw [h1, hD]
    exact ha2
  · intro b v hv2 x hx
    rw [hC]
    exact hv b v (by omega) x (by rw [← hg]; exact hx)
  · intro h2 hh2
    rcases hcl h2 (by rw [← hC]; exact hh2) with hz | ht
    · left
      intro b v hv2
      rw [hwc]
      exact hz b v (by omega)
    · right
      obtain ⟨t1, t2, t3, t4, t5⟩ := ht
      refine ⟨by rw [hgc]; exact t1, by rw [hgc]; exact t2,
        by rw [hgc]; exact t3, ?_, ?_⟩
      · intro i hi
        rw [hgc, hD]
        exact t4 i (by rw [← hgc]; exact hi)
      · intro b v hv2
        rw [hwc, hgc]
        exact t5 b v (by omega)

theorem unit_propagate_watch_frame (s : cdcl_sat) (tc : Nat) (c : clause)
    (l : Nat) :
    (unit_propagate s tc c l).2.m_watches_false = s.m_watches_false ∧
    (unit_propagate s tc c l).2.m_watches_true = s.m_watches_true ∧
    (unit_propagate s tc c l).2.m_clauses = s.m_clauses ∧
    (unit_propagate s tc c l).2.m_domains.length = s.m_domains.length := by
  unfold unit_propagate
  dsimp only
  split
  · exact ⟨rfl, rfl, rfl, rfl⟩
  · split
    · exact ⟨rfl, rfl, rfl, rfl⟩
    · obtain ⟨w1, w2, w3, w4⟩ := set_domain_watch_frame s (c.get_variable l)
        (binary_domain.ofBool (c.is_positive_literal l)) (some tc)
      exact ⟨w1, w2, w3, w4⟩

theorem watch_count_watch_value_removal (s : cdcl_sat) (tc var : Nat) (b : Bool)
    (hvar : var < s.m_domains.length) (hsized : watch_arrays_sized s)
    (b' : Bool) (v' : Nat) (h : Nat) :
    watch_count (s.watch_value_removal tc var b) b' v' h =
      watch_count s b' v' h + (if b' = b ∧ v' = var ∧ h = tc then 1 else 0) := by
  have hb : var < (if b then s.m_watches_true else s.m_watches_false).length := by
    cases b
    · simpa [hsized.1] using hvar
    · simpa [hsized.2] using hvar
  unfold cdcl_sat.watch_value_removal watch_count
  by_cases hloc : b' = b ∧ v' = var
  · obtain ⟨rfl, rfl⟩ := hloc
    rw [get_watch_list_set_same _ _ _ _ hb]
    rw [List.count_append]
    simp only [List.count_singleton]
    split_ifs <;> simp_all
  · rw [get_watch_list_set_other]
    · have : ¬ (b' = b ∧ v' = var ∧ h = tc) := fun hx => hloc ⟨hx.1, hx.2.1⟩
      rw [if_neg this]
      omega
    · by_cases hb : b' = b
      · subst hb
        right
        intro hv
        exact hloc ⟨rfl, hv⟩
      · exact Or.inl hb

theorem getD_mem_int (l : List Int) (i : Nat) (hi : i < l.length) :
    l.getD i 0 ∈ l := by
  rw [List.getD_eq_getElem?_getD, List.getElem?_eq_getElem hi]
  exact List.getElem_mem _

theorem linear_find_free_literal_le (s : cdcl_sat) (c : clause)
    (second : Nat) : ∀ first,
    linear_find_free_literal s c first second ≤ second := by
  suffices hgen : ∀ k first, second - first = k →
      linear_find_free_literal s c first second ≤ second by
    intro first
    exact hgen (second - first) first rfl
  intro k
  induction k with
  | zero =>
    intro first hk
    rw [linear_find_free_literal]
    by_cases h : first < second
    · exact absurd h (by omega)
    · rw [dif_neg h]
  | succ k ih =>
    intro first hk
    rw [linear_find_free_literal]
    by_cases h : first < second
    · rw [dif_pos h]
      split
      · omega
      · exact ih (first + 1) (by omega)
    · rw [dif_neg h]

theorem linear_find_free_literal_ge (s : cdcl_sat) (c : clause)
    (second : Nat) : ∀ first, first ≤ second →
    first ≤ linear_find_free_literal s c first second := by
  suffices hgen : ∀ k first, second - first = k → first ≤ second →
      first ≤ linear_find_free_literal s c first second by
    intro first h
    exact hgen (second - first) first rfl h
  intro k
  induction k with
  | zero =>
    intro first hk hle
    rw [linear_find_free_literal]
    by_cases h : first < second
    · exact absurd h (by omega)
    · rw [dif_neg h]
      omega
  | succ k ih =>
    intro first hk hle
    rw [linear_find_free_literal]
    by_cases h : first < second
    · rw [dif_pos h]
      split
      · exact le_refl first
      · have := ih (first + 1) (by omega) (by omega)
        omega
    · rw [dif_neg h]
      omega

theorem remove_duplicate_variables_go_subset (lits : List Int) :
    ∀ (seen acc res : List Int),
    remove_duplicate_variables_go seen acc lits = some res →
    ∀ x ∈ res, x ∈ acc.reverse ∨ x ∈ lits := by
  induction lits with
  | nil =>
    intro seen acc res hres x hx
    rw [remove_duplicate_variables_go] at hres
    injection hres with h
    subst h
    exact Or.inl hx
  | cons l rest ih =>
    intro seen acc res hres x hx
    rw [remove_duplicate_variables_go] at hres
    split at hres
    · rcases ih seen acc res hres x hx with h | h
      · exact Or.inl h
      · exact Or.inr (List.mem_cons_of_mem _ h)
    · split at hres
      · exact absurd hres (by simp)
      · rcases ih (l :: seen) (l :: acc) res hres x hx with h | h
        · rw [List.reverse_cons] at h
          rcases List.mem_append.mp h with h2 | h2
          · exact Or.inl h2
          · simp only [List.mem_singleton] at h2
            subst h2
            exact Or.inr (List.mem_cons_self _ _)
        · exact Or.inr (List.mem_cons_of_mem _ h)

/-- Every literal surviving `remove_duplicate_variables` came from the
original clause. -/
theorem remove_duplicate_variables_subset (c c1 : clause)
    (h : remove_duplicate_variables c = some c1) :
    ∀ x ∈ c1.m_literals, x ∈ c.m_literals := by
  unfold remove_duplicate_variables at h
  cases hg : remove_duplicate_variables_go [] [] c.m_literals with
  | none => rw [hg] at h; cases h
  | some res =>
    rw [hg] at h
    simp only [Option.map_some', Option.some.injEq] at h
    intro x hx
    rcases remove_duplicate_variables_go_subset c.m_literals [] [] res hg x
      (by rw [← h] at hx; exact hx) with h2 | h2
    · simp at h2
    · exact h2

theorem get_clause_watch_value_removal (s : cdcl_sat) (tc v : Nat) (b : Bool)
    (h : Nat) :
    (s.watch_value_removal tc v b).get_clause h = s.get_clause h := by
  unfold cdcl_sat.get_clause
  rw [m_clauses_watch_value_removal]

theorem watch_value_removal_frame (s : cdcl_sat) (tc v : Nat) (b : Bool) :
    (s.watch_value_removal tc v b).m_clauses = s.m_clauses ∧
    (s.watch_value_removal tc v b).m_domains = s.m_domains ∧
    (s.watch_value_removal tc v b).m_watches_false.length =
      s.m_watches_false.length ∧
    (s.watch_value_removal tc v b).m_watches_true.length =
      s.m_watches_true.length := by
  unfold cdcl_sat.watch_value_removal
  exact ⟨(set_watch_list_frame s b v _).1, (set_watch_list_frame s b v _).2.1,
    (set_watch_list_lengths s b v _).1, (set_watch_list_lengths s b v _).2⟩

theorem watch_count_set_clause (s : cdcl_sat) (tc : Nat) (c : clause)
    (b : Bool) (v h : Nat) :
    watch_count (s.set_clause tc c) b v h = watch_count s b v h := by
  unfold watch_count
  rw [get_watch_list_set_clause]

theorem clause_zero_watches_transport (s s' : cdcl_sat) (h : Nat)
    (hD : s'.m_domains.length = s.m_domains.length)
    (hwc : ∀ b v, v < s.m_domains.length →
      watch_count s' b v h = watch_count s b v h)
    (hz : clause_zero_watches s h) : clause_zero_watches s' h := by
  intro b v hv
  rw [hwc b v (by omega)]
  exact hz b v (by omega)

theorem clause_two_watches_transport (s s' : cdcl_sat) (h : Nat)
    (hgc : s'.get_clause h = s.get_clause h)
    (hD : s'.m_domains.length = s.m_domains.length)
    (hwc : ∀ b v, v < s.m_domains.length →
      watch_count s' b v h = watch_count s b v h)
    (ht : clause_two_watches s h) : clause_two_watches s' h := by
  obtain ⟨t1, t2, t3, t4, t5⟩ := ht
  refine ⟨by rw [hgc]; exact t1, by rw [hgc]; exact t2, by rw [hgc]; exact t3,
    ?_, ?_⟩
  · intro i hi
    rw [hgc, hD]
    exact t4 i (by rw [← hgc]; exact hi)
  · intro b v hv
    rw [hgc, hwc b v (by omega)]
    exact t5 b v (by omega)

/-- `set_clause` keeps the watch invariant when the rewritten clause has no
watch entries. -/
theorem watch_inv_set_clause_zero (s : cdcl_sat) (tc : Nat) (c : clause)
    (hinv : watch_inv s) (hzero : clause_zero_watches s tc) :
    watch_inv (s.set_clause tc c) := by
  obtain ⟨hsz, hv, hcl⟩ := hinv
  have hwc : ∀ b v, v < s.m_domains.length →
      watch_count (s.set_clause tc c) b v tc = watch_count s b v tc :=
    fun b v _ => watch_count_set_clause s tc c b v tc
  refine ⟨⟨hsz.1, hsz.2⟩, ?_, ?_⟩
  · intro b v hv2 x hx
    have : x < s.m_clauses.length := hv b v hv2 x hx
    show x < (s.m_clauses.set tc c).length
    rw [List.length_set]
    exact this
  · intro h hh
    have hh2 : h < s.m_clauses.length := by
      have : (s.m_clauses.set tc c).length = s.m_clauses.length :=
        List.length_set ..
      unfold cdcl_sat.set_clause at hh
      dsimp only at hh
      omega
    by_cases he : h = tc
    · subst he
      left
      exact clause_zero_watches_transport s _ h rfl
        (fun b v _ => watch_count_set_clause s h c b v h) hzero
    · rcases hcl h hh2 with hz | ht
      · left
        exact clause_zero_watches_transport s _ h rfl
          (fun b v _ => watch_count_set_clause s tc c b v h) hz
      · right
        exact clause_two_watches_transport s _ h
          (get_clause_set_clause_ne s tc c h he) rfl
          (fun b v _ => watch_count_set_clause s tc c b v h) ht

/-- Every literal of every clause names a variable with a domain slot. -/
def clauses_vars_in_range (s : cdcl_sat) : Prop :=
  ∀ c ∈ s.m_clauses, ∀ l ∈ c.m_literals, l.natAbs < s.m_domains.length

theorem getD_mem_clause (l : List clause) (i : Nat) (hi : i < l.length) :
    l.getD i default ∈ l := by
  rw [List.getD_eq_getElem?_getD, List.getElem?_eq_getElem hi]
  exact List.getElem_mem _

theorem cvir_congr (s s' : cdcl_sat) (hC : s'.m_clauses = s.m_clauses)
    (hD : s'.m_domains.length = s.m_domains.length)
    (h : clauses_vars_in_range s) : clauses_vars_in_range s' := by
  intro c hc l hl
  rw [hD]
  exact h c (by rw [← hC]; exact hc) l hl

theorem cvir_set_clause_of_lits (s s' : cdcl_sat) (dc : Nat) (cV : clause)
    (hC : s'.m_clauses = s.m_clauses.set dc cV)
    (hD : s'.m_domains.length = s.m_domains.length)
    (hlit : ∀ l ∈ cV.m_literals, l.natAbs < s.m_domains.length)
    (h : clauses_vars_in_range s) : clauses_vars_in_range s' := by
  intro c hc l hl
  rw [hD]
  rw [hC] at hc
  rcases List.mem_or_eq_of_mem_set hc with h2 | h2
  · exact h c h2 l hl
  · subst h2
    exact hlit l hl

theorem lits_range_of_hvars (c : clause) (n : Nat)
    (hvars : ∀ i < c.m_literals.length, c.get_variable i < n) :
    ∀ l ∈ c.m_literals, l.natAbs < n := by
  intro l hl
  obtain ⟨i, hi, hgi⟩ := List.getElem_of_mem hl
  have hv := hvars i hi
  unfold clause.get_variable at hv
  rw [List.getD_eq_getElem?_getD, List.getElem?_eq_getElem hi] at hv
  simp only [Option.getD_some] at hv
  rw [hgi] at hv
  exact hv

theorem cvir_hvars (s : cdcl_sat) (tc : Nat) (hc : clauses_vars_in_range s)
    (htc : tc < s.m_clauses.length) :
    ∀ i < (s.get_clause tc).m_literals.length,
      (s.get_clause tc).get_variable i < s.m_domains.length := by
  intro i hi
  unfold clause.get_variable
  exact hc _ (getD_mem_clause _ tc htc) _ (getD_mem_int _ i hi)

theorem unit_propagate_ne_unknown (s : cdcl_sat) (tc : Nat) (c : clause)
    (l : Nat) : (unit_propagate s tc c l).1 ≠ .UNKNOWN := by
  unfold unit_propagate
  dsimp only
  split
  · simp
  · split <;> simp

theorem unit_propagate_inv (s : cdcl_sat) (tc : Nat) (c : clause) (l : Nat)
    (hinv : watch_inv s) :
    watch_inv (unit_propagate s tc c l).2 ∧
    (unit_propagate s tc c l).2.m_clauses = s.m_clauses ∧
    (unit_propagate s tc c l).2.m_domains.length = s.m_domains.length := by
  obtain ⟨u1, u2, u3, u4⟩ := unit_propagate_watch_frame s tc c l
  exact ⟨watch_inv_congr s _ u1 u2 u3 u4 hinv, u3, u4⟩

theorem get_variable_ne_of_nodup (c : clause)
    (hnd : (c.m_literals.map Int.natAbs).Nodup) (i j : Nat)
    (hi : i < c.m_literals.length) (hj : j < c.m_literals.length)
    (hij : i ≠ j) : c.get_variable i ≠ c.get_variable j := by
  intro he
  unfold clause.get_variable at he
  rw [List.getD_eq_getElem?_getD, List.getElem?_eq_getElem hi] at he
  rw [List.getD_eq_getElem?_getD, List.getElem?_eq_getElem hj] at he
  simp only [Option.getD_some] at he
  have hi2 : i < (c.m_literals.map Int.natAbs).length := by simpa using hi
  have hj2 : j < (c.m_literals.map Int.natAbs).length := by simpa using hj
  have hmi : (c.m_literals.map Int.natAbs)[i] =
      (c.m_literals.map Int.natAbs)[j] := by
    simp only [List.getElem_map]
    exact he
  exact hij ((List.Nodup.getElem_inj_iff hnd).mp hmi)

theorem var_lt_of_watch_list_ne_nil (s : cdcl_sat)
    (hsz : watch_arrays_sized s) (pe : Bool) (var : Nat)
    (h : s.get_watch_list pe var ≠ []) : var < s.m_domains.length := by
  obtain ⟨h1, h2⟩ := hsz
  by_contra hge
  apply h
  cases pe
  · show s.m_watches_false.getD var [] = []
    exact List.getD_eq_default _ _ (by omega)
  · show s.m_watches_true.getD var [] = []
    exact List.getD_eq_default _ _ (by omega)

theorem clause_initial_propagate_inv (s : cdcl_sat) (tc : Nat)
    (hinv : watch_inv s)
    (htc : tc < s.m_clauses.length)
    (hzero : clause_zero_watches s tc)
    (hvars : ∀ i < (s.get_clause tc).m_literals.length,
      (s.get_clause tc).get_variable i < s.m_domains.length) :
    watch_inv (clause_initial_propagate s tc).2 ∧
    (clause_initial_propagate s tc).2.m_clauses.length = s.m_clauses.length ∧
    (clause_initial_propagate s tc).2.m_domains.length = s.m_domains.length ∧
    (∀ h, h ≠ tc → (clause_initial_propagate s tc).2.get_clause h =
      s.get_clause h) ∧
    (∀ b v h, h ≠ tc →
      watch_count (clause_initial_propagate s tc).2 b v h =
        watch_count s b v h) ∧
    (clauses_vars_in_range s →
      clauses_vars_in_range (clause_initial_propagate s tc).2) := by
  unfold clause_initial_propagate
  dsimp only
  cases hdd : remove_duplicate_variables (s.get_clause tc) with
  | none =>
    dsimp only
    exact ⟨hinv, rfl, rfl, fun h _ => rfl, fun b v h _ => rfl,
      fun hcv => hcv⟩
  | some c1 =>
    dsimp only
    set cA : clause :=
      { m_literals := c1.m_literals, watched0 := 0, watched1 := c1.size - 1 }
      with hcA
    set w0 := s.linear_find_free_literal cA 0 c1.size with hw0
    set cB : clause :=
      { m_literals := c1.m_literals, watched0 := w0, watched1 := c1.size - 1 }
      with hcB
    set w1 := s.linear_find_free_literal cB (w0 + 1) c1.size with hw1
    set cC : clause :=
      { m_literals := c1.m_literals, watched0 := w0, watched1 := w1 } with hcC
    have hlen1 : c1.m_literals.length = c1.size := rfl
    have hmem : ∀ x ∈ (s.get_clause tc).m_literals,
        x.natAbs < s.m_domains.length := by
      intro x hx
      obtain ⟨i, hi, hgi⟩ := List.getElem_of_mem hx
      have hv := hvars i hi
      unfold clause.get_variable at hv
      have heq : (s.get_clause tc).m_literals.getD i 0 = x := by
        rw [List.getD_eq_getElem?_getD, List.getElem?_eq_getElem hi]
        simpa using hgi
      rw [heq] at hv
      exact hv
    have hvarsC : ∀ i, i < c1.size →
        (c1.m_literals.getD i 0).natAbs < s.m_domains.length := by
      intro i hi
      exact hmem _ (remove_duplicate_variables_subset _ _ hdd _
        (getD_mem_int c1.m_literals i (by omega)))
    have hc1mem : ∀ l ∈ c1.m_literals, l.natAbs < s.m_domains.length :=
      fun l hl => hmem l (remove_duplicate_variables_subset _ _ hdd l hl)
    by_cases h0 : w0 = c1.size
    · rw [if_pos h0]
      dsimp only
      refine ⟨watch_inv_set_clause_zero s tc cB hinv hzero, ?_, rfl, ?_, ?_,
        ?_⟩
      · show (s.m_clauses.set tc cB).length = s.m_clauses.length
        exact List.length_set ..
      · intro h hne
        exact get_clause_set_clause_ne s tc cB h hne
      · intro b v h _
        exact watch_count_set_clause s tc cB b v h
      · intro hcv
        refine cvir_set_clause_of_lits s _ tc cB rfl rfl ?_ hcv
        simp only [hcB]
        exact hc1mem
    · rw [if_neg h0]
      have hle0 : w0 ≤ c1.size := by
        rw [hw0]
        exact linear_find_free_literal_le s cA c1.size 0
      have hn0 : w0 < c1.size := lt_of_le_of_ne hle0 h0
      by_cases h1 : w1 = c1.size
      · rw [if_pos h1]
        obtain ⟨u1, u2, u3, u4⟩ :=
          unit_propagate_watch_frame (s.set_clause tc cC) tc cC w0
        have hinv2 : watch_inv (s.set_clause tc cC) :=
          watch_inv_set_clause_zero s tc cC hinv hzero
        refine ⟨watch_inv_congr _ _ u1 u2 u3 u4 hinv2, ?_, ?_, ?_, ?_, ?_⟩
        · rw [u3]
          show (s.m_clauses.set tc cC).length = s.m_clauses.length
          exact List.length_set ..
        · rw [u4]
          rfl
        · intro h hne
          have hstep : ((s.set_clause tc cC).unit_propagate tc cC w0).2.get_clause h
              = (s.set_clause tc cC).get_clause h := by
            unfold cdcl_sat.get_clause
            rw [u3]
          rw [hstep]
          exact get_clause_set_clause_ne s tc cC h hne
        · intro b v h _
          unfold watch_count
          rw [get_watch_list_congr _ _ u1 u2 b v, get_watch_list_set_clause]
        · intro hcv
          refine cvir_congr _ _ u3 (by rw [u4]) ?_
          refine cvir_set_clause_of_lits s _ tc cC rfl rfl ?_ hcv
          simp only [hcC]
          exact hc1mem
      · rw [if_neg h1]
        dsimp only
        have hga : w0 + 1 ≤ w1 := by
          rw [hw1]
          exact linear_find_free_literal_ge s cB c1.size (w0 + 1) (by omega)
        have hle1 : w1 ≤ c1.size := by
          rw [hw1]
          exact linear_find_free_literal_le s cB c1.size (w0 + 1)
        have hn1 : w1 < c1.size := lt_of_le_of_ne hle1 h1
        have hvar0 : cC.get_variable w0 < s.m_domains.length := by
          rw [hcC]
          exact hvarsC w0 hn0
        have hvar1 : cC.get_variable w1 < s.m_domains.length := by
          rw [hcC]
          exact hvarsC w1 hn1
        set s2 := s.set_clause tc cC with hs2
        set s3 := s2.watch_value_removal tc (cC.get_variable w0)
          (cC.is_positive_literal w0) with hs3
        set s4 := s3.watch_value_removal tc (cC.get_variable w1)
          (cC.is_positive_literal w1) with hs4
        have hsz2 : watch_arrays_sized s2 := by
          rw [hs2]
          exact hinv.1
        have hf3 := watch_value_removal_frame s2 tc (cC.get_variable w0)
          (cC.is_positive_literal w0)
        rw [← hs3] at hf3
        have hf4 := watch_value_removal_frame s3 tc (cC.get_variable w1)
          (cC.is_positive_literal w1)
        rw [← hs4] at hf4
        have hsz3 : watch_arrays_sized s3 := by
          constructor
          · rw [hf3.2.2.1, hf3.2.1]
            exact hsz2.1
          · rw [hf3.2.2.2, hf3.2.1]
            exact hsz2.2
        have hvar0s2 : cC.get_variable w0 < s2.m_domains.length := by
          rw [hs2]
          exact hvar0
        have hvar1s3 : cC.get_variable w1 < s3.m_domains.length := by
          rw [hf3.2.1, hs2]
          exact hvar1
        have hchain : ∀ b v h, watch_count s4 b v h =
            watch_count s b v h +
            (if b = cC.is_positive_literal w0 ∧ v = cC.get_variable w0 ∧ h = tc
              then 1 else 0) +
            (if b = cC.is_positive_literal w1 ∧ v = cC.get_variable w1 ∧ h = tc
              then 1 else 0) := by
          intro b v h
          rw [hs4, watch_count_watch_value_removal s3 tc (cC.get_variable w1)
            (cC.is_positive_literal w1) hvar1s3 hsz3 b v h]
          rw [hs3, watch_count_watch_value_removal s2 tc (cC.get_variable w0)
            (cC.is_positive_literal w0) hvar0s2 hsz2 b v h]
          rw [hs2, watch_count_set_clause s tc cC b v h]
        have hcls4 : s4.m_clauses = s.m_clauses.set tc cC := by
          rw [hf4.1, hf3.1, hs2]
          rfl
        have hlen4 : s4.m_clauses.length = s.m_clauses.length := by
          rw [hcls4]
          exact List.length_set ..
        have hD4 : s4.m_domains = s.m_domains := by
          rw [hf4.2.1, hf3.2.1, hs2]
          rfl
        have hgcne : ∀ h, h ≠ tc → s4.get_clause h = s.get_clause h := by
          intro h hne
          rw [hs4, get_clause_watch_value_removal, hs3,
            get_clause_watch_value_removal, hs2]
          exact get_clause_set_clause_ne s tc cC h hne
        have hgc4 : s4.get_clause tc = cC := by
          rw [hs4, get_clause_watch_value_removal, hs3,
            get_clause_watch_value_removal, hs2]
          exact get_clause_set_clause_self s tc cC htc
        have hnodup : (cC.m_literals.map Int.natAbs).Nodup := by
          have h2 := remove_duplicate_variables_vars_nodup _ _ hdd
          rw [hcC]
          exact h2
        have hcw0 : cC.watched0 = w0 := by rw [hcC]
        have hcw1 : cC.watched1 = w1 := by rw [hcC]
        have htwo : clause_two_watches s4 tc := by
          refine ⟨by rw [hgc4]; exact hnodup, ?_, ?_, ?_, ?_⟩
          · rw [hgc4, hcw0, hcw1]
            omega
          · rw [hgc4, hcw1]
            have : (cC.m_literals).length = c1.size := by
              rw [hcC]
              rfl
            omega
          · intro i hi
            rw [hgc4] at hi ⊢
            rw [hD4]
            have hi2 : i < c1.size := by
              rw [hcC] at hi
              exact hi
            rw [hcC]
            exact hvarsC i hi2
          · intro b v hv
            rw [hgc4, hcw0, hcw1]
            rw [hchain b v tc]
            have hz : watch_count s b v tc = 0 := by
              refine hzero b v ?_
              rw [hD4] at hv
              exact hv
            rw [hz]
            simp
        have hsz4 : watch_arrays_sized s4 := by
          constructor
          · rw [hf4.2.2.1, hf4.2.1]
            exact hsz3.1
          · rw [hf4.2.2.2, hf4.2.1]
            exact hsz3.2
        refine ⟨⟨hsz4, ?_, ?_⟩, hlen4, by rw [hD4], hgcne, ?_, ?_⟩
        · intro b v hv x hx
          have hcnt : 0 < watch_count s4 b v x := by
            unfold watch_count
            exact List.count_pos_iff.mpr hx
          by_cases hxtc : x = tc
          · subst hxtc
            rw [hlen4]
            exact htc
          · rw [hchain b v x, if_neg (fun hc => hxtc hc.2.2),
              if_neg (fun hc => hxtc hc.2.2)] at hcnt
            have hmemx : x ∈ s.get_watch_list b v := by
              refine List.count_pos_iff.mp ?_
              show 0 < watch_count s b v x
              omega
            have hxlt := hinv.2.1 b v (by rw [hD4] at hv; exact hv) x hmemx
            rw [hlen4]
            exact hxlt
        · intro h hh
          have hh2 : h < s.m_clauses.length := by
            rw [← hlen4]
            exact hh
          by_cases he : h = tc
          · subst he
            exact Or.inr htwo
          · have hwc : ∀ b v, v < s.m_domains.length →
                watch_count s4 b v h = watch_count s b v h := by
              intro b v _
              rw [hchain b v h, if_neg (fun hc => he hc.2.2),
                if_neg (fun hc => he hc.2.2)]
              omega
            rcases hinv.2.2 h hh2 with hz | ht
            · exact Or.inl (clause_zero_watches_transport s s4 h
                (by rw [hD4]) hwc hz)
            · exact Or.inr (clause_two_watches_transport s s4 h (hgcne h he)
                (by rw [hD4]) hwc ht)
        · intro b v h hne
          rw [hchain b v h, if_neg (fun hc => hne hc.2.2),
            if_neg (fun hc => hne hc.2.2)]
          omega
        · intro hcv
          refine cvir_set_clause_of_lits s s4 tc cC hcls4 (by rw [hD4]) ?_ hcv
          simp only [hcC]
          exact hc1mem

/-- Core of the watched-literal maintenance step: moving the watch of clause
`dc` from literal `W` to literal `nx` (register the new watch, write back the
reordered clause, then remove the stale entry at position `i` of the old
watch list by swap-with-last-and-pop) preserves the watch invariant. -/
theorem move_watch_inv (s : cdcl_sat) (dc : Nat) (pe : Bool) (var : Nat)
    (i : Nat) (W O nx : Nat) (cV : clause)
    (hinv : watch_inv s)
    (hdc : dc < s.m_clauses.length)
    (hnd : ((s.get_clause dc).m_literals.map Int.natAbs).Nodup)
    (hWlen : W < (s.get_clause dc).m_literals.length)
    (hOlen : O < (s.get_clause dc).m_literals.length)
    (hWO : W ≠ O)
    (hvars : ∀ j < (s.get_clause dc).m_literals.length,
      (s.get_clause dc).get_variable j < s.m_domains.length)
    (hform : ∀ b v, v < s.m_domains.length → watch_count s b v dc =
      (if b = (s.get_clause dc).is_positive_literal W ∧
          v = (s.get_clause dc).get_variable W then 1 else 0) +
      (if b = (s.get_clause dc).is_positive_literal O ∧
          v = (s.get_clause dc).get_variable O then 1 else 0))
    (hnxlen : nx < (s.get_clause dc).m_literals.length)
    (hnxW : nx ≠ W) (hnxO : nx ≠ O)
    (hcVlit : cV.m_literals = (s.get_clause dc).m_literals)
    (hcVw : (cV.watched0 = nx ∧ cV.watched1 = O) ∨
            (cV.watched0 = O ∧ cV.watched1 = nx))
    (hcVord : cV.watched0 < cV.watched1)
    (hpe : pe = (s.get_clause dc).is_positive_literal W)
    (hvarW : var = (s.get_clause dc).get_variable W)
    (hi : i < (s.get_watch_list pe var).length)
    (hgetD : (s.get_watch_list pe var).getD i 0 = dc) :
    ∀ s1, s1 = (s.watch_value_removal dc ((s.get_clause dc).get_variable nx)
        ((s.get_clause dc).is_positive_literal nx)).set_clause dc cV →
    watch_inv (s1.set_watch_list pe var
      (((s1.get_watch_list pe var).set i
        ((s1.get_watch_list pe var).getLastD 0)).dropLast)) ∧
    (s1.set_watch_list pe var
      (((s1.get_watch_list pe var).set i
        ((s1.get_watch_list pe var).getLastD 0)).dropLast)).m_clauses.length =
      s.m_clauses.length ∧
    (s1.set_watch_list pe var
      (((s1.get_watch_list pe var).set i
        ((s1.get_watch_list pe var).getLastD 0)).dropLast)).m_domains =
      s.m_domains ∧
    (clauses_vars_in_range s →
      clauses_vars_in_range (s1.set_watch_list pe var
        (((s1.get_watch_list pe var).set i
          ((s1.get_watch_list pe var).getLastD 0)).dropLast))) := by
  intro s1 hs1
  set c0 := s.get_clause dc with hc0
  set sN := s1.set_watch_list pe var
    (((s1.get_watch_list pe var).set i
      ((s1.get_watch_list pe var).getLastD 0)).dropLast) with hsN
  have hsz : watch_arrays_sized s := hinv.1
  have hvnx : c0.get_variable nx < s.m_domains.length := hvars nx hnxlen
  have hvarlt : var < s.m_domains.length := by
    refine var_lt_of_watch_list_ne_nil s hsz pe var ?_
    intro hnil
    rw [hnil] at hi
    simp at hi
  have hs1C : s1.m_clauses = s.m_clauses.set dc cV := by
    rw [hs1]
    show (s.watch_value_removal dc (c0.get_variable nx)
      (c0.is_positive_literal nx)).m_clauses.set dc cV = s.m_clauses.set dc cV
    rw [m_clauses_watch_value_removal]
  have hs1D : s1.m_domains = s.m_domains := by
    rw [hs1]
    show (s.watch_value_removal dc (c0.get_variable nx)
      (c0.is_positive_literal nx)).m_domains = s.m_domains
    exact (watch_value_removal_frame s dc _ _).2.1
  have hc1 : ∀ b v h, watch_count s1 b v h = watch_count s b v h +
      (if b = c0.is_positive_literal nx ∧ v = c0.get_variable nx ∧ h = dc
        then 1 else 0) := by
    intro b v h
    rw [hs1, watch_count_set_clause]
    exact watch_count_watch_value_removal s dc (c0.get_variable nx)
      (c0.is_positive_literal nx) hvnx hsz b v h
  have hvne : c0.get_variable nx ≠ var := by
    rw [hvarW]
    exact get_variable_ne_of_nodup c0 hnd nx W hnxlen hWlen hnxW
  have hvO : c0.get_variable O ≠ var := by
    rw [hvarW]
    exact get_variable_ne_of_nodup c0 hnd O W hOlen hWlen
      (fun h => hWO h.symm)
  have hlst1 : s1.get_watch_list pe var = s.get_watch_list pe var := by
    rw [hs1, get_watch_list_set_clause]
    unfold cdcl_sat.watch_value_removal
    exact get_watch_list_set_other s _ _ _ pe var
      (Or.inr (fun hv => hvne hv.symm))
  have hsz1 : watch_arrays_sized s1 := by
    rw [hs1]
    have hf := watch_value_removal_frame s dc (c0.get_variable nx)
      (c0.is_positive_literal nx)
    unfold watch_arrays_sized cdcl_sat.set_clause
    dsimp only
    rw [hf.2.2.1, hf.2.2.2, hf.2.1]
    exact hsz
  have hiN : i < (s1.get_watch_list pe var).length := by
    rw [hlst1]
    exact hi
  have hgetD1 : (s1.get_watch_list pe var).getD i 0 = dc := by
    rw [hlst1]
    exact hgetD
  have hvar1lt : var < (if pe then s1.m_watches_true
      else s1.m_watches_false).length := by
    cases pe
    · show var < s1.m_watches_false.length
      rw [hsz1.1, hs1D]
      exact hvarlt
    · show var < s1.m_watches_true.length
      rw [hsz1.2, hs1D]
      exact hvarlt
  have hgN_same : sN.get_watch_list pe var =
      ((s1.get_watch_list pe var).set i
        ((s1.get_watch_list pe var).getLastD 0)).dropLast := by
    rw [hsN]
    exact get_watch_list_set_same s1 pe var _ hvar1lt
  have hgN_other : ∀ b v, (b ≠ pe ∨ v ≠ var) →
      sN.get_watch_list b v = s1.get_watch_list b v := by
    intro b v hne
    rw [hsN]
    exact get_watch_list_set_other s1 pe var _ b v hne
  have hND : sN.m_domains = s.m_domains := by
    rw [hsN, (set_watch_list_frame s1 pe var _).2.1]
    exact hs1D
  have hNC : sN.m_clauses = s.m_clauses.set dc cV := by
    rw [hsN, (set_watch_list_frame s1 pe var _).1]
    exact hs1C
  have hNClen : sN.m_clauses.length = s.m_clauses.length := by
    rw [hNC]
    exact List.length_set ..
  have hcN_other : ∀ b v h, ¬(b = pe ∧ v = var) →
      watch_count sN b v h = watch_count s b v h +
        (if b = c0.is_positive_literal nx ∧ v = c0.get_variable nx ∧ h = dc
          then 1 else 0) := by
    intro b v h hne
    have hbv : b ≠ pe ∨ v ≠ var := by tauto
    have hq : watch_count sN b v h = watch_count s1 b v h := by
      unfold watch_count
      rw [hgN_other b v hbv]
    rw [hq]
    exact hc1 b v h
  have hcN_at : ∀ h, watch_count sN pe var h + (if dc = h then 1 else 0) =
      watch_count s pe var h := by
    intro h
    have hswap := swap_pop_count (s1.get_watch_list pe var) i h hiN
    rw [hgetD1] at hswap
    unfold watch_count
    rw [hgN_same, ← hlst1]
    exact hswap
  have hgcN : sN.get_clause dc = cV := by
    rw [hsN, get_clause_set_watch_list, hs1]
    exact get_clause_set_clause_self _ _ _
      (by rw [m_clauses_watch_value_removal]; exact hdc)
  have hgv : ∀ j, cV.get_variable j = c0.get_variable j := by
    intro j
    unfold clause.get_variable
    rw [hcVlit]
  have hpl : ∀ j, cV.is_positive_literal j = c0.is_positive_literal j := by
    intro j
    unfold clause.is_positive_literal
    rw [hcVlit]
  have hszN : watch_arrays_sized sN := by
    constructor
    · rw [hsN, (set_watch_list_lengths s1 pe var _).1,
        (set_watch_list_frame s1 pe var _).2.1]
      exact hsz1.1
    · rw [hsN, (set_watch_list_lengths s1 pe var _).2,
        (set_watch_list_frame s1 pe var _).2.1]
      exact hsz1.2
  refine ⟨⟨hszN, ?_, ?_⟩, hNClen, hND, ?_⟩
  · intro b v hv x hx
    have hvS : v < s.m_domains.length := by
      rw [← hND]
      exact hv
    have hcx : 0 < watch_count sN b v x := by
      unfold watch_count
      exact List.count_pos_iff.mpr hx
    rw [hNClen]
    by_cases hxdc : x = dc
    · subst hxdc
      exact hdc
    · by_cases hat : b = pe ∧ v = var
      · obtain ⟨hb, hvv⟩ := hat
        subst hb
        subst hvv
        have h1 := hcN_at x
        rw [if_neg (fun hc => hxdc hc.symm)] at h1
        have hmemx : x ∈ s.get_watch_list b v := by
          refine List.count_pos_iff.mp ?_
          show 0 < watch_count s b v x
          omega
        exact hinv.2.1 b v hvS x hmemx
      · have h1 := hcN_other b v x hat
        rw [if_neg (fun hc => hxdc hc.2.2)] at h1
        have hmemx : x ∈ s.get_watch_list b v := by
          refine List.count_pos_iff.mp ?_
          show 0 < watch_count s b v x
          omega
        exact hinv.2.1 b v hvS x hmemx
  · intro h hh
    have hh2 : h < s.m_clauses.length := by
      rw [← hNClen]
      exact hh
    by_cases hhdc : h = dc
    · subst hhdc
      right
      refine ⟨by rw [hgcN, hcVlit]; exact hnd, ?_, ?_, ?_, ?_⟩
      · rw [hgcN]
        exact hcVord
      · rw [hgcN, hcVlit]
        rcases hcVw with ⟨h1, h2⟩ | ⟨h1, h2⟩ <;> rw [h2]
        · exact hOlen
        · exact hnxlen
      · intro j hj
        rw [hgcN] at hj ⊢
        rw [hcVlit] at hj
        rw [hND, hgv]
        exact hvars j hj
      · intro b v hv
        have hvS : v < s.m_domains.length := by
          rw [← hND]
          exact hv
        rw [hgcN]
        by_cases hat : b = pe ∧ v = var
        · obtain ⟨hb, hvv⟩ := hat
          subst hb
          subst hvv
          have h1 := hcN_at h
          rw [if_pos rfl] at h1
          have h2 := hform b v hvS
          rw [if_pos ⟨hpe, hvarW⟩, if_neg (fun hc => hvO hc.2.symm)] at h2
          rcases hcVw with ⟨hV0, hV1⟩ | ⟨hV0, hV1⟩
          · rw [hV0, hV1]
            simp only [hgv, hpl]
            rw [if_neg (fun hc => hvne hc.2.symm),
              if_neg (fun hc => hvO hc.2.symm)]
            omega
          · rw [hV0, hV1]
            simp only [hgv, hpl]
            rw [if_neg (fun hc => hvO hc.2.symm),
              if_neg (fun hc => hvne hc.2.symm)]
            omega
        · have h1 := hcN_other b v h hat
          simp only [and_true] at h1
          have h2 := hform b v hvS
          have hWcond : ¬(b = c0.is_positive_literal W ∧
              v = c0.get_variable W) := by
            intro hc
            exact hat ⟨hc.1.trans hpe.symm, hc.2.trans hvarW.symm⟩
          rw [if_neg hWcond] at h2
          rcases hcVw with ⟨hV0, hV1⟩ | ⟨hV0, hV1⟩ <;>
            rw [hV0, hV1] <;>
            simp only [hgv, hpl] <;>
            rw [h1, h2] <;>
            omega
    · have hwch : ∀ b v, v < s.m_domains.length →
          watch_count sN b v h = watch_count s b v h := by
        intro b v hv
        by_cases hat : b = pe ∧ v = var
        · obtain ⟨hb, hvv⟩ := hat
          subst hb
          subst hvv
          have h1 := hcN_at h
          rw [if_neg (fun hc => hhdc hc.symm)] at h1
          omega
        · have h1 := hcN_other b v h hat
          rw [if_neg (fun hc => hhdc hc.2.2)] at h1
          omega
      have hgch : sN.get_clause h = s.get_clause h := by
        rw [hsN, get_clause_set_watch_list, hs1,
          get_clause_set_clause_ne _ _ _ _ hhdc,
          get_clause_watch_value_removal]
      rcases hinv.2.2 h hh2 with hz | ht
      · exact Or.inl (clause_zero_watches_transport s sN h
          (by rw [hND]) hwch hz)
      · exact Or.inr (clause_two_watches_transport s sN h hgch
          (by rw [hND]) hwch ht)
  · intro hcv
    refine cvir_set_clause_of_lits s sN dc cV hNC (by rw [hND]) ?_ hcv
    simp only [hcVlit]
    exact lits_range_of_hvars c0 _ hvars

/-- The swap-with-last-and-pop step of `cdcl_sat::propagate` after a clause
moved its watch (`clause::propagate` returned `UNKNOWN`) preserves the watch
invariant. -/
theorem propagate_step_inv (s : cdcl_sat) (pe : Bool) (var i : Nat)
    (hinv : watch_inv s)
    (hi : i < (s.get_watch_list pe var).length)
    (s1 : cdcl_sat)
    (hcp : clause_propagate s ((s.get_watch_list pe var).getD i 0) var =
      (.UNKNOWN, s1)) :
    watch_inv (s1.set_watch_list pe var
      (((s1.get_watch_list pe var).set i
        ((s1.get_watch_list pe var).getLastD 0)).dropLast)) ∧
    (s1.set_watch_list pe var
      (((s1.get_watch_list pe var).set i
        ((s1.get_watch_list pe var).getLastD 0)).dropLast)).m_clauses.length =
      s.m_clauses.length ∧
    (s1.set_watch_list pe var
      (((s1.get_watch_list pe var).set i
        ((s1.get_watch_list pe var).getLastD 0)).dropLast)).m_domains =
      s.m_domains ∧
    (clauses_vars_in_range s →
      clauses_vars_in_range (s1.set_watch_list pe var
        (((s1.get_watch_list pe var).set i
          ((s1.get_watch_list pe var).getLastD 0)).dropLast))) := by
  set dc := (s.get_watch_list pe var).getD i 0 with hdcdef
  have hsz : watch_arrays_sized s := hinv.1
  have hvarlt : var < s.m_domains.length := by
    refine var_lt_of_watch_list_ne_nil s hsz pe var ?_
    intro hnil
    rw [hnil] at hi
    simp at hi
  have hdcmem : dc ∈ s.get_watch_list pe var := getD_mem _ i hi
  have hdc : dc < s.m_clauses.length := hinv.2.1 pe var hvarlt dc hdcmem
  have hcount : 1 ≤ watch_count s pe var dc := by
    unfold watch_count
    rw [hdcdef]
    exact count_pos_of_getD _ i hi
  have htwo : clause_two_watches s dc := by
    rcases hinv.2.2 dc hdc with hz | ht
    · rw [hz pe var hvarlt] at hcount
      omega
    · exact ht
  obtain ⟨hnd, hw01, hw1n, hvars, hcform⟩ := htwo
  have hloc : (pe = (s.get_clause dc).is_positive_literal
        (s.get_clause dc).watched0 ∧
      var = (s.get_clause dc).get_variable (s.get_clause dc).watched0) ∨
      (pe = (s.get_clause dc).is_positive_literal
        (s.get_clause dc).watched1 ∧
      var = (s.get_clause dc).get_variable (s.get_clause dc).watched1) := by
    have h2 := hcform pe var hvarlt
    by_cases h0 : pe = (s.get_clause dc).is_positive_literal
        (s.get_clause dc).watched0 ∧
        var = (s.get_clause dc).get_variable (s.get_clause dc).watched0
    · exact Or.inl h0
    · right
      by_contra h1
      rw [if_neg h0, if_neg h1] at h2
      omega
  unfold clause_propagate at hcp
  dsimp only at hcp
  have hsize : (s.get_clause dc).size = (s.get_clause dc).m_literals.length := rfl
  by_cases hwi : (s.get_clause dc).get_variable (s.get_clause dc).watched0 = var
  · rw [if_pos hwi] at hcp
    set nx := s.find_different_watch (s.get_clause dc) 0 with hnxdef
    by_cases hnxeq : nx = (s.get_clause dc).size
    · rw [if_neg (not_not_intro hnxeq)] at hcp
      exact absurd (congrArg Prod.fst hcp) (unit_propagate_ne_unknown _ _ _ _)
    · rw [if_pos hnxeq] at hcp
      have hs1 := congrArg Prod.snd hcp
      dsimp only at hs1
      rw [if_pos (show (0 : Nat) = 0 from rfl)] at hs1
      dsimp only at hs1
      have hw0size : (if (0 : Nat) = 0 then (s.get_clause dc).watched0
          else (s.get_clause dc).watched1) < (s.get_clause dc).size := by
        rw [if_pos (show (0 : Nat) = 0 from rfl)]
        omega
      have hb := find_different_watch_bounds s (s.get_clause dc) 0 hw0size
      rw [if_pos (show (0 : Nat) = 0 from rfl),
        if_pos (show (0 : Nat) = 0 from rfl)] at hb
      rw [← hnxdef] at hb
      rcases hb with hb | ⟨hlt, hneW, hneO⟩
      · exact absurd hb hnxeq
      have hpe0 : pe = (s.get_clause dc).is_positive_literal
          (s.get_clause dc).watched0 := by
        rcases hloc with ⟨hp, _⟩ | ⟨_, hv⟩
        · exact hp
        · exact absurd (hwi.trans hv)
            (get_variable_ne_of_nodup (s.get_clause dc) hnd _ _
              (by omega) hw1n (by omega))
      by_cases hswap : (s.get_clause dc).watched1 < nx
      · rw [if_pos hswap] at hs1
        refine move_watch_inv s dc pe var i (s.get_clause dc).watched0
          (s.get_clause dc).watched1 _ _ hinv hdc hnd (by omega) hw1n
          (by omega) hvars hcform (by omega) hneW hneO ?_
          ?_ ?_ hpe0 hwi.symm hi hdcdef.symm s1 hs1.symm
        · rfl
        · exact Or.inr ⟨rfl, rfl⟩
        · exact hswap
      · rw [if_neg hswap] at hs1
        refine move_watch_inv s dc pe var i (s.get_clause dc).watched0
          (s.get_clause dc).watched1 _ _ hinv hdc hnd (by omega) hw1n
          (by omega) hvars hcform (by omega) hneW hneO ?_
          ?_ ?_ hpe0 hwi.symm hi hdcdef.symm s1
          hs1.symm
        · rfl
        · exact Or.inl ⟨rfl, rfl⟩
        · show nx < (s.get_clause dc).watched1
          omega
  · rw [if_neg hwi] at hcp
    set nx := s.find_different_watch (s.get_clause dc) 1 with hnxdef
    by_cases hnxeq : nx = (s.get_clause dc).size
    · rw [if_neg (not_not_intro hnxeq)] at hcp
      exact absurd (congrArg Prod.fst hcp) (unit_propagate_ne_unknown _ _ _ _)
    · rw [if_pos hnxeq] at hcp
      have hs1 := congrArg Prod.snd hcp
      dsimp only at hs1
      rw [if_neg (show ¬ (1 : Nat) = 0 by omega)] at hs1
      dsimp only at hs1
      have hw1size : (if (1 : Nat) = 0 then (s.get_clause dc).watched0
          else (s.get_clause dc).watched1) < (s.get_clause dc).size := by
        rw [if_neg (show ¬ (1 : Nat) = 0 by omega)]
        omega
      have hb := find_different_watch_bounds s (s.get_clause dc) 1 hw1size
      rw [if_neg (show ¬ (1 : Nat) = 0 by omega),
        if_neg (show ¬ (1 : Nat) = 0 by omega)] at hb
      rw [← hnxdef] at hb
      rcases hb with hb | ⟨hlt, hneW, hneO⟩
      · exact absurd hb hnxeq
      have hform1 : ∀ b v, v < s.m_domains.length → watch_count s b v dc =
          (if b = (s.get_clause dc).is_positive_literal
              (s.get_clause dc).watched1 ∧
            v = (s.get_clause dc).get_variable (s.get_clause dc).watched1
            then 1 else 0) +
          (if b = (s.get_clause dc).is_positive_literal
              (s.get_clause dc).watched0 ∧
            v = (s.get_clause dc).get_variable (s.get_clause dc).watched0
            then 1 else 0) := by
        intro b v hv
        rw [hcform b v hv]
        exact Nat.add_comm _ _
      have hpe1 : pe = (s.get_clause dc).is_positive_literal
          (s.get_clause dc).watched1 := by
        rcases hloc with ⟨_, hv⟩ | ⟨hp, _⟩
        · exact absurd hv.symm hwi
        · exact hp
      have hvar1 : var = (s.get_clause dc).get_variable
          (s.get_clause dc).watched1 := by
        rcases hloc with ⟨_, hv⟩ | ⟨_, hv⟩
        · exact absurd hv.symm hwi
        · exact hv
      by_cases hswap : nx < (s.get_clause dc).watched0
      · rw [if_pos hswap] at hs1
        refine move_watch_inv s dc pe var i (s.get_clause dc).watched1
          (s.get_clause dc).watched0 _ _ hinv hdc hnd hw1n (by omega)
          (by omega) hvars hform1 (by omega) hneW hneO ?_
          ?_ ?_ hpe1 hvar1 hi hdcdef.symm s1 hs1.symm
        · rfl
        · exact Or.inl ⟨rfl, rfl⟩
        · exact hswap
      · rw [if_neg hswap] at hs1
        refine move_watch_inv s dc pe var i (s.get_clause dc).watched1
          (s.get_clause dc).watched0 _ _ hinv hdc hnd hw1n (by omega)
          (by omega) hvars hform1 (by omega) hneW hneO ?_
          ?_ ?_ hpe1 hvar1 hi hdcdef.symm s1
          hs1.symm
        · rfl
        · exact Or.inr ⟨rfl, rfl⟩
        · show (s.get_clause dc).watched0 < nx
          omega

theorem watch_frame_of_unit_eq (s : cdcl_sat) (tc : Nat) (c : clause)
    (l : Nat) (st : solve_status) (s1 : cdcl_sat)
    (h : unit_propagate s tc c l = (st, s1)) :
    s1.m_watches_false = s.m_watches_false ∧
    s1.m_watches_true = s.m_watches_true ∧
    s1.m_clauses = s.m_clauses ∧
    s1.m_domains.length = s.m_domains.length := by
  obtain ⟨u1, u2, u3, u4⟩ := unit_propagate_watch_frame s tc c l
  rw [h] at u1 u2 u3 u4
  exact ⟨u1, u2, u3, u4⟩

theorem clause_propagate_frame_of_ne (s : cdcl_sat) (dcl trig : Nat)
    (st : solve_status) (s1 : cdcl_sat)
    (hcp : clause_propagate s dcl trig = (st, s1)) (hst : st ≠ .UNKNOWN) :
    s1.m_watches_false = s.m_watches_false ∧
    s1.m_watches_true = s.m_watches_true ∧
    s1.m_clauses = s.m_clauses ∧
    s1.m_domains.length = s.m_domains.length := by
  unfold clause_propagate at hcp
  dsimp only at hcp
  split at hcp <;> split at hcp
  · have h1 := congrArg Prod.fst hcp
    dsimp only at h1
    exact absurd h1.symm hst
  · exact watch_frame_of_unit_eq _ _ _ _ _ _ hcp
  · have h1 := congrArg Prod.fst hcp
    dsimp only at h1
    exact absurd h1.symm hst
  · exact watch_frame_of_unit_eq _ _ _ _ _ _ hcp

theorem propagate_watch_iter_inv (var : Nat) (pe : Bool) :
    ∀ fuel s i r, watch_inv s →
    propagate_watch_iter fuel s var pe i = some r →
    watch_inv r.2 ∧ r.2.m_clauses.length = s.m_clauses.length ∧
    r.2.m_domains.length = s.m_domains.length ∧
    (clauses_vars_in_range s → clauses_vars_in_range r.2) := by
  intro fuel
  induction fuel with
  | zero =>
    intro s i r _ hr
    simp [propagate_watch_iter] at hr
  | succ fuel ih =>
    intro s i r hinv hr
    rw [propagate_watch_iter] at hr
    dsimp only at hr
    by_cases hi : i < (s.get_watch_list pe var).length
    · rw [if_pos hi] at hr
      rcases hcp : clause_propagate s ((s.get_watch_list pe var).getD i 0) var
        with ⟨st, s1⟩
      rw [hcp] at hr
      cases st with
      | UNKNOWN =>
        dsimp only at hr
        obtain ⟨hN, hNlen, hND, hNcv⟩ :=
          propagate_step_inv s pe var i hinv hi s1 hcp
        obtain ⟨k1, k2, k3, k4⟩ := ih _ i r hN hr
        exact ⟨k1, by rw [k2, hNlen], by rw [k3, hND],
          fun hcv => k4 (hNcv hcv)⟩
      | UNSAT =>
        dsimp only at hr
        injection hr with hr2
        subst hr2
        obtain ⟨u1, u2, u3, u4⟩ :=
          clause_propagate_frame_of_ne s _ var .UNSAT s1 hcp (by simp)
        exact ⟨watch_inv_congr s s1 u1 u2 u3 u4 hinv, by rw [u3], u4,
          cvir_congr s s1 u3 u4⟩
      | SAT =>
        dsimp only at hr
        obtain ⟨u1, u2, u3, u4⟩ :=
          clause_propagate_frame_of_ne s _ var .SAT s1 hcp (by simp)
        obtain ⟨k1, k2, k3, k4⟩ :=
          ih s1 (i + 1) r (watch_inv_congr s s1 u1 u2 u3 u4 hinv) hr
        exact ⟨k1, by rw [k2, u3], by rw [k3, u4],
          fun hcv => k4 (cvir_congr s s1 u3 u4 hcv)⟩
    · rw [if_neg hi] at hr
      injection hr with hr2
      subst hr2
      exact ⟨hinv, rfl, rfl, fun hcv => hcv⟩

theorem propagate_loop_inv : ∀ fuel s r, watch_inv s →
    propagate_loop fuel s = some r →
    watch_inv r.2 ∧ r.2.m_clauses.length = s.m_clauses.length ∧
    r.2.m_domains.length = s.m_domains.length ∧
    (clauses_vars_in_range s → clauses_vars_in_range r.2) := by
  intro fuel
  induction fuel with
  | zero =>
    intro s r _ hr
    simp [propagate_loop] at hr
  | succ fuel ih =>
    intro s r hinv hr
    rw [propagate_loop] at hr
    cases hdq : s.m_dirty_variables with
    | nil =>
      rw [hdq] at hr
      injection hr with hr2
      subst hr2
      exact ⟨hinv, rfl, rfl, fun hcv => hcv⟩
    | cons var rest =>
      rw [hdq] at hr
      dsimp only at hr
      have hinv0 : watch_inv { s with m_dirty_variables := rest } :=
        watch_inv_congr s _ rfl rfl rfl rfl hinv
      rcases hit : propagate_watch_iter fuel { s with m_dirty_variables := rest }
          var (!(({ s with m_dirty_variables := rest }).get_current_domain
            var).containsB true) 0 with _ | ⟨oc, s1⟩
      · rw [hit] at hr
        cases hr
      · rw [hit] at hr
        obtain ⟨h1, h2, h3, h4⟩ := propagate_watch_iter_inv var _ fuel _ 0
          (oc, s1) hinv0 hit
        have hcv0 : clauses_vars_in_range s →
            clauses_vars_in_range { s with m_dirty_variables := rest } :=
          cvir_congr s _ rfl rfl
        cases oc with
        | some conflict =>
          dsimp only at hr
          injection hr with hr2
          subst hr2
          exact ⟨h1, h2, h3, fun hcv => h4 (hcv0 hcv)⟩
        | none =>
          dsimp only at hr
          obtain ⟨k1, k2, k3, k4⟩ := ih s1 r h1 hr
          exact ⟨k1, by rw [k2]; exact h2, by rw [k3]; exact h3,
            fun hcv => k4 (h4 (hcv0 hcv))⟩

theorem make_choice_inv (s s1 : cdcl_sat) (hinv : watch_inv s)
    (h : make_choice s = some s1) :
    watch_inv s1 ∧ s1.m_clauses = s.m_clauses ∧
    s1.m_domains.length = s.m_domains.length := by
  unfold make_choice at h
  dsimp only at h
  rcases hch : (if s.m_chosen_vars.isEmpty then find_free_var s 1
      else find_free_var s (s.m_chosen_vars.getLastD 0)) with _ | var
  · rw [hch] at h
    cases h
  · rw [hch] at h
    dsimp only at h
    injection h with h2
    subst h2
    obtain ⟨w1, w2, w3, w4⟩ := set_domain_watch_frame
      { s with m_chosen_vars := s.m_chosen_vars ++ [var] } var
      (binary_domain.ofBool false) none
    exact ⟨watch_inv_congr s _ w1 w2 w3 w4 hinv, w3, w4⟩

theorem backtrack_pop_watch_frame (l : Nat) : ∀ n s,
    s.m_implied_vars.length = n →
    (backtrack_pop s l).m_watches_false = s.m_watches_false ∧
    (backtrack_pop s l).m_watches_true = s.m_watches_true ∧
    (backtrack_pop s l).m_clauses = s.m_clauses ∧
    (backtrack_pop s l).m_domains.length = s.m_domains.length := by
  intro n
  induction n using Nat.strong_induction_on with
  | _ n ih =>
    intro s hn
    cases hlast : s.m_implied_vars.getLast? with
    | none =>
      rw [backtrack_pop_eq_nil s l hlast]
      exact ⟨rfl, rfl, rfl, rfl⟩
    | some rv =>
      by_cases hle : (s.get_implication rv).level ≤ l
      · rw [backtrack_pop_eq_keep s l rv hlast hle]
        exact ⟨rfl, rfl, rfl, rfl⟩
      · rw [backtrack_pop_eq_step s l rv hlast hle]
        have hne : s.m_implied_vars ≠ [] := by
          intro hx
          rw [hx] at hlast
          cases hlast
        have hpos : 0 < s.m_implied_vars.length := List.length_pos.mpr hne
        obtain ⟨k1, k2, k3, k4⟩ := ih (s.m_implied_vars.length - 1) (by omega)
          { s with
            m_implied_vars := s.m_implied_vars.dropLast
            m_domains := s.m_domains.set rv binary_domain.universal
            m_implications := s.m_implications.set rv implication.neutral }
          (by simp only [List.length_dropLast])
        refine ⟨k1, k2, k3, ?_⟩
        rw [k4]
        exact List.length_set ..

theorem backtrack_watch_frame (s : cdcl_sat) (l : Nat) :
    (backtrack s l).m_watches_false = s.m_watches_false ∧
    (backtrack s l).m_watches_true = s.m_watches_true ∧
    (backtrack s l).m_clauses = s.m_clauses ∧
    (backtrack s l).m_domains.length = s.m_domains.length := by
  obtain ⟨k1, k2, k3, k4⟩ :=
    backtrack_pop_watch_frame l s.m_implied_vars.length s rfl
  exact ⟨k1, k2, k3, k4⟩

theorem backtrack_inv (s : cdcl_sat) (l : Nat) (hinv : watch_inv s) :
    watch_inv (backtrack s l) := by
  obtain ⟨k1, k2, k3, k4⟩ := backtrack_watch_frame s l
  exact watch_inv_congr s _ k1 k2 k3 k4 hinv

theorem create_clause_inv (s : cdcl_sat) (a : conflict_analysis_algo)
    (hinv : watch_inv s) :
    watch_inv (create_clause s a).2 ∧
    (create_clause s a).2.m_clauses.length = s.m_clauses.length + 1 ∧
    (create_clause s a).2.m_domains = s.m_domains ∧
    clause_zero_watches (create_clause s a).2 s.m_clauses.length ∧
    (∀ h, h < s.m_clauses.length →
      (create_clause s a).2.get_clause h = s.get_clause h) := by
  have hgw : ∀ b v, (create_clause s a).2.get_watch_list b v =
      s.get_watch_list b v := fun b v => get_watch_list_congr s _ rfl rfl b v
  have hwc : ∀ b v h, watch_count (create_clause s a).2 b v h =
      watch_count s b v h := by
    intro b v h
    unfold watch_count
    rw [hgw]
  have hlen : (create_clause s a).2.m_clauses.length =
      s.m_clauses.length + 1 := by
    show (s.m_clauses ++ [_]).length = s.m_clauses.length + 1
    simp
  have hgc : ∀ h, h < s.m_clauses.length →
      (create_clause s a).2.get_clause h = s.get_clause h := by
    intro h hh
    show (s.m_clauses ++ [_]).getD h default = s.m_clauses.getD h default
    exact List.getD_append _ _ _ _ hh
  have hzn : clause_zero_watches (create_clause s a).2 s.m_clauses.length := by
    intro b v hv
    rw [hwc]
    have hvS : v < s.m_domains.length := hv
    unfold watch_count
    refine List.count_eq_zero.mpr ?_
    intro hmem
    have := hinv.2.1 b v hvS _ hmem
    omega
  obtain ⟨hsz, hval, hcl⟩ := hinv
  refine ⟨⟨⟨hsz.1, hsz.2⟩, ?_, ?_⟩, hlen, rfl, hzn, hgc⟩
  · intro b v hv x hx
    rw [hgw] at hx
    have := hval b v hv x hx
    rw [hlen]
    omega
  · intro h hh
    rw [hlen] at hh
    by_cases he : h = s.m_clauses.length
    · subst he
      exact Or.inl hzn
    · have hh2 : h < s.m_clauses.length := by omega
      rcases hcl h hh2 with hz | ht
      · exact Or.inl (clause_zero_watches_transport s _ h rfl
          (fun b v _ => hwc b v h) hz)
      · exact Or.inr (clause_two_watches_transport s _ h (hgc h hh2) rfl
          (fun b v _ => hwc b v h) ht)

theorem analyze_conflict_inv (fuel : Nat) (s : cdcl_sat) (cc : Nat)
    (r : Option (Nat × Nat) × cdcl_sat) (hinv : watch_inv s)
    (h : analyze_conflict fuel s cc = .ok r) :
    watch_inv r.2 ∧
    (∀ p, r.1 = some p →
      r.2.m_clauses.length = s.m_clauses.length + 1 ∧
      p.2 = s.m_clauses.length ∧
      clause_zero_watches r.2 p.2 ∧
      r.2.m_domains = s.m_domains ∧
      (∀ h2, h2 < s.m_clauses.length →
        r.2.get_clause h2 = s.get_clause h2)) ∧
    (r.1 = none → r.2 = s) := by
  unfold analyze_conflict at h
  cases hal : analyze_loop s fuel (analysis_init s cc) with
  | error e =>
    rw [hal] at h
    cases h
  | ok a =>
    rw [hal] at h
    dsimp only at h
    obtain ⟨c1, c2, c3, c4, c5⟩ := create_clause_inv s a hinv
    by_cases h1 : a.conflict_literals.length = 1
    · rw [if_pos h1] at h
      injection h with h2
      subst h2
      refine ⟨c1, ?_, ?_⟩
      · intro p hp
        injection hp with hp2
        subst hp2
        exact ⟨c2, rfl, c4, c3, c5⟩
      · intro hp
        cases hp
    · rw [if_neg h1] at h
      by_cases h2 : is_unit s a = true
      · rw [if_pos h2] at h
        cases hrev : a.implication_depth_to_var.reverse[1]? with
        | none =>
          rw [hrev] at h
          cases h
        | some p =>
          rw [hrev] at h
          dsimp only at h
          injection h with h3
          subst h3
          refine ⟨c1, ?_, ?_⟩
          · intro q hq
            injection hq with hq2
            subst hq2
            exact ⟨c2, rfl, c4, c3, c5⟩
          · intro hq
            cases hq
      · rw [if_neg h2] at h
        injection h with h3
        subst h3
        refine ⟨hinv, ?_, fun _ => rfl⟩
        intro p hp
        exact Option.noConfusion hp

theorem getD_replicate_nil (n v : Nat) :
    (List.replicate n ([] : List Nat)).getD v [] = [] := by
  rw [List.getD_eq_getElem?_getD]
  cases h : (List.replicate n ([] : List Nat))[v]? with
  | none => rfl
  | some x =>
    have hx := List.getElem?_mem h
    rw [List.eq_of_mem_replicate hx]
    rfl

theorem watch_inv_of_empty (s : cdcl_sat)
    (hsz : watch_arrays_sized s)
    (hempty : ∀ b v, s.get_watch_list b v = []) : watch_inv s := by
  refine ⟨hsz, ?_, ?_⟩
  · intro b v hv x hx
    rw [hempty] at hx
    cases hx
  · intro h hh
    left
    intro b v hv
    unfold watch_count
    rw [hempty]
    rfl

/-- The per-clause loop of `cdcl_sat::initial_propagate` establishes the
watch invariant when it starts with an empty watch index for the still
unprocessed clauses. -/
theorem initial_propagate_clauses_inv : ∀ k s h_idx,
    s.m_clauses.length - h_idx = k →
    watch_inv s →
    clauses_vars_in_range s →
    (∀ h, h_idx ≤ h → h < s.m_clauses.length → clause_zero_watches s h) →
    watch_inv (initial_propagate_clauses s h_idx).2 ∧
    clauses_vars_in_range (initial_propagate_clauses s h_idx).2 ∧
    (initial_propagate_clauses s h_idx).2.m_domains.length =
      s.m_domains.length := by
  intro k
  induction k with
  | zero =>
    intro s h_idx hk hinv hcv hzero
    rw [initial_propagate_clauses, dif_neg (by omega)]
    exact ⟨hinv, hcv, rfl⟩
  | succ k ih =>
    intro s h_idx hk hinv hcv hzero
    rw [initial_propagate_clauses, dif_pos (by omega)]
    dsimp only
    obtain ⟨j1, j2, j3, j4, j5, j6⟩ := clause_initial_propagate_inv s h_idx
      hinv (by omega) (hzero h_idx le_rfl (by omega))
      (cvir_hvars s h_idx hcv (by omega))
    split
    · exact ⟨j1, j6 hcv, j3⟩
    · have hz2 : ∀ h, h_idx + 1 ≤ h →
          h < (clause_initial_propagate s h_idx).2.m_clauses.length →
          clause_zero_watches (clause_initial_propagate s h_idx).2 h := by
        intro h hge hlt
        refine clause_zero_watches_transport s _ h j3
          (fun b v _ => j5 b v h (by omega)) ?_
        exact hzero h (by omega) (by rw [← j2]; exact hlt)
      obtain ⟨m1, m2, m3⟩ := ih (clause_initial_propagate s h_idx).2
        (h_idx + 1) (by rw [j2]; omega) j1 (j6 hcv) hz2
      exact ⟨m1, m2, by rw [m3, j3]⟩

/-- `cdcl_sat::initial_propagate` establishes the watch invariant. -/
theorem solver_initial_propagate_inv (fuel : Nat) (s : cdcl_sat)
    (r : Bool × cdcl_sat)
    (hcv : clauses_vars_in_range s)
    (h : solver_initial_propagate fuel s = some r) :
    watch_inv r.2 ∧ clauses_vars_in_range r.2 := by
  unfold solver_initial_propagate at h
  dsimp only at h
  set s1 : cdcl_sat :=
    { s with
      m_dirty_variables := []
      m_implications := List.replicate s.m_domains.length implication.neutral
      m_implied_vars := []
      m_watches_false := List.replicate s.m_domains.length []
      m_watches_true := List.replicate s.m_domains.length [] } with hs1
  have hempty1 : ∀ b v, s1.get_watch_list b v = [] := by
    intro b v
    rw [hs1]
    cases b
    · show (List.replicate s.m_domains.length []).getD v [] = []
      exact getD_replicate_nil _ v
    · show (List.replicate s.m_domains.length []).getD v [] = []
      exact getD_replicate_nil _ v
  have hinv1 : watch_inv s1 := by
    refine watch_inv_of_empty s1 ⟨?_, ?_⟩ hempty1
    · rw [hs1]
      simp
    · rw [hs1]
      simp
  have hcv1 : clauses_vars_in_range s1 := by
    refine cvir_congr s s1 ?_ ?_ hcv
    · rw [hs1]
    · rw [hs1]
  have hzero1 : ∀ h2, 0 ≤ h2 → h2 < s1.m_clauses.length →
      clause_zero_watches s1 h2 := by
    intro h2 _ _ b v _
    unfold watch_count
    rw [hempty1 b v]
    rfl
  obtain ⟨m1, m2, m3⟩ := initial_propagate_clauses_inv
    s1.m_clauses.length s1 0 rfl hinv1 hcv1 hzero1
  rcases hic : initial_propagate_clauses s1 0 with ⟨b2, s2⟩
  rw [hic] at h m1 m2
  cases b2
  · dsimp only at h
    injection h with h2
    subst h2
    exact ⟨m1, m2⟩
  · dsimp only at h
    rcases hpl : propagate_loop fuel s2 with _ | ⟨oc, s3⟩
    · rw [hpl] at h
      cases h
    · rw [hpl] at h
      obtain ⟨k1, k2, k3, k4⟩ := propagate_loop_inv fuel s2 (oc, s3) m1 hpl
      cases oc with
      | some conflict =>
        dsimp only at h
        injection h with h2
        subst h2
        exact ⟨k1, k4 m2⟩
      | none =>
        dsimp only at h
        injection h with h2
        subst h2
        exact ⟨k1, k4 m2⟩

/-- All resolvent variables are in range. -/
def keys_lt (n : Nat) (m : List (Nat × Bool)) : Prop :=
  ∀ p ∈ m, p.1 < n

theorem analysis_init_go_keys (s : cdcl_sat) (n : Nat) :
    ∀ lits (a : conflict_analysis_algo),
    (∀ l ∈ lits, (l : Int).natAbs < n) →
    keys_lt n a.conflict_literals →
    keys_lt n (analysis_init_go s a lits).conflict_literals := by
  intro lits
  induction lits with
  | nil =>
    intro a _ ha
    exact ha
  | cons l rest ih =>
    intro a hl ha
    rw [analysis_init_go]
    split
    · exact ih a (fun x hx => hl x (List.mem_cons_of_mem _ hx)) ha
    · refine ih _ (fun x hx => hl x (List.mem_cons_of_mem _ hx)) ?_
      intro p hp
      rcases mem_am_insert _ _ _ p hp with h2 | h2
      · rw [h2]
        exact hl l (List.mem_cons_self _ _)
      · exact ha p h2

theorem resolve_go_keys (s : cdcl_sat) (pv : Nat) (n : Nat) :
    ∀ lits (a : conflict_analysis_algo),
    (∀ l ∈ lits, (l : Int).natAbs < n) →
    keys_lt n a.conflict_literals →
    keys_lt n (resolve_go s pv a lits).conflict_literals := by
  intro lits
  induction lits with
  | nil =>
    intro a _ ha
    exact ha
  | cons l rest ih =>
    intro a hl ha
    rw [resolve_go]
    split
    · exact ih a (fun x hx => hl x (List.mem_cons_of_mem _ hx)) ha
    · split
      · refine ih _ (fun x hx => hl x (List.mem_cons_of_mem _ hx)) ?_
        intro p hp
        exact ha p (am_erase_subset _ _ p hp)
      · split
        · exact ih a (fun x hx => hl x (List.mem_cons_of_mem _ hx)) ha
        · refine ih _ (fun x hx => hl x (List.mem_cons_of_mem _ hx)) ?_
          intro p hp
          rcases mem_am_insert _ _ _ p hp with h2 | h2
          · rw [h2]
            exact hl l (List.mem_cons_self _ _)
          · exact ha p h2

theorem resolve_keys (s : cdcl_sat) (a a1 : conflict_analysis_algo) (pv : Nat)
    (hcv : clauses_vars_in_range s)
    (ha : keys_lt s.m_domains.length a.conflict_literals)
    (h : resolve s a pv = .ok a1) :
    keys_lt s.m_domains.length a1.conflict_literals := by
  unfold resolve at h
  cases hc : (s.get_implication pv).implication_cause with
  | none =>
    rw [hc] at h
    cases h
  | some cause =>
    rw [hc] at h
    dsimp only at h
    cases hclk : s.m_clauses[cause]? with
    | none =>
      rw [hclk] at h
      cases h
    | some prev =>
      rw [hclk] at h
      dsimp only at h
      injection h with h2
      subst h2
      refine resolve_go_keys s pv _ prev.m_literals a ?_ ha
      intro l hl
      exact hcv prev (List.getElem?_mem hclk) l hl

theorem analyze_loop_keys (s : cdcl_sat) : ∀ fuel
    (a a1 : conflict_analysis_algo), clauses_vars_in_range s →
    keys_lt s.m_domains.length a.conflict_literals →
    analyze_loop s fuel a = .ok a1 →
    keys_lt s.m_domains.length a1.conflict_literals := by
  intro fuel
  induction fuel with
  | zero =>
    intro a a1 _ _ h
    cases h
  | succ fuel ih =>
    intro a a1 hcv ha h
    rw [analyze_loop] at h
    cases hlast : a.implication_depth_to_var.getLast? with
    | none =>
      rw [hlast] at h
      cases h
    | some p =>
      rw [hlast] at h
      dsimp only at h
      cases hres : resolve s a p.2 with
      | error e =>
        rw [hres] at h
        cases h
      | ok a2 =>
        rw [hres] at h
        dsimp only at h
        have ha2 := resolve_keys s a a2 p.2 hcv ha hres
        split at h
        · injection h with h2
          subst h2
          exact ha2
        · exact ih a2 a1 hcv ha2 h

theorem create_clause_lits (n : Nat) (cl : List (Nat × Bool))
    (hk : ∀ p ∈ cl, p.1 < n) :
    ∀ l ∈ cl.map (fun p => if p.2 then (p.1 : Int) else -(p.1 : Int)),
      l.natAbs < n := by
  intro l hl
  obtain ⟨p, hp, hpl⟩ := List.mem_map.mp hl
  subst hpl
  cases hb : p.2 <;> simp [hb] <;> exact hk p hp

/-- Conflict analysis keeps every clause variable in range: the learned
clause's literals are resolvent variables, which all come from existing
clause literals. -/
theorem analyze_conflict_cvir (fuel : Nat) (s : cdcl_sat) (cc : Nat)
    (r : Option (Nat × Nat) × cdcl_sat)
    (hcv : clauses_vars_in_range s)
    (h : analyze_conflict fuel s cc = .ok r) :
    clauses_vars_in_range r.2 := by
  unfold analyze_conflict at h
  cases hal : analyze_loop s fuel (analysis_init s cc) with
  | error e =>
    rw [hal] at h
    cases h
  | ok a =>
    rw [hal] at h
    dsimp only at h
    have hinit : keys_lt s.m_domains.length
        (analysis_init s cc).conflict_literals := by
      unfold analysis_init
      refine analysis_init_go_keys s _ _ _ ?_ ?_
      · by_cases hcc : cc < s.m_clauses.length
        · intro l hl
          exact hcv _ (getD_mem_clause _ cc hcc) l hl
        · intro l hl
          exfalso
          have hd : s.get_clause cc = default := by
            unfold cdcl_sat.get_clause
            exact List.getD_eq_default _ _ (by omega)
          rw [hd] at hl
          exact absurd hl (List.not_mem_nil l)
      · intro p hp
        exact absurd hp (List.not_mem_nil p)
    have hka := analyze_loop_keys s fuel (analysis_init s cc) a hcv hinit hal
    have hcl := create_clause_lits s.m_domains.length a.conflict_literals hka
    have hcc2 : clauses_vars_in_range (create_clause s a).2 := by
      intro c hc l hl
      show l.natAbs < s.m_domains.length
      rcases List.mem_append.mp hc with h2 | h2
      · exact hcv c h2 l hl
      · simp only [List.mem_singleton] at h2
        subst h2
        exact hcl l hl
    by_cases h1 : a.conflict_literals.length = 1
    · rw [if_pos h1] at h
      injection h with h2
      subst h2
      exact hcc2
    · rw [if_neg h1] at h
      by_cases h2 : is_unit s a = true
      · rw [if_pos h2] at h
        cases hrev : a.implication_depth_to_var.reverse[1]? with
        | none =>
          rw [hrev] at h
          cases h
        | some p =>
          rw [hrev] at h
          dsimp only at h
          injection h with h3
          subst h3
          exact hcc2
      · rw [if_neg h2] at h
        injection h with h3
        subst h3
        exact hcv

/-- The main loop of `cdcl_sat::solve` maintains the watch invariant and the
variable-range invariant through every step: propagation, conflict analysis,
backjumping, the learned clause's initial propagation and decisions. -/
theorem solve_loop_inv : ∀ fuel s bt r,
    watch_inv s → clauses_vars_in_range s →
    solve_loop s bt fuel = some r →
    watch_inv r.2 ∧ clauses_vars_in_range r.2 := by
  intro fuel
  induction fuel with
  | zero =>
    intro s bt r _ _ h
    rw [solve_loop] at h
    exact Option.noConfusion h
  | succ fuel ih =>
    intro s bt r hinv hcv h
    rw [solve_loop] at h
    rcases hpl : propagate_loop fuel s with _ | ⟨oc, s1⟩
    · rw [hpl] at h
      exact Option.noConfusion h
    · rw [hpl] at h
      obtain ⟨k1, k2, k3, k4⟩ := propagate_loop_inv fuel s (oc, s1) hinv hpl
      cases oc with
      | some cc =>
        dsimp only at h
        by_cases hlvl : s1.get_level = 0
        · rw [if_pos hlvl] at h
          injection h with h2
          subst h2
          exact ⟨k1, k4 hcv⟩
        · rw [if_neg hlvl] at h
          cases hac : analyze_conflict fuel s1 cc with
          | error e =>
            rw [hac] at h
            exact Option.noConfusion h
          | ok p =>
            rw [hac] at h
            rcases p with ⟨olc, s2⟩
            obtain ⟨a1, a2, a3⟩ := analyze_conflict_inv fuel s1 cc (olc, s2)
              k1 hac
            have acv := analyze_conflict_cvir fuel s1 cc (olc, s2) (k4 hcv) hac
            cases olc with
            | none =>
              dsimp only at h
              injection h with h2
              subst h2
              exact ⟨a1, acv⟩
            | some lc =>
              dsimp only at h
              by_cases hbt : bt = s2.m_max_backtracks
              · rw [if_pos hbt] at h
                injection h with h2
                subst h2
                exact ⟨a1, acv⟩
              · rw [if_neg hbt] at h
                obtain ⟨b2len, bp2, bz2, bD2, bgc2⟩ := a2 lc rfl
                obtain ⟨t1, t2, t3, t4⟩ := backtrack_watch_frame s2 lc.1
                have hinv3 : watch_inv (backtrack s2 lc.1) :=
                  backtrack_inv s2 lc.1 a1
                have hcv3 : clauses_vars_in_range (backtrack s2 lc.1) :=
                  cvir_congr s2 _ t3 t4 acv
                have hz3 : clause_zero_watches (backtrack s2 lc.1) lc.2 := by
                  refine clause_zero_watches_transport s2 _ lc.2 t4 ?_ bz2
                  intro b v _
                  unfold watch_count
                  rw [get_watch_list_congr s2 _ t1 t2 b v]
                have hlen3 : (backtrack s2 lc.1).m_clauses.length =
                    s1.m_clauses.length + 1 := by
                  rw [t3]
                  exact b2len
                have hhandle : (backtrack s2 lc.1).m_clauses.length - 1 =
                    lc.2 := by
                  omega
                obtain ⟨j1, j2, j3, j4, j5, j6⟩ := clause_initial_propagate_inv
                  (backtrack s2 lc.1)
                  ((backtrack s2 lc.1).m_clauses.length - 1)
                  hinv3 (by omega) (by rw [hhandle]; exact hz3)
                  (cvir_hvars _ _ hcv3 (by omega))
                exact ih _ _ r j1 (j6 hcv3) h
      | none =>
        dsimp only at h
        cases hmc : make_choice s1 with
        | none =>
          rw [hmc] at h
          by_cases hall : all_singletons s1 = true
          · rw [if_pos hall] at h
            injection h with h2
            subst h2
            exact ⟨k1, k4 hcv⟩
          · rw [if_neg hall] at h
            exact Option.noConfusion h
        | some s2 =>
          rw [hmc] at h
          dsimp only at h
          obtain ⟨mc1, mc2, mc3⟩ := make_choice_inv s1 s2 k1 hmc
          exact ih s2 bt r mc1 (cvir_congr s1 s2 mc2 mc3 (k4 hcv)) h

/-- A fresh instance with three domain slots (index 0 is the sentinel),
variable 1 preassigned to `false`, variable 2 free, and the single clause
`(x1 ∨ x2)`. -/
def wstate5 : cdcl_sat :=
  { m_max_backtracks := 100
    m_inside_solve := false
    m_domains := [binary_domain.universal, binary_domain.ofBool false,
      binary_domain.universal]
    m_implications := List.replicate 3 implication.neutral
    m_watches_false := []
    m_watches_true := []
    m_dirty_variables := []
    m_clauses := [⟨[1, 2], 0, 0⟩]
    m_implied_vars := []
    m_chosen_vars := [] }

/-- The state right after `initial_propagate` on `wstate5` inside `solve`:
the clause `(x1 ∨ x2)` was unit (literal `x1` already false), propagated
`x2` and registered no watches. -/
def wstate5post : cdcl_sat :=
  { m_max_backtracks := 100
    m_inside_solve := true
    m_domains := [⟨true, true⟩, ⟨true, false⟩, ⟨false, true⟩]
    m_implications := [⟨none, 0, 0⟩, ⟨none, 0, 0⟩, ⟨some 0, 1, 0⟩]
    m_watches_false := [[], [], []]
    m_watches_true := [[], [], []]
    m_dirty_variables := []
    m_clauses := [⟨[1, 2], 1, 2⟩]
    m_implied_vars := [2]
    m_chosen_vars := [] }

/-- Claim C5, counterexample: at a reachable point during `solve()` on
`wstate5` (right after the initial propagation, outside any
clause-propagation call) the live clause `(x1 ∨ x2)` is non-tautological
with post-deduplication size 2 and yet has no watch-index entries at all: a
clause that is unit at `initial_propagate` time unit-propagates instead of
registering its two watches, refuting "every size >= 2 clause has exactly
two watch-index entries". -/
theorem C5_counterexample :
    solver_initial_propagate 100 { wstate5 with m_inside_solve := true } =
      some (true, wstate5post) ∧
    remove_duplicate_variables (wstate5post.get_clause 0) =
      some ⟨[1, 2], 1, 2⟩ ∧
    (wstate5post.get_clause 0).size = 2 ∧
    wstate5post.m_clauses.length = 1 ∧
    (∀ b : Bool, ∀ v < wstate5post.m_domains.length,
      watch_count wstate5post b v 0 = 0) ∧
    (solve 100 wstate5).map Prod.fst = some .SAT := by
  refine ⟨?_, rfl, rfl, rfl, by decide, ?_⟩
  · simp +decide [solver_initial_propagate, initial_propagate_clauses,
      clause_initial_propagate, remove_duplicate_variables,
      remove_duplicate_variables_go, linear_find_free_literal, unit_propagate,
      cdcl_sat.set_domain, cdcl_sat.get_current_domain,
      binary_domain.containsB, binary_domain.is_singleton,
      binary_domain.ofBool, binary_domain.universal, binary_domain.minVal,
      propagate_loop, propagate_watch_iter, cdcl_sat.get_watch_list,
      cdcl_sat.get_clause, cdcl_sat.set_clause, clause.get_variable,
      clause.is_positive_literal, clause.size, wstate5, wstate5post]
  · simp +decide [solve, solve_loop, solver_initial_propagate,
      initial_propagate_clauses, clause_initial_propagate,
      remove_duplicate_variables, remove_duplicate_variables_go,
      linear_find_free_literal, unit_propagate, cdcl_sat.set_domain,
      cdcl_sat.get_current_domain, binary_domain.containsB,
      binary_domain.is_singleton, binary_domain.ofBool,
      binary_domain.universal, binary_domain.minVal, propagate_loop,
      propagate_watch_iter, cdcl_sat.get_watch_list, cdcl_sat.get_clause,
      cdcl_sat.set_clause, clause.get_variable, clause.is_positive_literal,
      clause.size, make_choice, find_free_var, find_non_singleton,
      all_singletons, wstate5]

/-- Claim C5 (amended): during `solve()`, outside a single clause-propagation
call, every live clause either has no watch-index entries (tautological,
trivially-unsatisfiable and initially-unit clauses register none) or exactly
two, one per watched literal, each registered under that literal's own
polarity and variable (`watch_inv`); given in-range clause variables the
invariant is established by `initial_propagate` and preserved by every step
of the main loop and by `solve` itself. -/
theorem C5_watch_invariant :
    (∀ fuel s r, clauses_vars_in_range s →
      solver_initial_propagate fuel s = some r →
      watch_inv r.2 ∧ clauses_vars_in_range r.2) ∧
    (∀ fuel s bt r, watch_inv s → clauses_vars_in_range s →
      solve_loop s bt fuel = some r →
      watch_inv r.2 ∧ clauses_vars_in_range r.2) ∧
    (∀ fuel s st s2, clauses_vars_in_range s →
      solve fuel s = some (st, s2) → watch_inv s2) := by
  refine ⟨solver_initial_propagate_inv, solve_loop_inv, ?_⟩
  intro fuel s st s2 hcv h
  unfold solve at h
  dsimp only at h
  rcases hip : solver_initial_propagate fuel { s with m_inside_solve := true }
    with _ | ⟨b1, s1⟩
  · rw [hip] at h
    exact Option.noConfusion h
  · rw [hip] at h
    obtain ⟨i1, i2⟩ := solver_initial_propagate_inv fuel
      { s with m_inside_solve := true } (b1, s1)
      (cvir_congr s { s with m_inside_solve := true } rfl rfl hcv) hip
    cases b1
    · dsimp only at h
      injection h with h2
      have hx := congrArg Prod.snd h2
      dsimp only at hx
      rw [← hx]
      exact watch_inv_congr s1 _ rfl rfl rfl rfl i1
    · dsimp only at h
      rcases hsl : solve_loop s1 0 fuel with _ | ⟨st2, s3⟩
      · rw [hsl] at h
        exact Option.noConfusion h
      · rw [hsl] at h
        dsimp only at h
        injection h with h2
        obtain ⟨l1, l2⟩ := solve_loop_inv fuel s1 0 (st2, s3) i1 i2 hsl
        have hx := congrArg Prod.snd h2
        dsimp only at hx
        rw [← hx]
        exact watch_inv_congr s3 _ rfl rfl rfl rfl l1

/-- Concrete instantiation of the amended C5 invariant: the initial
propagation on `wstate5` establishes the watch invariant. -/
theorem C5_watch_invariant_witness :
    clauses_vars_in_range { wstate5 with m_inside_solve := true } ∧
    (watch_inv wstate5post ∧ clauses_vars_in_range wstate5post) := by
  have hcv : clauses_vars_in_range { wstate5 with m_inside_solve := true } := by
    unfold clauses_vars_in_range
    decide
  refine ⟨hcv, C5_watch_invariant.1 100 { wstate5 with m_inside_solve := true }
    (true, wstate5post) hcv ?_⟩
  simp +decide [solver_initial_propagate, initial_propagate_clauses,
    clause_initial_propagate, remove_duplicate_variables,
    remove_duplicate_variables_go, linear_find_free_literal, unit_propagate,
    cdcl_sat.set_domain, cdcl_sat.get_current_domain,
    binary_domain.containsB, binary_domain.is_singleton,
    binary_domain.ofBool, binary_domain.universal, binary_domain.minVal,
    propagate_loop, propagate_watch_iter, cdcl_sat.get_watch_list,
    cdcl_sat.get_clause, cdcl_sat.set_clause, clause.get_variable,
    clause.is_positive_literal, clause.size, wstate5, wstate5post]

/-! Simulation between a run of the solver and the run on the same instance
extended with one tautological clause inserted at handle `n` (the appended
position).  Handles of later (learned) clauses shift by one. -/

/-- Clause-handle renaming: handles below the tautology's position are kept,
later ones shift by one. -/
def hmap (n : Nat) (h : Nat) : Nat := if h < n then h else h + 1

/-- Rename the cause handle inside an implication record. -/
def imp_rename (n : Nat) (im : implication) : implication :=
  { im with implication_cause := im.implication_cause.map (hmap n) }

theorem hmap_ne (n h : Nat) : hmap n h ≠ n := by
  unfold hmap
  split <;> omega

theorem hmap_inj (n a b : Nat) (h : hmap n a = hmap n b) : a = b := by
  unfold hmap at h
  split at h <;> split at h <;> omega

theorem getD_map_gen {α β : Type} (f : α → β) (l : List α) (i : Nat) (d : α) :
    (l.map f).getD i (f d) = f (l.getD i d) := by
  rw [List.getD_eq_getElem?_getD, List.getD_eq_getElem?_getD,
    List.getElem?_map]
  cases l[i]? <;> rfl

/-- The simulation relation: `s'` is the state of the extended run, with the
tautological clause `tcl` untouched at handle `n`, all other clauses aligned
by `hmap n`, watch lists and implication causes renamed, and everything else
equal. -/
structure taut_rel (n : Nat) (tcl : clause) (s s' : cdcl_sat) : Prop where
  hn : n ≤ s.m_clauses.length
  hmax : s'.m_max_backtracks = s.m_max_backtracks
  hins : s'.m_inside_solve = s.m_inside_solve
  hdom : s'.m_domains = s.m_domains
  himp : s'.m_implications = s.m_implications.map (imp_rename n)
  hwf2 : s'.m_watches_false = s.m_watches_false.map (List.map (hmap n))
  hwt2 : s'.m_watches_true = s.m_watches_true.map (List.map (hmap n))
  hdirty : s'.m_dirty_variables = s.m_dirty_variables
  htrail : s'.m_implied_vars = s.m_implied_vars
  hchosen : s'.m_chosen_vars = s.m_chosen_vars
  hlen : s'.m_clauses.length = s.m_clauses.length + 1
  hcl : ∀ h, s'.get_clause (hmap n h) = s.get_clause h
  hct : s'.get_clause n = tcl

namespace taut_rel

variable {n : Nat} {tcl : clause} {s s' : cdcl_sat}

theorem hmap_lt (hr : taut_rel n tcl s s') (h : Nat) :
    hmap n h < s'.m_clauses.length ↔ h < s.m_clauses.length := by
  have hn := hr.hn
  have hlen := hr.hlen
  unfold hmap
  split <;> omega

theorem get_current_domain_rel (hr : taut_rel n tcl s s') (var : Nat) :
    s'.get_current_domain var = s.get_current_domain var := by
  unfold cdcl_sat.get_current_domain
  rw [hr.hdom]

theorem get_implication_rel (hr : taut_rel n tcl s s') (var : Nat) :
    s'.get_implication var = imp_rename n (s.get_implication var) := by
  unfold cdcl_sat.get_implication
  rw [hr.himp, List.getD_eq_getElem?_getD, List.getD_eq_getElem?_getD,
    List.getElem?_map]
  cases s.m_implications[var]? <;> rfl

theorem get_watch_list_rel (hr : taut_rel n tcl s s') (b : Bool) (v : Nat) :
    s'.get_watch_list b v = (s.get_watch_list b v).map (hmap n) := by
  cases b
  · show s'.m_watches_false.getD v [] =
      (s.m_watches_false.getD v []).map (hmap n)
    rw [hr.hwf2, List.getD_eq_getElem?_getD, List.getD_eq_getElem?_getD,
      List.getElem?_map]
    cases s.m_watches_false[v]? <;> rfl
  · show s'.m_watches_true.getD v [] =
      (s.m_watches_true.getD v []).map (hmap n)
    rw [hr.hwt2, List.getD_eq_getElem?_getD, List.getD_eq_getElem?_getD,
      List.getElem?_map]
    cases s.m_watches_true[v]? <;> rfl

theorem get_level_rel (hr : taut_rel n tcl s s') :
    s'.get_level = s.get_level := by
  unfold cdcl_sat.get_level
  rw [hr.hchosen]

theorem set_clause_rel (hr : taut_rel n tcl s s') (h : Nat) (c : clause) :
    taut_rel n tcl (s.set_clause h c) (s'.set_clause (hmap n h) c) := by
  refine ⟨?_, hr.hmax, hr.hins, hr.hdom, hr.himp, hr.hwf2, hr.hwt2,
    hr.hdirty, hr.htrail, hr.hchosen, ?_, ?_, ?_⟩
  · show n ≤ (s.m_clauses.set h c).length
    rw [List.length_set]
    exact hr.hn
  · show (s'.m_clauses.set _ c).length = (s.m_clauses.set h c).length + 1
    rw [List.length_set, List.length_set]
    exact hr.hlen
  · intro h2
    by_cases he : h2 = h
    · subst he
      by_cases hlt : h2 < s.m_clauses.length
      · rw [get_clause_set_clause_self s h2 c hlt,
          get_clause_set_clause_self s' (hmap n h2) c
            ((hr.hmap_lt h2).mpr hlt)]
      · have h1 : (s.set_clause h2 c).get_clause h2 = s.get_clause h2 := by
          unfold cdcl_sat.get_clause cdcl_sat.set_clause
          dsimp only
          rw [List.getD_eq_default _ _ (by rw [List.length_set]; omega),
            List.getD_eq_default _ _ (by omega)]
        have h2' : (s'.set_clause (hmap n h2) c).get_clause (hmap n h2) =
            s'.get_clause (hmap n h2) := by
          have hge : s'.m_clauses.length ≤ hmap n h2 := by
            have := hr.hmap_lt h2
            omega
          unfold cdcl_sat.get_clause cdcl_sat.set_clause
          dsimp only
          rw [List.getD_eq_default _ _ (by rw [List.length_set]; omega),
            List.getD_eq_default _ _ (by omega)]
        rw [h1, h2']
        exact hr.hcl h2
    · rw [get_clause_set_clause_ne s h c h2 he,
        get_clause_set_clause_ne s' (hmap n h) c (hmap n h2)
          (fun hx => he (hmap_inj n h2 h hx))]
      exact hr.hcl h2
  · rw [get_clause_set_clause_ne s' (hmap n h) c n
      (fun hx => hmap_ne n h hx.symm)]
    exact hr.hct

theorem set_watch_list_rel (hr : taut_rel n tcl s s') (b : Bool) (v : Nat)
    (L : List Nat) :
    taut_rel n tcl (s.set_watch_list b v L)
      (s'.set_watch_list b v (L.map (hmap n))) := by
  have hgc : ∀ h2, (s'.set_watch_list b v (L.map (hmap n))).get_clause h2 =
      s'.get_clause h2 := fun h2 => get_clause_set_watch_list s' b v _ h2
  have hgc2 : ∀ h2, (s.set_watch_list b v L).get_clause h2 =
      s.get_clause h2 := fun h2 => get_clause_set_watch_list s b v L h2
  cases b
  · refine ⟨hr.hn, hr.hmax, hr.hins, hr.hdom, hr.himp, ?_, hr.hwt2,
      hr.hdirty, hr.htrail, hr.hchosen, hr.hlen,
      fun h2 => by rw [hgc, hgc2]; exact hr.hcl h2,
      by rw [hgc n]; exact hr.hct⟩
    show (s'.m_watches_false.set v (L.map (hmap n))) =
      (s.m_watches_false.set v L).map (List.map (hmap n))
    rw [List.map_set, hr.hwf2]
  · refine ⟨hr.hn, hr.hmax, hr.hins, hr.hdom, hr.himp, hr.hwf2, ?_,
      hr.hdirty, hr.htrail, hr.hchosen, hr.hlen,
      fun h2 => by rw [hgc, hgc2]; exact hr.hcl h2,
      by rw [hgc n]; exact hr.hct⟩
    show (s'.m_watches_true.set v (L.map (hmap n))) =
      (s.m_watches_true.set v L).map (List.map (hmap n))
    rw [List.map_set, hr.hwt2]

theorem watch_value_removal_rel (hr : taut_rel n tcl s s') (tc2 var : Nat)
    (b : Bool) :
    taut_rel n tcl (s.watch_value_removal tc2 var b)
      (s'.watch_value_removal (hmap n tc2) var b) := by
  unfold cdcl_sat.watch_value_removal
  have := set_watch_list_rel hr b var
    (s.get_watch_list b var ++ [tc2])
  rw [List.map_append] at this
  simp only [List.map_cons, List.map_nil] at this
  rw [← get_watch_list_rel hr b var] at this
  exact this

theorem set_domain_rel (hr : taut_rel n tcl s s') (var : Nat)
    (d : binary_domain) (co : Option Nat) :
    taut_rel n tcl (s.set_domain var d co)
      (s'.set_domain var d (co.map (hmap n))) := by
  unfold cdcl_sat.set_domain
  rw [get_current_domain_rel hr var]
  by_cases hc : s.get_current_domain var = d
  · rw [if_pos hc, if_pos hc]
    exact hr
  · rw [if_neg hc, if_neg hc]
    dsimp only
    rw [hr.hins]
    by_cases hins : s.m_inside_solve = true
    · rw [if_pos hins, if_pos hins]
      refine ⟨?_, hr.hmax, rfl, ?_, ?_, hr.hwf2, hr.hwt2, ?_, ?_,
        hr.hchosen, hr.hlen, hr.hcl, hr.hct⟩
      · exact hr.hn
      · show s'.m_domains.set var d = s.m_domains.set var d
        rw [hr.hdom]
      · show s'.m_implications.set var
            ⟨co.map (hmap n), s'.m_implied_vars.length + 1,
              s'.m_chosen_vars.length⟩ =
          (s.m_implications.set var
            ⟨co, s.m_implied_vars.length + 1, s.m_chosen_vars.length⟩).map
            (imp_rename n)
        rw [List.map_set, hr.himp, hr.htrail, hr.hchosen]
        rfl
      · show s'.m_dirty_variables ++ [var] = s.m_dirty_variables ++ [var]
        rw [hr.hdirty]
      · show s'.m_implied_vars ++ [var] = s.m_implied_vars ++ [var]
        rw [hr.htrail]
    · rw [if_neg hins, if_neg hins]
      refine ⟨hr.hn, hr.hmax, rfl, ?_, hr.himp, hr.hwf2, hr.hwt2,
        hr.hdirty, hr.htrail, hr.hchosen, hr.hlen, hr.hcl, hr.hct⟩
      show s'.m_domains.set var d = s.m_domains.set var d
      rw [hr.hdom]

end taut_rel

theorem literal_state_congr (s s' : cdcl_sat)
    (hD : s'.m_domains = s.m_domains) (c : clause) (i : Nat) :
    literal_state s' c i = literal_state s c i := by
  unfold literal_state cdcl_sat.get_current_domain
  rw [hD]

theorem linear_find_free_literal_congr (s s' : cdcl_sat)
    (hD : s'.m_domains = s.m_domains) (c : clause) (second : Nat) :
    ∀ first, linear_find_free_literal s' c first second =
      linear_find_free_literal s c first second := by
  suffices hgen : ∀ k first, second - first = k →
      linear_find_free_literal s' c first second =
        linear_find_free_literal s c first second by
    intro first
    exact hgen (second - first) first rfl
  intro k
  induction k with
  | zero =>
    intro first hk
    rw [linear_find_free_literal]
    conv_rhs => rw [linear_find_free_literal]
    by_cases h : first < second
    · exact absurd h (by omega)
    · rw [dif_neg h, dif_neg h]
  | succ k ih =>
    intro first hk
    rw [linear_find_free_literal]
    conv_rhs => rw [linear_find_free_literal]
    by_cases h : first < second
    · rw [dif_pos h, dif_pos h]
      unfold cdcl_sat.get_current_domain
      rw [hD]
      split
      · rfl
      · exact ih (first + 1) (by omega)
    · rw [dif_neg h, dif_neg h]

theorem find_not_unsat_congr (s s' : cdcl_sat)
    (hD : s'.m_domains = s.m_domains) (c : clause) (skip stop : Nat) :
    ∀ i, find_not_unsat s' c skip i stop = find_not_unsat s c skip i stop := by
  suffices hgen : ∀ k i, stop - i = k →
      find_not_unsat s' c skip i stop = find_not_unsat s c skip i stop by
    intro i
    exact hgen (stop - i) i rfl
  intro k
  induction k with
  | zero =>
    intro i hk
    rw [find_not_unsat]
    conv_rhs => rw [find_not_unsat]
    by_cases h : i < stop
    · exact absurd h (by omega)
    · rw [dif_neg h, dif_neg h]
  | succ k ih =>
    intro i hk
    rw [find_not_unsat]
    conv_rhs => rw [find_not_unsat]
    by_cases h : i < stop
    · rw [dif_pos h, dif_pos h]
      rw [literal_state_congr s s' hD c i]
      split
      · rfl
      · exact ih (i + 1) (by omega)
    · rw [dif_neg h, dif_neg h]

theorem find_different_watch_congr (s s' : cdcl_sat)
    (hD : s'.m_domains = s.m_domains) (c : clause) (wi : Nat) :
    find_different_watch s' c wi = find_different_watch s c wi := by
  unfold find_different_watch
  dsimp only
  rw [find_not_unsat_congr s s' hD, find_not_unsat_congr s s' hD]

theorem find_free_var_congr (s s' : cdcl_sat)
    (hD : s'.m_domains = s.m_domains) (start : Nat) :
    find_free_var s' start = find_free_var s start := by
  unfold find_free_var
  rw [hD]

theorem all_singletons_congr (s s' : cdcl_sat)
    (hD : s'.m_domains = s.m_domains) :
    all_singletons s' = all_singletons s := by
  unfold all_singletons
  rw [hD]

namespace taut_rel

variable {n : Nat} {tcl : clause} {s s' : cdcl_sat}

theorem unit_propagate_rel (hr : taut_rel n tcl s s') (tc2 : Nat) (c : clause)
    (l : Nat) :
    (unit_propagate s' (hmap n tc2) c l).1 = (unit_propagate s tc2 c l).1 ∧
    taut_rel n tcl (unit_propagate s tc2 c l).2
      (unit_propagate s' (hmap n tc2) c l).2 := by
  unfold unit_propagate
  dsimp only
  rw [get_current_domain_rel hr (c.get_variable l)]
  by_cases h1 : ¬ (s.get_current_domain (c.get_variable l)).containsB
      (c.is_positive_literal l) = true
  · rw [if_pos h1, if_pos h1]
    exact ⟨rfl, hr⟩
  · rw [if_neg h1, if_neg h1]
    by_cases h2 : (s.get_current_domain (c.get_variable l)).is_singleton ∧
        (s.get_current_domain (c.get_variable l)).containsB
          (c.is_positive_literal l) = true
    · rw [if_pos h2, if_pos h2]
      exact ⟨rfl, hr⟩
    · rw [if_neg h2, if_neg h2]
      refine ⟨rfl, ?_⟩
      have h3 := set_domain_rel hr (c.get_variable l)
        (binary_domain.ofBool (c.is_positive_literal l)) (some tc2)
      simp only [Option.map_some'] at h3
      exact h3

theorem clause_propagate_rel (hr : taut_rel n tcl s s') (dc trig : Nat) :
    (clause_propagate s' (hmap n dc) trig).1 =
      (clause_propagate s dc trig).1 ∧
    taut_rel n tcl (clause_propagate s dc trig).2
      (clause_propagate s' (hmap n dc) trig).2 := by
  unfold clause_propagate
  dsimp only
  rw [hr.hcl dc, find_different_watch_congr s s' hr.hdom]
  by_cases h1 : find_different_watch s (s.get_clause dc)
      (if (s.get_clause dc).get_variable (s.get_clause dc).watched0 = trig
        then 0 else 1) ≠ (s.get_clause dc).size
  · rw [if_pos h1, if_pos h1]
    refine ⟨rfl, ?_⟩
    exact set_clause_rel (watch_value_removal_rel hr dc _ _) dc _
  · rw [if_neg h1, if_neg h1]
    exact unit_propagate_rel hr dc _ _

theorem clause_initial_propagate_rel (hr : taut_rel n tcl s s') (tc2 : Nat) :
    (clause_initial_propagate s' (hmap n tc2)).1 =
      (clause_initial_propagate s tc2).1 ∧
    taut_rel n tcl (clause_initial_propagate s tc2).2
      (clause_initial_propagate s' (hmap n tc2)).2 := by
  unfold clause_initial_propagate
  dsimp only
  rw [hr.hcl tc2]
  cases hdd : remove_duplicate_variables (s.get_clause tc2) with
  | none => exact ⟨rfl, hr⟩
  | some c1 =>
    dsimp only
    rw [linear_find_free_literal_congr s s' hr.hdom]
    by_cases h0 : linear_find_free_literal s
        { m_literals := c1.m_literals, watched0 := 0,
          watched1 := c1.size - 1 } 0 c1.size = c1.size
    · rw [if_pos h0, if_pos h0]
      exact ⟨rfl, set_clause_rel hr tc2 _⟩
    · rw [if_neg h0, if_neg h0]
      rw [linear_find_free_literal_congr s s' hr.hdom]
      by_cases h1 : linear_find_free_literal s
          { m_literals := c1.m_literals,
            watched0 := linear_find_free_literal s
              { m_literals := c1.m_literals, watched0 := 0,
                watched1 := c1.size - 1 } 0 c1.size,
            watched1 := c1.size - 1 }
          (linear_find_free_literal s
            { m_literals := c1.m_literals, watched0 := 0,
              watched1 := c1.size - 1 } 0 c1.size + 1) c1.size = c1.size
      · rw [if_pos h1, if_pos h1]
        exact unit_propagate_rel (set_clause_rel hr tc2 _) tc2 _ _
      · rw [if_neg h1, if_neg h1]
        refine ⟨rfl, ?_⟩
        exact watch_value_removal_rel
          (watch_value_removal_rel (set_clause_rel hr tc2 _) tc2 _ _) tc2 _ _

theorem dirty_rel (hr : taut_rel n tcl s s') (rest : List Nat) :
    taut_rel n tcl { s with m_dirty_variables := rest }
      { s' with m_dirty_variables := rest } :=
  ⟨hr.hn, hr.hmax, hr.hins, hr.hdom, hr.himp, hr.hwf2, hr.hwt2, rfl,
    hr.htrail, hr.hchosen, hr.hlen, hr.hcl, hr.hct⟩

end taut_rel

theorem swap_pop_map (f : Nat → Nat) (l : List Nat) (i : Nat) :
    ((l.map f).set i ((l.map f).getLastD 0)).dropLast =
      ((l.set i (l.getLastD 0)).dropLast).map f := by
  cases l with
  | nil => rfl
  | cons a rest =>
    have h1 : ((a :: rest).map f).getLastD 0 = f ((a :: rest).getLastD 0) := by
      rw [List.getLastD_eq_getLast?, List.getLastD_eq_getLast?,
        List.getLast?_map]
      cases hl : (a :: rest).getLast? with
      | none => simp at hl
      | some y => rfl
    rw [h1, ← List.map_set, List.map_dropLast]

/-- Relation between the results of the two propagation runs. -/
def resR (n : Nat) (tcl : clause) :
    Option (Option Nat × cdcl_sat) → Option (Option Nat × cdcl_sat) → Prop
  | none, none => True
  | some (oc, s1), some (oc', s1') =>
      oc' = oc.map (hmap n) ∧ taut_rel n tcl s1 s1'
  | _, _ => False

namespace taut_rel

variable {n : Nat} {tcl : clause} {s s' : cdcl_sat}

theorem clause_initial_propagate_taut (hr : taut_rel n tcl s s')
    (htaut : remove_duplicate_variables tcl = none) :
    clause_initial_propagate s' n = (.SAT, s') := by
  unfold clause_initial_propagate
  dsimp only
  rw [hr.hct, htaut]

theorem propagate_watch_iter_rel (var : Nat) (pe : Bool) :
    ∀ fuel s1 s2 i, taut_rel n tcl s1 s2 →
    resR n tcl (propagate_watch_iter fuel s1 var pe i)
      (propagate_watch_iter fuel s2 var pe i) := by
  intro fuel
  induction fuel with
  | zero =>
    intro s1 s2 i _
    rw [propagate_watch_iter, propagate_watch_iter]
    exact trivial
  | succ fuel ih =>
    intro s1 s2 i hr
    rw [propagate_watch_iter]
    conv_rhs => rw [propagate_watch_iter]
    dsimp only
    rw [get_watch_list_rel hr pe var, List.length_map]
    by_cases hi : i < (s1.get_watch_list pe var).length
    · rw [if_pos hi, if_pos hi]
      have hget : ((s1.get_watch_list pe var).map (hmap n)).getD i 0 =
          hmap n ((s1.get_watch_list pe var).getD i 0) := by
        rw [List.getD_eq_getElem?_getD, List.getD_eq_getElem?_getD,
          List.getElem?_eq_getElem hi,
          List.getElem?_eq_getElem (by rw [List.length_map]; exact hi)]
        simp
      rw [hget]
      rcases hcp : clause_propagate s1 ((s1.get_watch_list pe var).getD i 0)
        var with ⟨st, t1⟩
      obtain ⟨heq, hrel1⟩ :=
        clause_propagate_rel hr ((s1.get_watch_list pe var).getD i 0) var
      rw [hcp] at heq hrel1
      rcases hcp2 : clause_propagate s2
          (hmap n ((s1.get_watch_list pe var).getD i 0)) var with ⟨st2, t2⟩
      rw [hcp2] at heq hrel1
      dsimp only at heq hrel1
      subst heq
      cases st2 with
      | UNKNOWN =>
        dsimp only
        rw [get_watch_list_rel hrel1 pe var, swap_pop_map]
        exact ih _ _ i (set_watch_list_rel hrel1 pe var _)
      | UNSAT =>
        dsimp only
        exact ⟨rfl, hrel1⟩
      | SAT =>
        dsimp only
        exact ih t1 t2 (i + 1) hrel1
    · rw [if_neg hi, if_neg hi]
      exact ⟨rfl, hr⟩

theorem propagate_loop_rel :
    ∀ fuel s1 s2, taut_rel n tcl s1 s2 →
    resR n tcl (propagate_loop fuel s1) (propagate_loop fuel s2) := by
  intro fuel
  induction fuel with
  | zero =>
    intro s1 s2 _
    rw [propagate_loop, propagate_loop]
    exact trivial
  | succ fuel ih =>
    intro s1 s2 hr
    rw [propagate_loop]
    conv_rhs => rw [propagate_loop]
    rw [hr.hdirty]
    cases hdq : s1.m_dirty_variables with
    | nil => exact ⟨rfl, hr⟩
    | cons var rest =>
      dsimp only
      have hr0 : taut_rel n tcl { s1 with m_dirty_variables := rest }
          { s2 with m_dirty_variables := rest } := dirty_rel hr rest
      have hpe : ({ s2 with m_dirty_variables := rest } :
            cdcl_sat).get_current_domain var =
          ({ s1 with m_dirty_variables := rest } :
            cdcl_sat).get_current_domain var :=
        get_current_domain_rel hr0 var
      rw [hpe]
      have hit := propagate_watch_iter_rel var
        (!(({ s1 with m_dirty_variables := rest } :
          cdcl_sat).get_current_domain var).containsB true) fuel
        { s1 with m_dirty_variables := rest }
        { s2 with m_dirty_variables := rest } 0 hr0
      rcases h1 : propagate_watch_iter fuel
          { s1 with m_dirty_variables := rest } var
          (!(({ s1 with m_dirty_variables := rest } :
            cdcl_sat).get_current_domain var).containsB true) 0
        with _ | ⟨oc, t1⟩ <;>
        rcases h2 : propagate_watch_iter fuel
            { s2 with m_dirty_variables := rest } var
            (!(({ s1 with m_dirty_variables := rest } :
              cdcl_sat).get_current_domain var).containsB true) 0
          with _ | ⟨oc2, t2⟩ <;>
        rw [h1, h2] at hit
      · exact trivial
      · exact hit.elim
      · exact hit.elim
      · obtain ⟨hoc, hrel1⟩ := hit
        subst hoc
        cases oc with
        | none => exact ih t1 t2 hrel1
        | some conflict => exact ⟨rfl, hrel1⟩

end taut_rel

theorem getD_append_self {α : Type} [Inhabited α] (l : List α) (x d : α) :
    (l ++ [x]).getD l.length d = x := by
  rw [List.getD_eq_getElem?_getD, List.getElem?_append_right (le_refl _)]
  simp

/-- `analyze_conflict` returning a learned clause appended it at the old end
of the clause store. -/
theorem analyze_conflict_some_len (fuel : Nat) (s : cdcl_sat) (cc : Nat)
    (lc : Nat × Nat) (s2 : cdcl_sat)
    (h : analyze_conflict fuel s cc = .ok (some lc, s2)) :
    s2.m_clauses.length = s.m_clauses.length + 1 ∧
    lc.2 = s.m_clauses.length := by
  unfold analyze_conflict at h
  cases hal : analyze_loop s fuel (analysis_init s cc) with
  | error e =>
    rw [hal] at h
    cases h
  | ok a =>
    rw [hal] at h
    dsimp only at h
    by_cases h1 : a.conflict_literals.length = 1
    · rw [if_pos h1] at h
      injection h with h2
      have hfst := congrArg Prod.fst h2
      have hsnd := congrArg Prod.snd h2
      dsimp only at hfst hsnd
      injection hfst with hfst2
      constructor
      · rw [← hsnd]
        simp [create_clause]
      · rw [← hfst2]
        rfl
    · rw [if_neg h1] at h
      by_cases h2 : is_unit s a = true
      · rw [if_pos h2] at h
        cases hrev : a.implication_depth_to_var.reverse[1]? with
        | none =>
          rw [hrev] at h
          cases h
        | some p =>
          rw [hrev] at h
          dsimp only at h
          injection h with h3
          have hfst := congrArg Prod.fst h3
          have hsnd := congrArg Prod.snd h3
          dsimp only at hfst hsnd
          injection hfst with hfst2
          constructor
          · rw [← hsnd]
            simp [create_clause]
          · rw [← hfst2]
            rfl
      · rw [if_neg h2] at h
        injection h with h3
        have hfst := congrArg Prod.fst h3
        dsimp only at hfst
        exact Option.noConfusion hfst

/-- Relation between the two runs' `analyze_conflict` results. -/
def acR (n : Nat) (tcl : clause) :
    Except analyze_error (Option (Nat × Nat) × cdcl_sat) →
    Except analyze_error (Option (Nat × Nat) × cdcl_sat) → Prop
  | .error e, .error e' => e' = e
  | .ok (olc, s2), .ok (olc', s2') =>
      olc' = olc.map (fun p => (p.1, hmap n p.2)) ∧ taut_rel n tcl s2 s2'
  | _, _ => False

namespace taut_rel

variable {n : Nat} {tcl : clause} {s s' : cdcl_sat}

theorem analysis_init_go_rel (hr : taut_rel n tcl s s') :
    ∀ lits (a : conflict_analysis_algo),
    analysis_init_go s' a lits = analysis_init_go s a lits := by
  intro lits
  induction lits with
  | nil => intro a; rfl
  | cons l rest ih =>
    intro a
    rw [analysis_init_go]
    conv_rhs => rw [analysis_init_go]
    have hd : (s'.get_implication l.natAbs).implication_depth =
        (s.get_implication l.natAbs).implication_depth := by
      rw [get_implication_rel hr]
      rfl
    rw [hd]
    by_cases hdep : (s.get_implication l.natAbs).implication_depth = 0
    · rw [if_pos hdep, if_pos hdep]
      exact ih a
    · rw [if_neg hdep, if_neg hdep]
      exact ih _

theorem resolve_go_rel (hr : taut_rel n tcl s s') (pv : Nat) :
    ∀ lits (a : conflict_analysis_algo),
    resolve_go s' pv a lits = resolve_go s pv a lits := by
  intro lits
  induction lits with
  | nil => intro a; rfl
  | cons l rest ih =>
    intro a
    rw [resolve_go]
    conv_rhs => rw [resolve_go]
    have hd : (s'.get_implication l.natAbs).implication_depth =
        (s.get_implication l.natAbs).implication_depth := by
      rw [get_implication_rel hr]
      rfl
    rw [hd]
    by_cases hdep : (s.get_implication l.natAbs).implication_depth = 0
    · rw [if_pos hdep, if_pos hdep]
      exact ih a
    · rw [if_neg hdep, if_neg hdep]
      by_cases hpv : l.natAbs = pv
      · rw [if_pos hpv, if_pos hpv]
        exact ih _
      · rw [if_neg hpv, if_neg hpv]
        by_cases hct : am_contains l.natAbs a.conflict_literals = true
        · rw [if_pos hct, if_pos hct]
          exact ih a
        · rw [if_neg hct, if_neg hct]
          exact ih _

theorem getElem?_clauses_rel (hr : taut_rel n tcl s s') (c : Nat) :
    s'.m_clauses[hmap n c]? = s.m_clauses[c]? := by
  by_cases hc : c < s.m_clauses.length
  · have hc2 : hmap n c < s'.m_clauses.length := (hr.hmap_lt c).mpr hc
    rw [List.getElem?_eq_getElem hc, List.getElem?_eq_getElem hc2]
    have h1 : s'.m_clauses[hmap n c] = s'.get_clause (hmap n c) := by
      unfold cdcl_sat.get_clause
      rw [List.getD_eq_getElem?_getD, List.getElem?_eq_getElem hc2]
      rfl
    have h2 : s.m_clauses[c] = s.get_clause c := by
      unfold cdcl_sat.get_clause
      rw [List.getD_eq_getElem?_getD, List.getElem?_eq_getElem hc]
      rfl
    rw [h1, h2, hr.hcl c]
  · rw [List.getElem?_eq_none (by
        have h4 : ¬ hmap n c < s'.m_clauses.length :=
          fun ha => hc ((hr.hmap_lt c).mp ha)
        omega),
      List.getElem?_eq_none (by omega)]

theorem resolve_rel (hr : taut_rel n tcl s s')
    (a : conflict_analysis_algo) (pv : Nat) :
    resolve s' a pv = resolve s a pv := by
  unfold resolve
  have hcause : (s'.get_implication pv).implication_cause =
      (s.get_implication pv).implication_cause.map (hmap n) := by
    rw [get_implication_rel hr]
    rfl
  rw [hcause]
  cases hc : (s.get_implication pv).implication_cause with
  | none => rfl
  | some cause =>
    dsimp only [Option.map_some']
    rw [getElem?_clauses_rel hr cause]
    cases s.m_clauses[cause]? with
    | none => rfl
    | some prev =>
      dsimp only
      rw [resolve_go_rel hr pv]

theorem algo_get_level_rel (hr : taut_rel n tcl s s')
    (a : conflict_analysis_algo) (d : Nat) :
    algo_get_level s' a d = algo_get_level s a d := by
  unfold algo_get_level
  cases a.implication_depth_to_var.reverse[d]? with
  | none => rfl
  | some p =>
    simp only [Option.map_some']
    have : (s'.get_implication p.2).level = (s.get_implication p.2).level := by
      rw [get_implication_rel hr]
      rfl
    rw [this]

theorem is_unit_rel (hr : taut_rel n tcl s s') (a : conflict_analysis_algo) :
    is_unit s' a = is_unit s a := by
  unfold is_unit
  rw [algo_get_level_rel hr, algo_get_level_rel hr]

theorem analyze_loop_rel (hr : taut_rel n tcl s s') :
    ∀ fuel (a : conflict_analysis_algo),
    analyze_loop s' fuel a = analyze_loop s fuel a := by
  intro fuel
  induction fuel with
  | zero => intro a; rfl
  | succ fuel ih =>
    intro a
    rw [analyze_loop]
    conv_rhs => rw [analyze_loop]
    cases a.implication_depth_to_var.getLast? with
    | none => rfl
    | some p =>
      dsimp only
      rw [resolve_rel hr]
      cases resolve s a p.2 with
      | error e => rfl
      | ok a1 =>
        dsimp only
        rw [is_unit_rel hr]
        split
        · rfl
        · exact ih a1

theorem create_clause_res_rel (hr : taut_rel n tcl s s')
    (a : conflict_analysis_algo) :
    (create_clause s' a).1 = hmap n ((create_clause s a).1) ∧
    taut_rel n tcl (create_clause s a).2 (create_clause s' a).2 := by
  constructor
  · show s'.m_clauses.length = hmap n s.m_clauses.length
    unfold hmap
    rw [if_neg (by have := hr.hn; omega)]
    exact hr.hlen
  · refine ⟨?_, hr.hmax, hr.hins, hr.hdom, hr.himp, hr.hwf2, hr.hwt2,
      hr.hdirty, hr.htrail, hr.hchosen, ?_, ?_, ?_⟩
    · show n ≤ (s.m_clauses ++ [_]).length
      rw [List.length_append]
      have := hr.hn
      omega
    · show (s'.m_clauses ++ [_]).length = (s.m_clauses ++ [_]).length + 1
      rw [List.length_append, List.length_append, hr.hlen]
      omega
    · intro h
      show (s'.m_clauses ++ [_]).getD (hmap n h) default =
        (s.m_clauses ++ [_]).getD h default
      by_cases hlt : h < s.m_clauses.length
      · rw [List.getD_append _ _ _ _ hlt,
          List.getD_append _ _ _ _ ((hr.hmap_lt h).mpr hlt)]
        exact hr.hcl h
      · by_cases heq : h = s.m_clauses.length
        · subst heq
          have hm : hmap n s.m_clauses.length = s'.m_clauses.length := by
            unfold hmap
            rw [if_neg (by have := hr.hn; omega)]
            exact hr.hlen.symm
          rw [hm, getD_append_self, getD_append_self]
        · have hge : s.m_clauses.length + 1 ≤ h := by omega
          have hge2 : s'.m_clauses.length + 1 ≤ hmap n h := by
            have := hr.hn
            have := hr.hlen
            unfold hmap
            split <;> omega
          rw [List.getD_eq_default _ _ (by rw [List.length_append]; simpa),
            List.getD_eq_default _ _ (by rw [List.length_append]; simp; omega)]
    · show (s'.m_clauses ++ [_]).getD n default = tcl
      rw [List.getD_append _ _ _ _ (by have := hr.hn; have := hr.hlen; omega)]
      exact hr.hct

theorem analyze_conflict_rel (hr : taut_rel n tcl s s') (fuel cc : Nat) :
    acR n tcl (analyze_conflict fuel s cc)
      (analyze_conflict fuel s' (hmap n cc)) := by
  unfold analyze_conflict
  have hinit : analysis_init s' (hmap n cc) = analysis_init s cc := by
    unfold analysis_init
    rw [hr.hcl cc]
    exact analysis_init_go_rel hr _ _
  rw [hinit, analyze_loop_rel hr]
  cases analyze_loop s fuel (analysis_init s cc) with
  | error e => exact rfl
  | ok a =>
    dsimp only
    obtain ⟨hh, hrel2⟩ := create_clause_res_rel hr a
    by_cases h1 : a.conflict_literals.length = 1
    · rw [if_pos h1, if_pos h1]
      refine ⟨?_, hrel2⟩
      simp [hh]
    · rw [if_neg h1, if_neg h1, is_unit_rel hr]
      by_cases h2 : is_unit s a = true
      · rw [if_pos h2, if_pos h2]
        cases a.implication_depth_to_var.reverse[1]? with
        | none => exact rfl
        | some p =>
          dsimp only
          refine ⟨?_, hrel2⟩
          have hl : (s'.get_implication p.2).level =
              (s.get_implication p.2).level := by
            rw [get_implication_rel hr]
            rfl
          simp [hh, hl]
      · rw [if_neg h2, if_neg h2]
        exact ⟨rfl, hr⟩

theorem backtrack_pop_rel (l : Nat) : ∀ k s1 s2,
    s1.m_implied_vars.length = k →
    taut_rel n tcl s1 s2 →
    taut_rel n tcl (backtrack_pop s1 l) (backtrack_pop s2 l) := by
  intro k
  induction k using Nat.strong_induction_on with
  | _ k ih =>
    intro s1 s2 hk hr
    cases hlast : s1.m_implied_vars.getLast? with
    | none =>
      have hlast2 : s2.m_implied_vars.getLast? = none := by
        rw [hr.htrail]
        exact hlast
      rw [backtrack_pop_eq_nil s1 l hlast, backtrack_pop_eq_nil s2 l hlast2]
      exact hr
    | some rv =>
      have hlast2 : s2.m_implied_vars.getLast? = some rv := by
        rw [hr.htrail]
        exact hlast
      have hlev : (s2.get_implication rv).level =
          (s1.get_implication rv).level := by
        rw [get_implication_rel hr]
        rfl
      by_cases hle : (s1.get_implication rv).level ≤ l
      · rw [backtrack_pop_eq_keep s1 l rv hlast hle,
          backtrack_pop_eq_keep s2 l rv hlast2 (by rw [hlev]; exact hle)]
        exact hr
      · rw [backtrack_pop_eq_step s1 l rv hlast hle,
          backtrack_pop_eq_step s2 l rv hlast2 (by rw [hlev]; exact hle)]
        have hne : s1.m_implied_vars ≠ [] := by
          intro hx
          rw [hx] at hlast
          cases hlast
        have hpos : 0 < s1.m_implied_vars.length := List.length_pos.mpr hne
        refine ih (s1.m_implied_vars.length - 1) (by omega) _ _
          (by simp) ?_
        refine ⟨hr.hn, hr.hmax, hr.hins, ?_, ?_, hr.hwf2, hr.hwt2,
          hr.hdirty, ?_, hr.hchosen, hr.hlen, hr.hcl, hr.hct⟩
        · show s2.m_domains.set rv binary_domain.universal =
            s1.m_domains.set rv binary_domain.universal
          rw [hr.hdom]
        · show s2.m_implications.set rv implication.neutral =
            (s1.m_implications.set rv implication.neutral).map (imp_rename n)
          rw [List.map_set, hr.himp]
          rfl
        · show s2.m_implied_vars.dropLast = s1.m_implied_vars.dropLast
          rw [hr.htrail]

theorem backtrack_rel (hr : taut_rel n tcl s s') (l : Nat) :
    taut_rel n tcl (backtrack s l) (backtrack s' l) := by
  unfold backtrack
  dsimp only
  have hbp := backtrack_pop_rel l s.m_implied_vars.length s s' rfl hr
  refine ⟨hbp.hn, hbp.hmax, hbp.hins, hbp.hdom, hbp.himp, hbp.hwf2,
    hbp.hwt2, rfl, hbp.htrail, ?_, hbp.hlen, hbp.hcl, hbp.hct⟩
  show vector_resize (backtrack_pop s' l).m_chosen_vars l =
    vector_resize (backtrack_pop s l).m_chosen_vars l
  rw [hbp.hchosen]

end taut_rel

/-- Relation between the two runs' `make_choice` results. -/
def optR (n : Nat) (tcl : clause) : Option cdcl_sat → Option cdcl_sat → Prop
  | none, none => True
  | some t1, some t2 => taut_rel n tcl t1 t2
  | _, _ => False

namespace taut_rel

variable {n : Nat} {tcl : clause} {s s' : cdcl_sat}

theorem make_choice_rel (hr : taut_rel n tcl s s') :
    optR n tcl (make_choice s) (make_choice s') := by
  unfold make_choice
  dsimp only
  rw [hr.hchosen, find_free_var_congr s s' hr.hdom,
    find_free_var_congr s s' hr.hdom]
  cases (if s.m_chosen_vars.isEmpty then find_free_var s 1
      else find_free_var s (s.m_chosen_vars.getLastD 0)) with
  | none => exact trivial
  | some var =>
    dsimp only
    have hr2 : taut_rel n tcl
        { s with m_chosen_vars := s.m_chosen_vars ++ [var] }
        { s' with m_chosen_vars := s.m_chosen_vars ++ [var] } :=
      ⟨hr.hn, hr.hmax, hr.hins, hr.hdom, hr.himp, hr.hwf2, hr.hwt2,
        hr.hdirty, hr.htrail, rfl, hr.hlen, hr.hcl, hr.hct⟩
    exact set_domain_rel hr2 var (binary_domain.ofBool false) none

end taut_rel

theorem initial_propagate_clauses_eq_step (s : cdcl_sat) (h_idx : Nat)
    (hh : h_idx < s.m_clauses.length) :
    initial_propagate_clauses s h_idx =
      if (clause_initial_propagate s h_idx).1 = .UNSAT
        then (false, (clause_initial_propagate s h_idx).2)
        else initial_propagate_clauses
          (clause_initial_propagate s h_idx).2 (h_idx + 1) := by
  rw [initial_propagate_clauses, dif_pos hh]

theorem initial_propagate_clauses_eq_stop (s : cdcl_sat) (h_idx : Nat)
    (hh : ¬ h_idx < s.m_clauses.length) :
    initial_propagate_clauses s h_idx = (true, s) := by
  rw [initial_propagate_clauses, dif_neg hh]

/-- Relation between the two runs' `initial_propagate` results. -/
def bpR (n : Nat) (tcl : clause) :
    Option (Bool × cdcl_sat) → Option (Bool × cdcl_sat) → Prop
  | none, none => True
  | some (b, t1), some (b', t2) => b' = b ∧ taut_rel n tcl t1 t2
  | _, _ => False

namespace taut_rel

variable {n : Nat} {tcl : clause}

theorem initial_propagate_clauses_rel
    (htaut : remove_duplicate_variables tcl = none) :
    ∀ k s1 s2 h_idx, taut_rel n tcl s1 s2 →
    n = s1.m_clauses.length →
    s1.m_clauses.length - h_idx = k →
    h_idx ≤ n →
    (initial_propagate_clauses s2 h_idx).1 =
      (initial_propagate_clauses s1 h_idx).1 ∧
    taut_rel n tcl (initial_propagate_clauses s1 h_idx).2
      (initial_propagate_clauses s2 h_idx).2 := by
  intro k
  induction k with
  | zero =>
    intro s1 s2 h_idx hr hn hk hle
    have hidx : h_idx = n := by omega
    subst hidx
    have hlen2 := hr.hlen
    rw [initial_propagate_clauses_eq_stop s1 h_idx (by omega)]
    rw [initial_propagate_clauses_eq_step s2 h_idx (by omega)]
    rw [clause_initial_propagate_taut hr htaut]
    rw [if_neg (by simp)]
    dsimp only
    rw [initial_propagate_clauses_eq_stop s2 (h_idx + 1) (by omega)]
    exact ⟨rfl, hr⟩
  | succ k ih =>
    intro s1 s2 h_idx hr hn hk hle
    have hidx : h_idx < s1.m_clauses.length := by omega
    have hlen2 := hr.hlen
    rw [initial_propagate_clauses_eq_step s1 h_idx hidx]
    rw [initial_propagate_clauses_eq_step s2 h_idx (by omega)]
    have hm : hmap n h_idx = h_idx := by
      unfold hmap
      rw [if_pos (by omega)]
    obtain ⟨hst, hrel1⟩ := clause_initial_propagate_rel hr h_idx
    rw [hm] at hst hrel1
    rw [hst]
    by_cases hunsat : (clause_initial_propagate s1 h_idx).1 = .UNSAT
    · rw [if_pos hunsat, if_pos hunsat]
      exact ⟨rfl, hrel1⟩
    · rw [if_neg hunsat, if_neg hunsat]
      exact ih (clause_initial_propagate s1 h_idx).2
        (clause_initial_propagate s2 h_idx).2 (h_idx + 1) hrel1
        (by rw [m_clauses_length_clause_initial_propagate]; exact hn)
        (by rw [m_clauses_length_clause_initial_propagate]; omega)
        (by omega)

theorem solver_initial_propagate_rel
    (htaut : remove_duplicate_variables tcl = none) (fuel : Nat)
    (s1 s2 : cdcl_sat)
    (hs2 : s2 = { s1 with m_clauses := s1.m_clauses ++ [tcl] })
    (hn : n = s1.m_clauses.length) :
    bpR n tcl (solver_initial_propagate fuel s1)
      (solver_initial_propagate fuel s2) := by
  subst hs2
  unfold solver_initial_propagate
  dsimp only
  have hr1 : taut_rel n tcl
      { s1 with
        m_dirty_variables := []
        m_implications :=
          List.replicate s1.m_domains.length implication.neutral
        m_implied_vars := []
        m_watches_false := List.replicate s1.m_domains.length []
        m_watches_true := List.replicate s1.m_domains.length [] }
      { s1 with
        m_clauses := s1.m_clauses ++ [tcl]
        m_dirty_variables := []
        m_implications :=
          List.replicate s1.m_domains.length implication.neutral
        m_implied_vars := []
        m_watches_false := List.replicate s1.m_domains.length []
        m_watches_true := List.replicate s1.m_domains.length [] } := by
    refine ⟨hn.le, rfl, rfl, rfl, ?_, ?_, ?_, rfl, rfl, rfl, ?_, ?_, ?_⟩
    · show List.replicate s1.m_domains.length implication.neutral =
        (List.replicate s1.m_domains.length implication.neutral).map
          (imp_rename n)
      rw [List.map_replicate]
      rfl
    · show List.replicate s1.m_domains.length ([] : List Nat) =
        (List.replicate s1.m_domains.length ([] : List Nat)).map
          (List.map (hmap n))
      rw [List.map_replicate]
      rfl
    · show List.replicate s1.m_domains.length ([] : List Nat) =
        (List.replicate s1.m_domains.length ([] : List Nat)).map
          (List.map (hmap n))
      rw [List.map_replicate]
      rfl
    · show (s1.m_clauses ++ [tcl]).length = s1.m_clauses.length + 1
      simp
    · intro h
      show (s1.m_clauses ++ [tcl]).getD (hmap n h) default =
        s1.m_clauses.getD h default
      by_cases hlt : h < s1.m_clauses.length
      · have hm : hmap n h = h := by
          unfold hmap
          rw [if_pos (by omega)]
        rw [hm, List.getD_append _ _ _ _ hlt]
      · have hm : hmap n h = h + 1 := by
          unfold hmap
          rw [if_neg (by omega)]
        rw [hm, List.getD_eq_default _ _ (by rw [List.length_append]; simp; omega),
          List.getD_eq_default _ _ (by omega)]
    · show (s1.m_clauses ++ [tcl]).getD n default = tcl
      rw [hn]
      exact getD_append_self _ _ _
  obtain ⟨hb, hrel2⟩ := initial_propagate_clauses_rel htaut
    _ _ _ 0 hr1 hn rfl (by omega)
  rcases hic1 : initial_propagate_clauses
      { s1 with
        m_dirty_variables := []
        m_implications :=
          List.replicate s1.m_domains.length implication.neutral
        m_implied_vars := []
        m_watches_false := List.replicate s1.m_domains.length []
        m_watches_true := List.replicate s1.m_domains.length [] } 0
    with ⟨b1, t1⟩
  rcases hic2 : initial_propagate_clauses
      { s1 with
        m_clauses := s1.m_clauses ++ [tcl]
        m_dirty_variables := []
        m_implications :=
          List.replicate s1.m_domains.length implication.neutral
        m_implied_vars := []
        m_watches_false := List.replicate s1.m_domains.length []
        m_watches_true := List.replicate s1.m_domains.length [] } 0
    with ⟨b2, t2⟩
  rw [hic1, hic2] at hb hrel2
  dsimp only at hb hrel2
  subst hb
  cases b2 with
  | false => exact ⟨rfl, hrel2⟩
  | true =>
    dsimp only
    have hpl := propagate_loop_rel fuel t1 t2 hrel2
    rcases hpl1 : propagate_loop fuel t1 with _ | ⟨oc, u1⟩ <;>
      rcases hpl2 : propagate_loop fuel t2 with _ | ⟨oc2, u2⟩ <;>
      rw [hpl1, hpl2] at hpl
    · exact trivial
    · exact hpl.elim
    · exact hpl.elim
    · obtain ⟨hoc, hrel3⟩ := hpl
      subst hoc
      cases oc with
      | none => exact ⟨rfl, hrel3⟩
      | some conflict => exact ⟨rfl, hrel3⟩

end taut_rel

/-- Relation between the two runs' `solve_loop` results. -/
def slR (n : Nat) (tcl : clause) :
    Option (solve_status × cdcl_sat) → Option (solve_status × cdcl_sat) → Prop
  | none, none => True
  | some (st, t1), some (st2, t2) => st2 = st ∧ taut_rel n tcl t1 t2
  | _, _ => False

namespace taut_rel

variable {n : Nat} {tcl : clause}

theorem solve_loop_rel (htaut : remove_duplicate_variables tcl = none) :
    ∀ fuel s1 s2 backtracks, taut_rel n tcl s1 s2 →
    slR n tcl (solve_loop s1 backtracks fuel)
      (solve_loop s2 backtracks fuel) := by
  intro fuel
  induction fuel with
  | zero =>
    intro s1 s2 backtracks _
    rw [solve_loop, solve_loop]
    exact trivial
  | succ fuel ih =>
    intro s1 s2 backtracks hr
    rw [solve_loop]
    conv_rhs => rw [solve_loop]
    have hpl := propagate_loop_rel fuel s1 s2 hr
    rcases h1 : propagate_loop fuel s1 with _ | ⟨oc, t1⟩ <;>
      rcases h2 : propagate_loop fuel s2 with _ | ⟨oc2, t2⟩ <;>
      rw [h1, h2] at hpl
    · exact trivial
    · exact hpl.elim
    · exact hpl.elim
    · obtain ⟨hoc, hrel1⟩ := hpl
      subst hoc
      cases oc with
      | none =>
        simp only [Option.map_none']
        have hmc := make_choice_rel hrel1
        rcases hm1 : make_choice t1 with _ | t1x <;>
          rcases hm2 : make_choice t2 with _ | t2x <;>
          rw [hm1, hm2] at hmc
        · dsimp only
          rw [all_singletons_congr t1 t2 hrel1.hdom]
          by_cases has : all_singletons t1 = true
          · rw [if_pos has, if_pos has]
            exact ⟨rfl, hrel1⟩
          · rw [if_neg has, if_neg has]
            exact trivial
        · exact hmc.elim
        · exact hmc.elim
        · exact ih t1x t2x backtracks hmc
      | some cc =>
        simp only [Option.map_some']
        rw [get_level_rel hrel1]
        by_cases hl0 : t1.get_level = 0
        · rw [if_pos hl0, if_pos hl0]
          exact ⟨rfl, hrel1⟩
        · rw [if_neg hl0, if_neg hl0]
          have hac := analyze_conflict_rel hrel1 fuel cc
          rcases ha1 : analyze_conflict fuel t1 cc with e | ⟨olc, u1⟩ <;>
            rcases ha2 : analyze_conflict fuel t2 (hmap n cc)
              with e2 | ⟨olc2, u2⟩ <;>
            rw [ha1, ha2] at hac
          · exact trivial
          · exact hac.elim
          · exact hac.elim
          · obtain ⟨holc, hrel2⟩ := hac
            subst holc
            cases olc with
            | none =>
              simp only [Option.map_none']
              exact ⟨rfl, hrel2⟩
            | some lc =>
              simp only [Option.map_some']
              rw [hrel2.hmax]
              by_cases hbt : backtracks = u1.m_max_backtracks
              · rw [if_pos hbt, if_pos hbt]
                exact ⟨rfl, hrel2⟩
              · rw [if_neg hbt, if_neg hbt]
                have hrel3 := backtrack_rel hrel2 lc.1
                obtain ⟨hu1len, -⟩ :=
                  analyze_conflict_some_len fuel t1 cc lc u1 ha1
                have hn1 : n ≤ t1.m_clauses.length := hrel1.hn
                obtain ⟨-, -, hbc1, -⟩ := backtrack_watch_frame u1 lc.1
                obtain ⟨-, -, hbc2, -⟩ := backtrack_watch_frame u2 lc.1
                have hlen2 := hrel2.hlen
                have hhandle : (backtrack u2 lc.1).m_clauses.length - 1 =
                    hmap n ((backtrack u1 lc.1).m_clauses.length - 1) := by
                  rw [hbc1, hbc2]
                  unfold hmap
                  rw [if_neg (by omega)]
                  omega
                obtain ⟨-, hcirel⟩ := clause_initial_propagate_rel hrel3
                  ((backtrack u1 lc.1).m_clauses.length - 1)
                rw [← hhandle] at hcirel
                exact ih _ _ (backtracks + 1) hcirel

theorem solve_rel (htaut : remove_duplicate_variables tcl = none)
    (fuel : Nat) (s1 s2 : cdcl_sat)
    (hs2 : s2 = { s1 with m_clauses := s1.m_clauses ++ [tcl] })
    (hn : n = s1.m_clauses.length) :
    (solve fuel s2).map Prod.fst = (solve fuel s1).map Prod.fst := by
  subst hs2
  unfold solve
  dsimp only
  have hbp := solver_initial_propagate_rel htaut fuel
    { s1 with m_inside_solve := true }
    { s1 with
      m_inside_solve := true
      m_clauses := s1.m_clauses ++ [tcl] } rfl hn
  rcases hb1 : solver_initial_propagate fuel
      { s1 with m_inside_solve := true } with _ | ⟨b1, t1⟩ <;>
    rcases hb2 : solver_initial_propagate fuel
        { s1 with
          m_inside_solve := true
          m_clauses := s1.m_clauses ++ [tcl] } with _ | ⟨b2, t2⟩ <;>
    rw [hb1, hb2] at hbp
  · exact hbp.elim
  · exact hbp.elim
  · obtain ⟨hb, hrel1⟩ := hbp
    subst hb
    cases b2 with
    | false => rfl
    | true =>
      dsimp only
      have hsl := solve_loop_rel htaut fuel t1 t2 0 hrel1
      rcases hl1 : solve_loop t1 0 fuel with _ | ⟨st1, u1⟩ <;>
        rcases hl2 : solve_loop t2 0 fuel with _ | ⟨st2, u2⟩ <;>
        rw [hl1, hl2] at hsl
      · exact hsl.elim
      · exact hsl.elim
      · obtain ⟨hst, -⟩ := hsl
        subst hst
        rfl

end taut_rel

/-- A literal whose complement also occurs makes the duplicate scan report a
tautology, whichever of the pending list or the seen set each side is in. -/
theorem remove_duplicate_variables_go_taut (v : Int) (hv : v ≠ 0) :
    ∀ (lits seen acc : List Int),
    (v ∈ lits ∨ v ∈ seen) → (-v ∈ lits ∨ -v ∈ seen) →
    ¬ (v ∈ seen ∧ -v ∈ seen) →
    remove_duplicate_variables_go seen acc lits = none := by
  intro lits
  induction lits with
  | nil =>
    intro seen acc h1 h2 h3
    exact absurd ⟨h1.resolve_left (by simp), h2.resolve_left (by simp)⟩ h3
  | cons l rest ih =>
    intro seen acc h1 h2 h3
    rw [remove_duplicate_variables_go]
    by_cases hl : l ∈ seen
    · rw [if_pos hl]
      refine ih seen acc ?_ ?_ h3
      · rcases h1 with h | h
        · rcases List.mem_cons.mp h with h | h
          · exact Or.inr (by rw [h]; exact hl)
          · exact Or.inl h
        · exact Or.inr h
      · rcases h2 with h | h
        · rcases List.mem_cons.mp h with h | h
          · exact Or.inr (by rw [h]; exact hl)
          · exact Or.inl h
        · exact Or.inr h
    · rw [if_neg hl]
      by_cases hnl : -l ∈ seen
      · rw [if_pos hnl]
      · rw [if_neg hnl]
        refine ih (l :: seen) (l :: acc) ?_ ?_ ?_
        · rcases h1 with h | h
          · rcases List.mem_cons.mp h with h | h
            · exact Or.inr (by rw [h]; exact List.mem_cons_self l seen)
            · exact Or.inl h
          · exact Or.inr (List.mem_cons_of_mem l h)
        · rcases h2 with h | h
          · rcases List.mem_cons.mp h with h | h
            · exact Or.inr (by rw [h]; exact List.mem_cons_self l seen)
            · exact Or.inl h
          · exact Or.inr (List.mem_cons_of_mem l h)
        · rintro ⟨hvs, hnvs⟩
          rcases List.mem_cons.mp hvs with hv1 | hv1 <;>
            rcases List.mem_cons.mp hnvs with hv2 | hv2
          · omega
          · exact hnl (by rw [hv1] at hv2; exact hv2)
          · exact hnl (by rw [← hv2, neg_neg]; exact hv1)
          · exact h3 ⟨hv1, hv2⟩

/-- `clause::remove_duplicate_variables` reports a tautology (returns
`none`) for a clause holding a literal and its complement. -/
theorem remove_duplicate_variables_taut (c : clause) (v : Int) (hv : v ≠ 0)
    (hpos : v ∈ c.m_literals) (hneg : -v ∈ c.m_literals) :
    remove_duplicate_variables c = none := by
  unfold remove_duplicate_variables
  rw [remove_duplicate_variables_go_taut v hv c.m_literals [] []
    (Or.inl hpos) (Or.inl hneg) (by simp)]
  rfl

/-- Claim C8: adding a clause that contains both `v` and `¬v` does not
change the status returned by `solve` at any fuel, and such a tautological
clause reports `SAT` at its `initial_propagate` with the solver state — in
particular the watch lists — returned completely unchanged. -/
theorem C8_tautological_clause_solve (s : cdcl_sat) (lits : List Int)
    (v : Nat) (hv : 1 ≤ v) (hpos : (v : Int) ∈ lits)
    (hneg : -(v : Int) ∈ lits) (fuel : Nat) :
    (solve fuel (add_clause_lits s lits)).map Prod.fst =
      (solve fuel s).map Prod.fst ∧
    (∀ s2 h, s2.get_clause h =
        { m_literals := lits, watched0 := 0, watched1 := 0 } →
      clause_initial_propagate s2 h = (.SAT, s2)) := by
  have hv0 : (v : Int) ≠ 0 :=
    Int.natCast_ne_zero.mpr (Nat.one_le_iff_ne_zero.mp hv)
  have htaut : remove_duplicate_variables
      { m_literals := lits, watched0 := 0, watched1 := 0 } = none :=
    remove_duplicate_variables_taut _ (v : Int) hv0 hpos hneg
  constructor
  · exact taut_rel.solve_rel htaut fuel s (add_clause_lits s lits) rfl rfl
  · intro s2 h hc
    unfold clause_initial_propagate
    dsimp only
    rw [hc, htaut]

/-- Claim C8, witnessed at the concrete instance `wstate5` extended with the
tautological clause `x1 ∨ ¬x1`. -/
theorem C8_tautological_clause_solve_witness :
    1 ≤ 1 ∧ ((1 : Nat) : Int) ∈ [(1 : Int), -1] ∧
      -((1 : Nat) : Int) ∈ [(1 : Int), -1] ∧
      ((solve 20 (add_clause_lits wstate5 [1, -1])).map Prod.fst =
        (solve 20 wstate5).map Prod.fst ∧
      (∀ s2 h, s2.get_clause h =
          { m_literals := [1, -1], watched0 := 0, watched1 := 0 } →
        clause_initial_propagate s2 h = (.SAT, s2))) :=
  ⟨by decide, by decide, by decide,
    C8_tautological_clause_solve wstate5 [1, -1] 1 (by decide) (by decide)
      (by decide) 20⟩

end cdcl_sat

/-- Claim C9, counterexample: the clause line `2147483648 0` (a variable
index one past the signed 32-bit positive range) is rejected with the
"Missing 0 at the end of the line" error, not the "invalid header" error the
claim states. -/
theorem C9_counterexample :
    parse_clause_line [2147483648, 0] = .error .missing_zero ∧
    (Except.error dimacs_error.missing_zero : Except dimacs_error (List Int)) ≠
      .error .invalid_header := by
  constructor
  · rfl
  · simp

/-- Claim C9, amended: a clause line whose literal tokens (before the
terminating 0) contain a value outside the signed 32-bit range is rejected,
but with the "Missing 0 at the end of the line" error (extraction fails and
no terminating 0 was read); the "invalid header" error is what the header
parse raises when a header count is out of range or negative. -/
theorem C9_amended_oversized_literal (pre post : List Int) (t : Int)
    (hpre : ∀ x ∈ pre, stream_read_ok x = true ∧ x ≠ 0)
    (ht : stream_read_ok t = false) :
    parse_clause_line (pre ++ t :: post) = .error .missing_zero ∧
    parse_header_counts t 3 = .error .invalid_header := by
  constructor
  · rw [parse_clause_line]
    have hgo : ∀ (pre1 : List Int) (acc : List Int),
        (∀ x ∈ pre1, stream_read_ok x = true ∧ x ≠ 0) →
        parse_clause_line_go acc false (pre1 ++ t :: post) = .error .missing_zero := by
      intro pre1
      induction pre1 with
      | nil =>
        intro acc _
        simp [parse_clause_line_go, ht]
      | cons x rest ih =>
        intro acc hx
        have hxok := hx x (by simp)
        have hrest : ∀ y ∈ rest, stream_read_ok y = true ∧ y ≠ 0 := by
          intro y hy
          exact hx y (by simp [hy])
        simp only [List.cons_append, parse_clause_line_go, hxok.1]
        rw [if_neg (by simp), if_neg (by simp [hxok.1]), if_neg hxok.2]
        exact ih (acc ++ [x]) hrest
    exact hgo pre [] hpre
  · rw [parse_header_counts, if_pos]
    left
    simp [ht]

/-- Witness for the amended C9: the clause line `1 2147483648 0` is rejected
with the missing-zero error, and `2147483648` as a header count produces the
invalid-header error. -/
theorem C9_amended_oversized_literal_witness :
    parse_clause_line [1, 2147483648, 0] = .error .missing_zero ∧
    parse_header_counts 2147483648 3 = .error .invalid_header :=
  C9_amended_oversized_literal [1] [0] 2147483648 (by decide) (by decide)

end SolverSpec
